import Mathlib

/-!
# Site-diluted magnets: lattice geometry, neighbour topology, percolation test and
# same-sign cluster identification

A shallow embedding of `src/lattice.cpp`.  Vectors of the C++ class are lists
(`spin_values_vec_`, `ferro_indices_vec_`, the neighbour table) or total maps from an
index to the stored value (`parent_`, `rank_`).  Narrowing conversions to the 16-bit
coordinate types and to the 32-bit index type are explicit.
-/

namespace DiluteMagnets

set_option maxRecDepth 100000

/-! ## Definitions -/

/-- Conversion of a non-negative value to `uint16_t`. -/
def to_uint16 (v : Nat) : Nat := v % 65536

/-- Conversion of a value to `int16_t` (two's complement wrap-around). -/
def to_int16 (v : Int) : Int := (v + 32768) % 65536 - 32768

/-- Conversion of a value to `uint32_t`. -/
def to_uint32 (v : Int) : Nat := (v % 4294967296).toNat

/-- The data members of the C++ class `Lattice` that `lattice.cpp` reads and writes.
`boundary_conditions_` is `true` for OPEN boundaries and `false` for PERIODIC ones (the
sense in which `generate_neighbors` and `is_cluster_percolation` branch on it).
`neighbors_vec_` is the table handed out by the accessor `neighbors()`. -/
structure Lattice where
  crystal_type_string_ : String
  lattice_size_ : Nat
  n_layers_ : Nat
  boundary_conditions_ : Bool
  spin_values_vec_ : List Int
  ferro_indices_vec_ : List Nat
  parent_ : Nat → Nat
  rank_ : Nat → Nat
  neighbors_vec_ : List (List Nat)

namespace Lattice

/-- Modelled from the spec: the member `lattice_area_` is declared and initialised in the
header, which is not among the sources; the spec derives it as `L*L`. -/
def lattice_area_ (s : Lattice) : Nat := s.lattice_size_ * s.lattice_size_

/-- Modelled from the spec: the member `lattice_volume_` is declared and initialised in the
header, which is not among the sources; the spec derives it as `L*L*n_layers`. -/
def lattice_volume_ (s : Lattice) : Nat := s.lattice_size_ * s.lattice_size_ * s.n_layers_

/-- The extents fit the machine types of the code: candidate coordinates are held in
`int16_t`, decoded coordinates in `uint16_t`, and site indices in `uint32_t`. -/
def fits_machine_types (s : Lattice) : Prop :=
  s.lattice_size_ ≤ 32767 ∧ s.n_layers_ ≤ 32767 ∧ s.lattice_volume_ < 4294967296

instance (s : Lattice) : Decidable s.fits_machine_types := by
  unfold fits_machine_types; infer_instance

/-- `Lattice::get_coordinates_via_index`: the three coordinates are narrowed to
`uint16_t` when they are stored.  Neither subtraction can fall below zero, because
`z * lattice_area_ ≤ index` and `y * lattice_size_ ≤ index - z * lattice_area_`. -/
def get_coordinates_via_index (s : Lattice) (index : Nat) : Nat × Nat × Nat :=
  let z := to_uint16 (index / s.lattice_area_)
  let y := to_uint16 ((index - z * s.lattice_area_) / s.lattice_size_)
  let x := to_uint16 (index - y * s.lattice_size_ - z * s.lattice_area_)
  (x, y, z)

/-- The offset table selected by the crystal-type string in `generate_neighbors`; any
string other than the six accepted spellings raises `std::invalid_argument`. -/
def neighbor_offsets_vec (crystal : String) : Except String (List (Int × Int × Int)) :=
  if crystal = "SC" ∨ crystal = "sc" then
    .ok [(1, 0, 0), (-1, 0, 0), (0, 1, 0), (0, -1, 0), (0, 0, 1), (0, 0, -1)]
  else if crystal = "BCC" ∨ crystal = "bcc" then
    .ok [(1, 0, 0), (-1, 0, 0), (0, 1, 0), (0, -1, 0), (0, 0, 1), (0, 0, -1),
         (1, 1, 1), (-1, -1, -1)]
  else if crystal = "FCC" ∨ crystal = "fcc" then
    .ok [(1, 0, 0), (-1, 0, 0), (0, 1, 0), (0, -1, 0), (1, 1, 0), (-1, -1, 0),
         (1, 0, 1), (-1, 0, -1), (0, 1, 1), (0, -1, -1), (0, 0, 1), (0, 0, -1)]
  else
    .error ("unknown type of crystal")

/-- The body of the inner loop of `generate_neighbors` for the site with decoded
coordinates `(i, j, k)` and one offset: `none` when the OPEN branch executes `continue`,
otherwise the value pushed onto the neighbour list of the site. -/
def neighbor_of_offset (s : Lattice) (i j k : Nat) (offset : Int × Int × Int) : Option Nat :=
  if s.boundary_conditions_ then
    let ni := to_int16 ((i : Int) + offset.1)
    let nj := to_int16 ((j : Int) + offset.2.1)
    let nk := to_int16 ((k : Int) + offset.2.2)
    if ni < 0 ∨ ni ≥ s.lattice_size_ ∨ nj < 0 ∨ nj ≥ s.lattice_size_ ∨ nk < 0
        ∨ nk ≥ s.n_layers_ then
      none
    else
      some (to_uint32 (ni + nj * s.lattice_size_ + nk * s.lattice_area_))
  else
    let ni := to_int16 (Int.tmod ((i : Int) + offset.1 + s.lattice_size_) s.lattice_size_)
    let nj := to_int16 (Int.tmod ((j : Int) + offset.2.1 + s.lattice_size_) s.lattice_size_)
    let nk := to_int16 (Int.tmod ((k : Int) + offset.2.2 + s.n_layers_) s.n_layers_)
    some (to_uint32 (ni + nj * s.lattice_size_ + nk * s.lattice_area_))

/-- The neighbour list built for one site by the inner loop of `generate_neighbors`. -/
def neighbors_of_site (s : Lattice) (offsets : List (Int × Int × Int)) (index : Nat) : List Nat :=
  let c := s.get_coordinates_via_index index
  offsets.filterMap (s.neighbor_of_offset c.1 c.2.1 c.2.2)

/-- `Lattice::generate_neighbors`: one neighbour list per site index below
`lattice_volume_`, or the error raised for an unknown crystal type. -/
def generate_neighbors (s : Lattice) : Except String (List (List Nat)) :=
  match neighbor_offsets_vec s.crystal_type_string_ with
  | .error e => .error e
  | .ok offsets => .ok ((List.range s.lattice_volume_).map (s.neighbors_of_site offsets))

/-- The loop of `Lattice::is_cluster_percolation` over the members that remain, with the
three `unordered_set`s of coordinates seen so far. -/
def percolation_scan (s : Lattice) : List Nat → Finset Nat → Finset Nat → Finset Nat → Bool
  | [], _, _, _ => false
  | index :: rest, unique_x, unique_y, unique_z =>
    let c := s.get_coordinates_via_index index
    let unique_x := insert c.1 unique_x
    let unique_y := insert c.2.1 unique_y
    let unique_z := insert c.2.2 unique_z
    if s.boundary_conditions_ then
      if (c.1 : Int) = 0 ∧ (c.1 : Int) = (s.lattice_size_ : Int) - 1 then true
      else if (c.2.1 : Int) = 0 ∧ (c.2.1 : Int) = (s.lattice_size_ : Int) - 1 then true
      else if (c.2.2 : Int) = 0 ∧ (c.2.2 : Int) = (s.n_layers_ : Int) - 1 then true
      else percolation_scan s rest unique_x unique_y unique_z
    else if unique_x.card = s.lattice_size_ ∨ unique_y.card = s.lattice_size_
        ∨ unique_z.card = s.n_layers_ then true
    else percolation_scan s rest unique_x unique_y unique_z

/-- `Lattice::is_cluster_percolation`. -/
def is_cluster_percolation (s : Lattice) (cluster : List Nat) : Bool :=
  if cluster.length < min s.n_layers_ s.lattice_size_ then false
  else s.percolation_scan cluster ∅ ∅ ∅

/-- `Lattice::find` on the contents of `parent_`: iterative root search with path halving.
`fuel` bounds the number of loop iterations; `none` means the loop has not reached a root
within that many iterations.  The result is the updated `parent_` and the root. -/
def find : Nat → (Nat → Nat) → Nat → Option ((Nat → Nat) × Nat)
  | 0, _, _ => none
  | fuel + 1, parent_, index =>
    if parent_ index ≠ index then
      let parent' := Function.update parent_ index (parent_ (parent_ index))
      find fuel parent' (parent' index)
    else
      some (parent_, index)

/-- `Lattice::union_clusters` on the contents of `parent_` and `rank_`.  The increment of the
rank is taken without overflow. -/
def union_clusters (fuel : Nat) (parent_ rank_ : Nat → Nat) (a b : Nat) :
    Option ((Nat → Nat) × (Nat → Nat)) :=
  match find fuel parent_ a with
  | none => none
  | some (parent1, parent_a) =>
    match find fuel parent1 b with
    | none => none
    | some (parent2, parent_b) =>
      if parent_a = parent_b then
        some (parent2, rank_)
      else if rank_ parent_a < rank_ parent_b then
        some (Function.update parent2 parent_a parent_b, rank_)
      else
        let parent3 := Function.update parent2 parent_b parent_a
        if rank_ parent_a = rank_ parent_b then
          some (parent3, Function.update rank_ parent_a (rank_ parent_a + 1))
        else
          some (parent3, rank_)

/-- The four collections returned by `find_clusters`, in the order of the returned array. -/
structure ClusterCollections where
  clusters_all : List (List Nat)
  clusters_up : List (List Nat)
  clusters_down : List (List Nat)
  clusters_perc : List (List Nat)

/-- The first loop of `find_clusters`: every magnetic index becomes its own parent with
rank one. -/
def init_union_find : List Nat → (Nat → Nat) × (Nat → Nat) → (Nat → Nat) × (Nat → Nat)
  | [], st => st
  | index :: rest, (parent_, rank_) =>
    init_union_find rest (Function.update parent_ index index, Function.update rank_ index 1)

/-- The inner loop of the second loop of `find_clusters`, over the neighbours of `index`
that remain. -/
def union_neighbors (fuel : Nat) (s : Lattice) (index : Nat) :
    List Nat → (Nat → Nat) × (Nat → Nat) → Option ((Nat → Nat) × (Nat → Nat))
  | [], st => some st
  | neighbor_index :: rest, (parent_, rank_) =>
    if s.spin_values_vec_.getD neighbor_index 0 ≠ 0 ∧
        s.spin_values_vec_.getD index 0 = s.spin_values_vec_.getD neighbor_index 0 then
      match union_clusters fuel parent_ rank_ index neighbor_index with
      | none => none
      | some st' => union_neighbors fuel s index rest st'
    else
      union_neighbors fuel s index rest (parent_, rank_)

/-- The second loop of `find_clusters`, over the magnetic indices that remain. -/
def union_sites (fuel : Nat) (s : Lattice) :
    List Nat → (Nat → Nat) × (Nat → Nat) → Option ((Nat → Nat) × (Nat → Nat))
  | [], st => some st
  | index :: rest, st =>
    match union_neighbors fuel s index (s.neighbors_vec_.getD index []) st with
    | none => none
    | some st' => union_sites fuel s rest st'

/-- `cluster_map[parent].push_back(index)`: the entries of the map are kept in the order in
which their keys were first inserted. -/
def cluster_map_push (key index : Nat) : List (Nat × List Nat) → List (Nat × List Nat)
  | [] => [(key, [index])]
  | (k, members) :: rest =>
    if k = key then (k, members ++ [index]) :: rest
    else (k, members) :: cluster_map_push key index rest

/-- The third loop of `find_clusters`: every magnetic index is appended to the entry of its
root; `find` keeps compressing `parent_` on the way. -/
def group_by_root (fuel : Nat) :
    List Nat → (Nat → Nat) → List (Nat × List Nat) → Option ((Nat → Nat) × List (Nat × List Nat))
  | [], parent_, cluster_map => some (parent_, cluster_map)
  | index :: rest, parent_, cluster_map =>
    match find fuel parent_ index with
    | none => none
    | some (parent', parent) =>
      group_by_root fuel rest parent' (cluster_map_push parent index cluster_map)

/-- The last loop of `find_clusters`: a cluster goes to `up` when its first member has spin
`1` and to `down` otherwise, and to `perc` when `is_cluster_percolation` holds for it. -/
def classify_clusters (s : Lattice) (clusters_all : List (List Nat)) : ClusterCollections :=
  { clusters_all := clusters_all
    clusters_up := clusters_all.filter fun cluster =>
      decide (s.spin_values_vec_.getD (cluster.getD 0 0) 0 = 1)
    clusters_down := clusters_all.filter fun cluster =>
      !decide (s.spin_values_vec_.getD (cluster.getD 0 0) 0 = 1)
    clusters_perc := clusters_all.filter fun cluster => s.is_cluster_percolation cluster }

/-- `Lattice::find_clusters`.  `map_order` is the order in which the `unordered_map` is
iterated, some rearrangement of its entries.  The two `resize` calls only fix the valid
index range of `parent_` and `rank_`; as total maps these keep their contents, which stand
for whatever the vectors hold before the first loop writes them.  The result is the lattice
with the contents of `parent_` and `rank_` left behind by the call, and the four
collections; `none` when a `find` loop has not finished within `fuel` iterations. -/
def find_clusters (fuel : Nat) (map_order : List (Nat × List Nat) → List (Nat × List Nat))
    (s : Lattice) : Option (Lattice × ClusterCollections) :=
  let st0 := init_union_find s.ferro_indices_vec_ (s.parent_, s.rank_)
  match union_sites fuel s s.ferro_indices_vec_ st0 with
  | none => none
  | some (parent1, rank1) =>
    match group_by_root fuel s.ferro_indices_vec_ parent1 [] with
    | none => none
    | some (parent2, cluster_map) =>
      let clusters_all := (map_order cluster_map).map fun entry => entry.2
      some ({ s with parent_ := parent2, rank_ := rank1 }, s.classify_clusters clusters_all)

/-- The flat index `x + y*L + z*L*L` of a coordinate triple (spec, data model). -/
def flat_index (s : Lattice) (x y z : Nat) : Nat :=
  x + y * s.lattice_size_ + z * (s.lattice_size_ * s.lattice_size_)

/-- Spec-side neighbour list of the site `(x, y, z)` (spec, NeighborTopology): walk the
offset table in order; PERIODIC wraps every coordinate with a non-negative modulo, OPEN
keeps exactly the offsets whose candidate lies inside the lattice. -/
def spec_neighbors (s : Lattice) (offsets : List (Int × Int × Int)) (x y z : Nat) : List Nat :=
  if s.boundary_conditions_ then
    (offsets.filter fun o =>
        0 ≤ (x : Int) + o.1 ∧ (x : Int) + o.1 < s.lattice_size_ ∧
        0 ≤ (y : Int) + o.2.1 ∧ (y : Int) + o.2.1 < s.lattice_size_ ∧
        0 ≤ (z : Int) + o.2.2 ∧ (z : Int) + o.2.2 < s.n_layers_).map fun o =>
      s.flat_index ((x : Int) + o.1).toNat ((y : Int) + o.2.1).toNat ((z : Int) + o.2.2).toNat
  else
    offsets.map fun o =>
      s.flat_index (((x : Int) + o.1) % s.lattice_size_).toNat
        (((y : Int) + o.2.1) % s.lattice_size_).toNat (((z : Int) + o.2.2) % s.n_layers_).toNat

/-- An offset all of whose components are `-1`, `0` or `1`. -/
def unit_offset (o : Int × Int × Int) : Prop :=
  (-1 ≤ o.1 ∧ o.1 ≤ 1) ∧ (-1 ≤ o.2.1 ∧ o.2.1 ≤ 1) ∧ (-1 ≤ o.2.2 ∧ o.2.2 ≤ 1)

/-- A 2x2x2 body-centred lattice with OPEN boundaries, used to instantiate the theorems. -/
def small_bcc_open : Lattice :=
  { crystal_type_string_ := "BCC", lattice_size_ := 2, n_layers_ := 2,
    boundary_conditions_ := true, spin_values_vec_ := [], ferro_indices_vec_ := [],
    parent_ := fun _ => 0, rank_ := fun _ => 0, neighbors_vec_ := [] }

/-- A 2x2x2 simple-cubic lattice with PERIODIC boundaries, used to instantiate the
theorems. -/
def small_sc_periodic : Lattice :=
  { crystal_type_string_ := "SC", lattice_size_ := 2, n_layers_ := 2,
    boundary_conditions_ := false, spin_values_vec_ := [], ferro_indices_vec_ := [],
    parent_ := fun _ => 0, rank_ := fun _ => 0, neighbors_vec_ := [] }

/-- The geometry of the 3x3x3 simple-cubic lattice for a boundary mode, without spins. -/
def sc3_geometry (boundary : Bool) : Lattice :=
  { crystal_type_string_ := "SC", lattice_size_ := 3, n_layers_ := 3,
    boundary_conditions_ := boundary, spin_values_vec_ := [], ferro_indices_vec_ := [],
    parent_ := fun _ => 0, rank_ := fun _ => 0, neighbors_vec_ := [] }

/-- The neighbour table that `generate_neighbors` builds for the 3x3x3 simple-cubic
lattice. -/
def sc3_neighbors (boundary : Bool) : List (List Nat) :=
  match (sc3_geometry boundary).generate_neighbors with
  | .ok table => table
  | .error _ => []

/-- The 3x3x3 simple-cubic lattice with every spin `+1` and full occupancy, with the
neighbour table of its boundary mode and any contents of `parent_` and `rank_`. -/
def sc3_all_up (boundary : Bool) (parent_ rank_ : Nat → Nat) : Lattice :=
  { crystal_type_string_ := "SC", lattice_size_ := 3, n_layers_ := 3,
    boundary_conditions_ := boundary, spin_values_vec_ := List.replicate 27 1,
    ferro_indices_vec_ := List.range 27, parent_ := parent_, rank_ := rank_,
    neighbors_vec_ := sc3_neighbors boundary }

/-- A 2x2x1 simple-cubic lattice under OPEN boundaries with one up site, two down sites and
one diluted site, used to instantiate the theorems. -/
def small_diluted : Lattice :=
  { crystal_type_string_ := "SC", lattice_size_ := 2, n_layers_ := 1,
    boundary_conditions_ := true, spin_values_vec_ := [1, -1, 0, -1],
    ferro_indices_vec_ := [0, 1, 3], parent_ := fun _ => 0, rank_ := fun _ => 0,
    neighbors_vec_ := [[1, 2], [0, 3], [3, 0], [2, 1]] }

/-- Following parent links from `i` reaches `r`, and `r` is its own parent. -/
def IsRootOf (p : Nat → Nat) (i r : Nat) : Prop := ∃ k, p^[k] i = r ∧ p r = r

/-- The sites `i` and `j` resolve to one root. -/
def SameSet (p : Nat → Nat) (i j : Nat) : Prop := ∃ r, IsRootOf p i r ∧ IsRootOf p j r

/-- The union-find forest over the sites satisfying `M`: parents stay inside `M`, the rank
grows strictly along every parent link, and no rank exceeds `B`. -/
structure UFInv (M : Nat → Prop) (p rk : Nat → Nat) (B : Nat) : Prop where
  closed : ∀ i, M i → M (p i)
  ranked : ∀ i, M i → p i ≠ i → rk i < rk (p i)
  bound : ∀ i, M i → rk i ≤ B

/-- A neighbour link, taken in either direction, between two sites that carry the same
non-zero spin. -/
def same_sign_link (s : Lattice) (a b : Nat) : Prop :=
  (b ∈ s.neighbors_vec_.getD a [] ∨ a ∈ s.neighbors_vec_.getD b []) ∧
    s.spin_values_vec_.getD a 0 ≠ 0 ∧ s.spin_values_vec_.getD a 0 = s.spin_values_vec_.getD b 0

/-- The sites `a` and `b` are joined by a path of same-sign neighbour links. -/
def same_sign_connected (s : Lattice) (a b : Nat) : Prop :=
  Relation.ReflTransGen s.same_sign_link a b

/-- The grouping that the third loop of `find_clusters` performs when the root of every
index `i` is `f i`. -/
def group_fold (f : Nat → Nat) (l : List Nat) (m : List (Nat × List Nat)) :
    List (Nat × List Nat) :=
  l.foldl (fun m i => cluster_map_push (f i) i m) m

/-- A number of loop iterations that is enough for every `find` issued by `find_clusters`:
two more than the number of neighbour entries of the magnetic sites. -/
def find_clusters_fuel (s : Lattice) : Nat :=
  2 + (s.ferro_indices_vec_.map fun i => (s.neighbors_vec_.getD i []).length).sum

/-- What the cluster map holds once the indices `done` have been grouped by `f`: one entry
per value of `f`, holding the indices with that value in their order in `done`. -/
structure GroupInv (f : Nat → Nat) (done : List Nat) (m : List (Nat × List Nat)) : Prop where
  nodup : (m.map Prod.fst).Nodup
  entry : ∀ e ∈ m, e.2 = done.filter (fun i => decide (f i = e.1)) ∧ e.2 ≠ []
  cover : ∀ i ∈ done, f i ∈ m.map Prod.fst

/-- Two contents of a vector hold the same values at the sites satisfying `M`. -/
def AgreeOn (M : Nat → Prop) (p q : Nat → Nat) : Prop := ∀ i, M i → p i = q i

/-- `Lattice::initialize`: the four vectors are cleared, and for every site index in turn a
spin `1` or `-1` is pushed according to the coin `coins i` drawn for it, and the index is
pushed onto `ferro_indices_vec_`.  The cleared `parent_` and `rank_` hold nothing, which as
total maps is the value `0` everywhere. -/
def initialize_lattice (coins : Nat → Bool) (s : Lattice) : Lattice :=
  let filled := (List.range s.lattice_volume_).foldl
    (fun (st : List Int × List Nat) i => (st.1 ++ [if coins i then 1 else -1], st.2 ++ [i]))
    ([], [])
  { s with spin_values_vec_ := filled.1, ferro_indices_vec_ := filled.2,
           parent_ := fun _ => 0, rank_ := fun _ => 0 }

/-- The list that the first loop of `replace_random_spins` rebuilds: the indices of the
non-zero entries of the spin vector, in increasing order. -/
def magnetic_sites (spin : List Int) : List Nat :=
  (List.range spin.length).filter fun i => decide (spin.getD i 0 ≠ 0)

/-- The number of sites with a non-zero spin. -/
def occupancy (s : Lattice) : Nat := (magnetic_sites s.spin_values_vec_).length

/-- The second loop of `replace_random_spins`, with `remaining` passes still allowed by
`non_magnetic_count`; `draws i` is the value drawn in pass `i`.  The pair is
`(spin_values_vec_, ferro_indices_vec_)`. -/
def dilute_loop (draws : Nat → Nat) : Nat → Nat → List Int × List Nat → List Int × List Nat
  | 0, _, st => st
  | remaining + 1, i, (spin, ferro) =>
    if ferro = [] then (spin, ferro)
    else
      let random_index := draws i
      dilute_loop draws remaining (i + 1)
        (spin.set (ferro.getD random_index 0) 0, ferro.eraseIdx random_index)

/-- `Lattice::replace_random_spins`; `draws i` is the value that the uniform distribution
over the positions of the current list returns in pass `i` of the loop. -/
def replace_random_spins (non_magnetic_count : Nat) (draws : Nat → Nat) (s : Lattice) : Lattice :=
  if non_magnetic_count = 0 then s
  else
    let ferro := magnetic_sites s.spin_values_vec_
    if ferro = [] then { s with ferro_indices_vec_ := ferro }
    else
      let st := dilute_loop draws non_magnetic_count 0 (s.spin_values_vec_, ferro)
      { s with spin_values_vec_ := st.1, ferro_indices_vec_ := st.2 }

/-- The inner loop of the growth loop of `wolf` over the neighbours that remain.  The state
is the cluster, the marker array `is_cluster` and the number of Bernoulli draws made so
far; `coins n` is the outcome of draw number `n`, made only when the first two tests of the
condition hold. -/
def wolf_scan (spin : List Int) (initial_spin : Int) (coins : Nat → Bool) :
    List Nat → List Nat × (Nat → Nat) × Nat → List Nat × (Nat → Nat) × Nat
  | [], st => st
  | neighbor_index :: rest, (cluster, is_cluster, used) =>
    if is_cluster neighbor_index = 0 ∧ initial_spin = spin.getD neighbor_index 0 then
      if coins used then
        wolf_scan spin initial_spin coins rest
          (cluster ++ [neighbor_index], Function.update is_cluster neighbor_index 1, used + 1)
      else
        wolf_scan spin initial_spin coins rest (cluster, is_cluster, used + 1)
    else
      wolf_scan spin initial_spin coins rest (cluster, is_cluster, used)

/-- The growth loop of `wolf` from position `index` of the cluster on; `fuel` bounds the
number of tests of the loop condition, and `none` means that the loop has not finished
within them. -/
def wolf_grow (s : Lattice) (initial_spin : Int) (coins : Nat → Bool) :
    Nat → Nat → List Nat × (Nat → Nat) × Nat → Option (List Nat × (Nat → Nat) × Nat)
  | 0, _, _ => none
  | fuel + 1, index, st =>
    if index < st.1.length then
      let current := st.1.getD index 0
      wolf_grow s initial_spin coins fuel (index + 1)
        (wolf_scan s.spin_values_vec_ initial_spin coins (s.neighbors_vec_.getD current []) st)
    else
      some st

/-- The cluster that `wolf` grows when the lattice has a magnetic site: `seed_draw` is the
position drawn in `ferro_indices_vec_` for the seed. -/
def wolf_cluster (fuel seed_draw : Nat) (coins : Nat → Bool) (s : Lattice) : Option (List Nat) :=
  let start_index := s.ferro_indices_vec_.getD seed_draw 0
  let initial_spin := s.spin_values_vec_.getD start_index 0
  match wolf_grow s initial_spin coins fuel 0
      ([start_index], Function.update (fun _ => 0) start_index 1, 0) with
  | none => none
  | some st => some st.1

/-- The last loop of `wolf`: the spin of every member of the cluster is multiplied by `-1`. -/
def flip_cluster (spin : List Int) (cluster : List Nat) : List Int :=
  cluster.foldl (fun sp index => sp.set index (sp.getD index 0 * -1)) spin

/-- `Lattice::wolf`.  The temperature only fixes the probability with which a Bernoulli
draw succeeds; the outcomes of the draws are `coins`. -/
def wolf (fuel seed_draw : Nat) (coins : Nat → Bool) (s : Lattice) : Option Lattice :=
  if s.ferro_indices_vec_ = [] then some s
  else
    match wolf_cluster fuel seed_draw coins s with
    | none => none
    | some cluster => some { s with spin_values_vec_ := flip_cluster s.spin_values_vec_ cluster }

/-- The invariant of the spin field: the spin vector has one entry per site, each `-1`, `0`
or `1`, and `ferro_indices_vec_` lists without repetition exactly the sites with a non-zero
spin. -/
def spin_field_invariant (s : Lattice) : Prop :=
  s.spin_values_vec_.length = s.lattice_volume_ ∧
  s.ferro_indices_vec_.Nodup ∧
  (∀ v ∈ s.spin_values_vec_, v = -1 ∨ v = 0 ∨ v = 1) ∧
  (∀ i, i ∈ s.ferro_indices_vec_ ↔ (i < s.lattice_volume_ ∧ s.spin_values_vec_.getD i 0 ≠ 0))

/-- What holds of the cluster and the marker array during the growth loop of `wolf`. -/
structure WolfInv (s : Lattice) (start_index : Nat) (initial_spin : Int) (cluster : List Nat)
    (is_cluster : Nat → Nat) : Prop where
  nodup : cluster.Nodup
  marked : ∀ x, is_cluster x ≠ 0 ↔ x ∈ cluster
  start_mem : start_index ∈ cluster
  spin_eq : ∀ x ∈ cluster, x = start_index ∨ s.spin_values_vec_.getD x 0 = initial_spin
  from_table : ∀ x ∈ cluster, x = start_index ∨ x ∈ s.neighbors_vec_.flatten
  reach : ∀ x ∈ cluster, Relation.ReflTransGen
    (fun a b => a ∈ cluster ∧ b ∈ cluster ∧ b ∈ s.neighbors_vec_.getD a []) start_index x

/-- A number of tests of the growth-loop condition of `wolf` that is always enough: two
more than the number of entries of the neighbour table. -/
def wolf_fuel (s : Lattice) : Nat := 2 + s.neighbors_vec_.flatten.length

/-- The progress computation at the head of the configuration loop of `simulate_lattice`,
for `int` operands: `none` when a modulo or a quotient by zero is evaluated, otherwise
`some (some persent)` when the percentage is printed and `some none` when it is not. -/
def progress_report (num_configuration configuration : Int) : Option (Option Int) :=
  let progres_step := Int.tdiv num_configuration 100
  if progres_step = 0 then none
  else if Int.tmod configuration progres_step = 0 ∨ configuration = num_configuration - 1 then
    if num_configuration - 1 = 0 then none
    else some (some (Int.tdiv (configuration * 100) (num_configuration - 1)))
  else some none

/-- The lattice of crystal type `Sc`, a mixed-case spelling of `SC`. -/
def mixed_case_sc : Lattice :=
  { crystal_type_string_ := "Sc", lattice_size_ := 3, n_layers_ := 3,
    boundary_conditions_ := false, spin_values_vec_ := [], ferro_indices_vec_ := [],
    parent_ := fun _ => 0, rank_ := fun _ => 0, neighbors_vec_ := [] }

/-! ## Theorems -/

theorem to_uint16_of_lt {v : Nat} (h : v < 65536) : to_uint16 v = v := Nat.mod_eq_of_lt h

theorem to_int16_of_range {v : Int} (h1 : -32768 ≤ v) (h2 : v ≤ 32767) : to_int16 v = v := by
  unfold to_int16; omega

theorem to_uint32_natCast {m : Nat} (h : m < 4294967296) : to_uint32 (m : Int) = m := by
  unfold to_uint32; omega

theorem flat_lt_area {L x y : Nat} (hx : x < L) (hy : y < L) : x + y * L < L * L := by
  have h1 : (y + 1) * L ≤ L * L := Nat.mul_le_mul_right L hy
  have h2 : (y + 1) * L = y * L + L := by ring
  omega

theorem flat_lt_volume {L n x y z : Nat} (hx : x < L) (hy : y < L) (hz : z < n) :
    x + y * L + z * (L * L) < L * L * n := by
  have h0 := flat_lt_area hx hy
  have h1 : (z + 1) * (L * L) ≤ n * (L * L) := Nat.mul_le_mul_right _ hz
  have h2 : (z + 1) * (L * L) = z * (L * L) + L * L := by ring
  have h3 : n * (L * L) = L * L * n := by ring
  omega

theorem flat_index_lt_volume (s : Lattice) {x y z : Nat} (hx : x < s.lattice_size_)
    (hy : y < s.lattice_size_) (hz : z < s.n_layers_) :
    s.flat_index x y z < s.lattice_volume_ := flat_lt_volume hx hy hz

/-- Decoding the flat index of in-range coordinates gives the coordinates back. -/
theorem get_coordinates_flat_index (s : Lattice) {x y z : Nat}
    (hL : s.lattice_size_ ≤ 65536) (hn : s.n_layers_ ≤ 65536)
    (hx : x < s.lattice_size_) (hy : y < s.lattice_size_) (hz : z < s.n_layers_) :
    s.get_coordinates_via_index (s.flat_index x y z) = (x, y, z) := by
  have hLpos : 0 < s.lattice_size_ := by omega
  have hApos : 0 < s.lattice_size_ * s.lattice_size_ := Nat.mul_pos hLpos hLpos
  have hxy := flat_lt_area hx hy
  have hz' : (x + y * s.lattice_size_ + z * (s.lattice_size_ * s.lattice_size_))
      / (s.lattice_size_ * s.lattice_size_) = z := by
    rw [Nat.add_mul_div_right _ _ hApos, Nat.div_eq_of_lt hxy, Nat.zero_add]
  have hy' : (x + y * s.lattice_size_) / s.lattice_size_ = y := by
    rw [Nat.add_mul_div_right _ _ hLpos, Nat.div_eq_of_lt hx, Nat.zero_add]
  simp only [get_coordinates_via_index, flat_index, lattice_area_, hz',
    to_uint16_of_lt (show z < 65536 by omega), Nat.add_sub_cancel, hy',
    to_uint16_of_lt (show y < 65536 by omega)]
  have hx' : x + y * s.lattice_size_ + z * (s.lattice_size_ * s.lattice_size_)
      - y * s.lattice_size_ - z * (s.lattice_size_ * s.lattice_size_) = x := by omega
  rw [hx', to_uint16_of_lt (show x < 65536 by omega)]

/-- Every index below the volume is the flat index of in-range coordinates. -/
theorem exists_coordinates_of_lt_volume (s : Lattice) {index : Nat}
    (h : index < s.lattice_volume_) :
    ∃ x y z, x < s.lattice_size_ ∧ y < s.lattice_size_ ∧ z < s.n_layers_ ∧
      index = s.flat_index x y z := by
  have hLpos : 0 < s.lattice_size_ := by
    rcases Nat.eq_zero_or_pos s.lattice_size_ with h0 | h0
    · simp [lattice_volume_, h0] at h
    · exact h0
  have hApos : 0 < s.lattice_size_ * s.lattice_size_ := Nat.mul_pos hLpos hLpos
  refine ⟨index % s.lattice_size_, index / s.lattice_size_ % s.lattice_size_,
    index / (s.lattice_size_ * s.lattice_size_), Nat.mod_lt _ hLpos, Nat.mod_lt _ hLpos, ?_, ?_⟩
  · exact (Nat.div_lt_iff_lt_mul hApos).2 (by rw [Nat.mul_comm]; exact h)
  · unfold flat_index
    have h1 := Nat.mod_add_div index s.lattice_size_
    have h2 := Nat.mod_add_div (index / s.lattice_size_) s.lattice_size_
    have h3 : index / (s.lattice_size_ * s.lattice_size_)
        = index / s.lattice_size_ / s.lattice_size_ := (Nat.div_div_eq_div_mul _ _ _).symm
    rw [h3]
    calc index = index % s.lattice_size_ + s.lattice_size_ * (index / s.lattice_size_) := h1.symm
      _ = index % s.lattice_size_ + s.lattice_size_ *
            (index / s.lattice_size_ % s.lattice_size_
              + s.lattice_size_ * (index / s.lattice_size_ / s.lattice_size_)) := by rw [h2]
      _ = _ := by ring

theorem neighbor_offsets_vec_cases {crystal : String} {offsets : List (Int × Int × Int)}
    (h : neighbor_offsets_vec crystal = .ok offsets) :
    offsets = [(1, 0, 0), (-1, 0, 0), (0, 1, 0), (0, -1, 0), (0, 0, 1), (0, 0, -1)] ∨
    offsets = [(1, 0, 0), (-1, 0, 0), (0, 1, 0), (0, -1, 0), (0, 0, 1), (0, 0, -1),
         (1, 1, 1), (-1, -1, -1)] ∨
    offsets = [(1, 0, 0), (-1, 0, 0), (0, 1, 0), (0, -1, 0), (1, 1, 0), (-1, -1, 0),
         (1, 0, 1), (-1, 0, -1), (0, 1, 1), (0, -1, -1), (0, 0, 1), (0, 0, -1)] := by
  unfold neighbor_offsets_vec at h
  split_ifs at h
  · left; exact (Except.ok.inj h).symm
  · right; left; exact (Except.ok.inj h).symm
  · right; right; exact (Except.ok.inj h).symm

theorem neighbor_offsets_vec_unit {crystal : String} {offsets : List (Int × Int × Int)}
    (h : neighbor_offsets_vec crystal = .ok offsets) : ∀ o ∈ offsets, unit_offset o := by
  rcases neighbor_offsets_vec_cases h with h' | h' | h' <;> subst h' <;> simp [unit_offset]

theorem to_uint32_flat (s : Lattice) (hfit : s.fits_machine_types) {a b c : Int}
    (ha : 0 ≤ a ∧ a < s.lattice_size_) (hb : 0 ≤ b ∧ b < s.lattice_size_)
    (hc : 0 ≤ c ∧ c < s.n_layers_) :
    to_uint32 (a + b * s.lattice_size_ + c * s.lattice_area_)
      = s.flat_index a.toNat b.toNat c.toNat := by
  obtain ⟨a', rfl⟩ := Int.eq_ofNat_of_zero_le ha.1
  obtain ⟨b', rfl⟩ := Int.eq_ofNat_of_zero_le hb.1
  obtain ⟨c', rfl⟩ := Int.eq_ofNat_of_zero_le hc.1
  have ha' : a' < s.lattice_size_ := by exact_mod_cast ha.2
  have hb' : b' < s.lattice_size_ := by exact_mod_cast hb.2
  have hc' : c' < s.n_layers_ := by exact_mod_cast hc.2
  have hlt := s.flat_index_lt_volume ha' hb' hc'
  have hcast : ((a' : Int) + (b' : Int) * s.lattice_size_ + (c' : Int) * s.lattice_area_)
      = ((s.flat_index a' b' c' : Nat) : Int) := by
    simp [flat_index, lattice_area_]
  rw [hcast, to_uint32_natCast (lt_trans hlt hfit.2.2)]
  simp

theorem neighbor_of_offset_open (s : Lattice) (hopen : s.boundary_conditions_ = true)
    (hfit : s.fits_machine_types) {x y z : Nat} (hx : x < s.lattice_size_)
    (hy : y < s.lattice_size_) (hz : z < s.n_layers_) {o : Int × Int × Int}
    (ho : unit_offset o) :
    s.neighbor_of_offset x y z o =
      if 0 ≤ (x : Int) + o.1 ∧ (x : Int) + o.1 < s.lattice_size_ ∧
        0 ≤ (y : Int) + o.2.1 ∧ (y : Int) + o.2.1 < s.lattice_size_ ∧
        0 ≤ (z : Int) + o.2.2 ∧ (z : Int) + o.2.2 < s.n_layers_
      then some (s.flat_index ((x : Int) + o.1).toNat ((y : Int) + o.2.1).toNat
        ((z : Int) + o.2.2).toNat)
      else none := by
  obtain ⟨hL, hn, _⟩ := hfit
  obtain ⟨⟨h1, h2⟩, ⟨h3, h4⟩, h5, h6⟩ := ho
  have e1 : to_int16 ((x : Int) + o.1) = (x : Int) + o.1 := to_int16_of_range (by omega) (by omega)
  have e2 : to_int16 ((y : Int) + o.2.1) = (y : Int) + o.2.1 :=
    to_int16_of_range (by omega) (by omega)
  have e3 : to_int16 ((z : Int) + o.2.2) = (z : Int) + o.2.2 :=
    to_int16_of_range (by omega) (by omega)
  simp only [neighbor_of_offset, hopen, if_true, e1, e2, e3]
  split_ifs with hc hp hp
  · omega
  · rfl
  · rw [s.to_uint32_flat ⟨hL, hn, ‹_›⟩ ⟨hp.1, hp.2.1⟩ ⟨hp.2.2.1, hp.2.2.2.1⟩
      ⟨hp.2.2.2.2.1, hp.2.2.2.2.2⟩]
  · omega

theorem neighbor_of_offset_periodic (s : Lattice) (hper : s.boundary_conditions_ = false)
    (hfit : s.fits_machine_types) {x y z : Nat} (hx : x < s.lattice_size_)
    (hy : y < s.lattice_size_) (hz : z < s.n_layers_) {o : Int × Int × Int}
    (ho : unit_offset o) :
    s.neighbor_of_offset x y z o =
      some (s.flat_index (((x : Int) + o.1) % s.lattice_size_).toNat
        (((y : Int) + o.2.1) % s.lattice_size_).toNat
        (((z : Int) + o.2.2) % s.n_layers_).toNat) := by
  obtain ⟨hL, hn, hV⟩ := hfit
  obtain ⟨⟨h1, h2⟩, ⟨h3, h4⟩, h5, h6⟩ := ho
  have hLpos : (0 : Int) < s.lattice_size_ := by omega
  have hnpos : (0 : Int) < s.n_layers_ := by omega
  have m1 : Int.tmod ((x : Int) + o.1 + s.lattice_size_) s.lattice_size_
      = ((x : Int) + o.1) % s.lattice_size_ := by
    rw [Int.tmod_eq_emod (by omega) (by omega), Int.add_emod_self]
  have m2 : Int.tmod ((y : Int) + o.2.1 + s.lattice_size_) s.lattice_size_
      = ((y : Int) + o.2.1) % s.lattice_size_ := by
    rw [Int.tmod_eq_emod (by omega) (by omega), Int.add_emod_self]
  have m3 : Int.tmod ((z : Int) + o.2.2 + s.n_layers_) s.n_layers_
      = ((z : Int) + o.2.2) % s.n_layers_ := by
    rw [Int.tmod_eq_emod (by omega) (by omega), Int.add_emod_self]
  have b1 := Int.emod_nonneg ((x : Int) + o.1) (ne_of_gt hLpos)
  have b1' := Int.emod_lt_of_pos ((x : Int) + o.1) hLpos
  have b2 := Int.emod_nonneg ((y : Int) + o.2.1) (ne_of_gt hLpos)
  have b2' := Int.emod_lt_of_pos ((y : Int) + o.2.1) hLpos
  have b3 := Int.emod_nonneg ((z : Int) + o.2.2) (ne_of_gt hnpos)
  have b3' := Int.emod_lt_of_pos ((z : Int) + o.2.2) hnpos
  simp only [neighbor_of_offset, hper, m1, m2, m3, Bool.false_eq_true, if_false]
  rw [to_int16_of_range (by omega) (by omega), to_int16_of_range (by omega) (by omega),
    to_int16_of_range (by omega) (by omega),
    s.to_uint32_flat ⟨hL, hn, hV⟩ ⟨b1, b1'⟩ ⟨b2, b2'⟩ ⟨b3, b3'⟩]

theorem filterMap_ite_eq_map_filter {α β : Type} (p : α → Prop) [DecidablePred p] (g : α → β)
    (f : α → Option β) (l : List α) (h : ∀ a ∈ l, f a = if p a then some (g a) else none) :
    l.filterMap f = (l.filter fun a => p a).map g := by
  induction l with
  | nil => rfl
  | cons a l ih =>
    have ha := h a (List.mem_cons_self _ _)
    have ih' := ih fun b hb => h b (List.mem_cons_of_mem _ hb)
    by_cases hp : p a
    · simp [List.filterMap_cons, ha, hp, ih']
    · simp [List.filterMap_cons, ha, hp, ih']

/-- The list that `generate_neighbors` builds for the site `(x, y, z)` is the spec's. -/
theorem neighbors_of_site_flat_index (s : Lattice) (hfit : s.fits_machine_types)
    {offsets : List (Int × Int × Int)} (hoff : ∀ o ∈ offsets, unit_offset o)
    {x y z : Nat} (hx : x < s.lattice_size_) (hy : y < s.lattice_size_) (hz : z < s.n_layers_) :
    s.neighbors_of_site offsets (s.flat_index x y z) = s.spec_neighbors offsets x y z := by
  have hdec := s.get_coordinates_flat_index (by have := hfit.1; omega) (by have := hfit.2.1; omega)
    hx hy hz
  unfold neighbors_of_site spec_neighbors
  rw [hdec]
  cases hb : s.boundary_conditions_ with
  | true =>
    simp only [if_true]
    exact filterMap_ite_eq_map_filter _ _ _ _ fun o ho =>
      s.neighbor_of_offset_open hb hfit hx hy hz (hoff o ho)
  | false =>
    simp only [Bool.false_eq_true, if_false]
    rw [← List.filterMap_eq_map]
    apply List.filterMap_congr
    intro o ho
    exact s.neighbor_of_offset_periodic hb hfit hx hy hz (hoff o ho)

theorem spec_neighbors_lt_volume (s : Lattice) (offsets : List (Int × Int × Int))
    {x y z : Nat} (hx : x < s.lattice_size_) (hz : z < s.n_layers_) :
    ∀ j ∈ s.spec_neighbors offsets x y z, j < s.lattice_volume_ := by
  intro j hj
  unfold spec_neighbors at hj
  split_ifs at hj
  · obtain ⟨o, ho, rfl⟩ := List.mem_map.1 hj
    have hp := (List.mem_filter.1 ho).2
    simp only [decide_eq_true_eq] at hp
    exact s.flat_index_lt_volume (by omega) (by omega) (by omega)
  · obtain ⟨o, -, rfl⟩ := List.mem_map.1 hj
    have hLpos : (0 : Int) < s.lattice_size_ := by omega
    have hnpos : (0 : Int) < s.n_layers_ := by omega
    have b1 := Int.emod_nonneg ((x : Int) + o.1) (ne_of_gt hLpos)
    have b1' := Int.emod_lt_of_pos ((x : Int) + o.1) hLpos
    have b2 := Int.emod_nonneg ((y : Int) + o.2.1) (ne_of_gt hLpos)
    have b2' := Int.emod_lt_of_pos ((y : Int) + o.2.1) hLpos
    have b3 := Int.emod_nonneg ((z : Int) + o.2.2) (ne_of_gt hnpos)
    have b3' := Int.emod_lt_of_pos ((z : Int) + o.2.2) hnpos
    exact s.flat_index_lt_volume (by omega) (by omega) (by omega)

theorem generate_neighbors_eq_ok (s : Lattice) {offsets : List (Int × Int × Int)}
    (hc : neighbor_offsets_vec s.crystal_type_string_ = .ok offsets) :
    s.generate_neighbors = .ok ((List.range s.lattice_volume_).map (s.neighbors_of_site offsets)) := by
  unfold generate_neighbors; rw [hc]

theorem getD_map_range {α : Type} (f : Nat → α) (d : α) {n i : Nat} (h : i < n) :
    ((List.range n).map f).getD i d = f i := by
  rw [List.getD_eq_getElem _ _ (by simpa using h)]
  simp

/-- Claim C8. For a recognised crystal type (the offset table exists) and extents that fit the
machine types, `generate_neighbors` succeeds, builds one list per site, the list of the site
`(x, y, z)` is the spec's walk of the offset table (wrapped under PERIODIC, filtered under
OPEN), and every emitted neighbour index is below `lattice_volume_`. -/
theorem generate_neighbors_refines_spec (s : Lattice) (offsets : List (Int × Int × Int))
    (hc : neighbor_offsets_vec s.crystal_type_string_ = .ok offsets)
    (hfit : s.fits_machine_types) :
    ∃ table, s.generate_neighbors = .ok table ∧ table.length = s.lattice_volume_ ∧
      (∀ x y z, x < s.lattice_size_ → y < s.lattice_size_ → z < s.n_layers_ →
        table.getD (s.flat_index x y z) [] = s.spec_neighbors offsets x y z) ∧
      (∀ l ∈ table, ∀ j ∈ l, j < s.lattice_volume_) := by
  have hoff := neighbor_offsets_vec_unit hc
  refine ⟨_, s.generate_neighbors_eq_ok hc, by simp, ?_, ?_⟩
  · intro x y z hx hy hz
    rw [getD_map_range _ _ (s.flat_index_lt_volume hx hy hz)]
    exact s.neighbors_of_site_flat_index hfit hoff hx hy hz
  · intro l hl j hj
    obtain ⟨index, hi, rfl⟩ := List.mem_map.1 hl
    obtain ⟨x, y, z, hx, hy, hz, rfl⟩ := s.exists_coordinates_of_lt_volume (List.mem_range.1 hi)
    rw [s.neighbors_of_site_flat_index hfit hoff hx hy hz] at hj
    exact s.spec_neighbors_lt_volume offsets hx hz j hj

theorem generate_neighbors_refines_spec_witness :
    ∃ table, small_bcc_open.generate_neighbors = .ok table ∧
      table.length = small_bcc_open.lattice_volume_ ∧
      (∀ x y z, x < small_bcc_open.lattice_size_ → y < small_bcc_open.lattice_size_ →
        z < small_bcc_open.n_layers_ →
        table.getD (small_bcc_open.flat_index x y z) []
          = small_bcc_open.spec_neighbors
              [(1, 0, 0), (-1, 0, 0), (0, 1, 0), (0, -1, 0), (0, 0, 1), (0, 0, -1),
                (1, 1, 1), (-1, -1, -1)] x y z) ∧
      (∀ l ∈ table, ∀ j ∈ l, j < small_bcc_open.lattice_volume_) :=
  generate_neighbors_refines_spec small_bcc_open _ rfl (by decide)

theorem add_mul_mod_65536 (a q : Nat) : (a + 65536 * q) % 65536 = a % 65536 := by omega

/-- The coordinates decoded from an index below the volume lie inside the lattice, also when
the extents exceed the 16-bit range. -/
theorem get_coordinates_lt (s : Lattice) {index : Nat} (h : index < s.lattice_volume_) :
    (s.get_coordinates_via_index index).1 < s.lattice_size_ ∧
    (s.get_coordinates_via_index index).2.1 < s.lattice_size_ ∧
    (s.get_coordinates_via_index index).2.2 < s.n_layers_ := by
  have hLpos : 0 < s.lattice_size_ := by
    rcases Nat.eq_zero_or_pos s.lattice_size_ with h0 | h0
    · simp [lattice_volume_, h0] at h
    · exact h0
  have hApos : 0 < s.lattice_size_ * s.lattice_size_ := Nat.mul_pos hLpos hLpos
  set L := s.lattice_size_ with hLdef
  set z := index / (L * L) with hz
  set r := index % (L * L) with hr
  have hi : index = r + z * (L * L) := by
    rw [hz, hr, Nat.mul_comm (index / (L * L))]; exact (Nat.mod_add_div index (L * L)).symm
  have hzlt : z < s.n_layers_ := (Nat.div_lt_iff_lt_mul hApos).2 (by rw [Nat.mul_comm]; exact h)
  have hrlt : r < L * L := Nat.mod_lt _ hApos
  -- the truncated layer and what the truncation removes
  have hzc : z = z % 65536 + 65536 * (z / 65536) := (Nat.mod_add_div z 65536).symm
  have e1 : index - z % 65536 * (L * L) = r + (65536 * (z / 65536) * L) * L := by
    have : z * (L * L) = z % 65536 * (L * L) + (65536 * (z / 65536) * L) * L := by
      conv_lhs => rw [hzc]
      ring
    omega
  have e2 : (index - z % 65536 * (L * L)) / L = r / L + 65536 * (z / 65536 * L) := by
    rw [e1, Nat.add_mul_div_right _ _ hLpos]; ring
  set y := r / L with hy
  have hylt : y < L := (Nat.div_lt_iff_lt_mul hLpos).2 hrlt
  have hrL : r = r % L + L * y := (Nat.mod_add_div r L).symm
  have hyc : y = y % 65536 + 65536 * (y / 65536) := (Nat.mod_add_div y 65536).symm
  have e3 : ((index - z % 65536 * (L * L)) / L) % 65536 = y % 65536 := by
    rw [e2]; exact add_mul_mod_65536 _ _
  have e4 : index - y % 65536 * L - z % 65536 * (L * L)
      = r % L + 65536 * (y / 65536 * L + z / 65536 * L * L) := by
    have h1 : L * y = y % 65536 * L + 65536 * (y / 65536 * L) := by
      conv_lhs => rw [hyc]
      ring
    have h2 : z * (L * L) = z % 65536 * (L * L) + 65536 * (z / 65536 * L * L) := by
      conv_lhs => rw [hzc]
      ring
    have h3 : 65536 * (y / 65536 * L + z / 65536 * L * L)
        = 65536 * (y / 65536 * L) + 65536 * (z / 65536 * L * L) := by ring
    omega
  have hx : (s.get_coordinates_via_index index).1 = (r % L) % 65536 := by
    simp only [get_coordinates_via_index, lattice_area_, to_uint16, ← hLdef, ← hz, e3, e4]
    exact add_mul_mod_65536 _ _
  have hyy : (s.get_coordinates_via_index index).2.1 = y % 65536 := by
    simp only [get_coordinates_via_index, lattice_area_, to_uint16, ← hLdef, ← hz, e3]
  have hzz : (s.get_coordinates_via_index index).2.2 = z % 65536 := by
    simp only [get_coordinates_via_index, lattice_area_, to_uint16, ← hLdef, ← hz]
  rw [hx, hyy, hzz]
  have := Nat.mod_lt r hLpos
  have := Nat.mod_le (r % L) 65536
  have := Nat.mod_le y 65536
  have := Nat.mod_le z 65536
  omega
theorem card_le_of_subset_range {u : Finset Nat} {n : Nat} (h : u ⊆ Finset.range n) :
    u.card ≤ n := by
  simpa using Finset.card_le_card h

theorem card_eq_of_between {u v : Finset Nat} {n : Nat} (huv : u ⊆ v)
    (hv : v ⊆ Finset.range n) (hu : u.card = n) : v.card = n :=
  le_antisymm (card_le_of_subset_range hv) (hu ▸ Finset.card_le_card huv)

/-- Under PERIODIC boundaries the scan over valid members succeeds exactly when, together
with what has been seen before, the members cover an axis. -/
theorem percolation_scan_periodic (s : Lattice) (hper : s.boundary_conditions_ = false)
    (cluster : List Nat) (hvalid : ∀ i ∈ cluster, i < s.lattice_volume_) :
    ∀ ux uy uz : Finset Nat, ux ⊆ Finset.range s.lattice_size_ →
      uy ⊆ Finset.range s.lattice_size_ → uz ⊆ Finset.range s.n_layers_ →
      (s.percolation_scan cluster ux uy uz = true ↔
        cluster ≠ [] ∧
        ((ux ∪ (cluster.map fun i => (s.get_coordinates_via_index i).1).toFinset).card
            = s.lattice_size_ ∨
         (uy ∪ (cluster.map fun i => (s.get_coordinates_via_index i).2.1).toFinset).card
            = s.lattice_size_ ∨
         (uz ∪ (cluster.map fun i => (s.get_coordinates_via_index i).2.2).toFinset).card
            = s.n_layers_)) := by
  induction cluster with
  | nil => intro ux uy uz _ _ _; simp [percolation_scan]
  | cons index rest ih =>
    intro ux uy uz hux huy huz
    obtain ⟨hx, hy, hz⟩ := s.get_coordinates_lt (hvalid index (List.mem_cons_self _ _))
    have hux' : insert (s.get_coordinates_via_index index).1 ux ⊆ Finset.range s.lattice_size_ :=
      Finset.insert_subset (Finset.mem_range.2 hx) hux
    have huy' : insert (s.get_coordinates_via_index index).2.1 uy
        ⊆ Finset.range s.lattice_size_ :=
      Finset.insert_subset (Finset.mem_range.2 hy) huy
    have huz' : insert (s.get_coordinates_via_index index).2.2 uz ⊆ Finset.range s.n_layers_ :=
      Finset.insert_subset (Finset.mem_range.2 hz) huz
    have hrest : ∀ i ∈ rest, i < s.lattice_volume_ :=
      fun i hi => hvalid i (List.mem_cons_of_mem _ hi)
    have key := ih hrest _ _ _ hux' huy' huz'
    have sx : ∀ (f : Nat → Nat) (u : Finset Nat),
        u ∪ ((index :: rest).map f).toFinset = insert (f index) u ∪ (rest.map f).toFinset := by
      intro f u
      simp only [List.map_cons, List.toFinset_cons, Finset.union_insert, Finset.insert_union]
    have subx : ∀ (f : Nat → Nat) (u : Finset Nat) (n : Nat), u ⊆ Finset.range n →
        (∀ i ∈ rest, f i < n) → insert (f index) u ⊆ Finset.range n →
        insert (f index) u ∪ (rest.map f).toFinset ⊆ Finset.range n := by
      intro f u n _ hf hins
      apply Finset.union_subset hins
      intro a ha
      simp only [List.mem_toFinset, List.mem_map] at ha
      obtain ⟨i, hi, rfl⟩ := ha
      exact Finset.mem_range.2 (hf i hi)
    have bx := subx (fun i => (s.get_coordinates_via_index i).1) ux _ hux
      (fun i hi => (s.get_coordinates_lt (hrest i hi)).1) hux'
    have by' := subx (fun i => (s.get_coordinates_via_index i).2.1) uy _ huy
      (fun i hi => (s.get_coordinates_lt (hrest i hi)).2.1) huy'
    have bz := subx (fun i => (s.get_coordinates_via_index i).2.2) uz _ huz
      (fun i hi => (s.get_coordinates_lt (hrest i hi)).2.2) huz'
    rw [sx, sx, sx]
    simp only [percolation_scan, hper, Bool.false_eq_true, if_false]
    split_ifs with hnow
    · simp only [true_iff]
      refine ⟨List.cons_ne_nil _ _, ?_⟩
      rcases hnow with h1 | h1 | h1
      · exact Or.inl (card_eq_of_between Finset.subset_union_left bx h1)
      · exact Or.inr (Or.inl (card_eq_of_between Finset.subset_union_left by' h1))
      · exact Or.inr (Or.inr (card_eq_of_between Finset.subset_union_left bz h1))
    · rw [key]
      constructor
      · rintro ⟨_, h⟩; exact ⟨List.cons_ne_nil _ _, h⟩
      · rintro ⟨_, h⟩
        refine ⟨?_, h⟩
        rintro rfl
        apply hnow
        simpa using h

/-- Claim C5. Under PERIODIC boundaries with positive extents, for a list of valid site
indices `is_cluster_percolation` is true exactly when the distinct decoded x-coordinates of
the members number `lattice_size_`, or the distinct y-coordinates do, or the distinct
z-coordinates number `n_layers_`; so a cluster covering an axis is never rejected by the
size test. -/
theorem periodic_percolation_iff (s : Lattice) (hper : s.boundary_conditions_ = false)
    (hL : 1 ≤ s.lattice_size_) (hn : 1 ≤ s.n_layers_) (cluster : List Nat)
    (hvalid : ∀ i ∈ cluster, i < s.lattice_volume_) :
    (s.is_cluster_percolation cluster = true ↔
      ((cluster.map fun i => (s.get_coordinates_via_index i).1).toFinset.card = s.lattice_size_ ∨
       (cluster.map fun i => (s.get_coordinates_via_index i).2.1).toFinset.card = s.lattice_size_ ∨
       (cluster.map fun i => (s.get_coordinates_via_index i).2.2).toFinset.card = s.n_layers_)) ∧
    (((cluster.map fun i => (s.get_coordinates_via_index i).1).toFinset.card = s.lattice_size_ ∨
       (cluster.map fun i => (s.get_coordinates_via_index i).2.1).toFinset.card = s.lattice_size_ ∨
       (cluster.map fun i => (s.get_coordinates_via_index i).2.2).toFinset.card = s.n_layers_) →
      ¬ cluster.length < min s.n_layers_ s.lattice_size_) := by
  have hsize : ((cluster.map fun i => (s.get_coordinates_via_index i).1).toFinset.card
        = s.lattice_size_ ∨
       (cluster.map fun i => (s.get_coordinates_via_index i).2.1).toFinset.card = s.lattice_size_ ∨
       (cluster.map fun i => (s.get_coordinates_via_index i).2.2).toFinset.card = s.n_layers_) →
      ¬ cluster.length < min s.n_layers_ s.lattice_size_ := by
    intro h
    have c1 := List.toFinset_card_le (cluster.map fun i => (s.get_coordinates_via_index i).1)
    have c2 := List.toFinset_card_le (cluster.map fun i => (s.get_coordinates_via_index i).2.1)
    have c3 := List.toFinset_card_le (cluster.map fun i => (s.get_coordinates_via_index i).2.2)
    simp only [List.length_map] at c1 c2 c3
    have m1 := Nat.min_le_left s.n_layers_ s.lattice_size_
    have m2 := Nat.min_le_right s.n_layers_ s.lattice_size_
    omega
  refine ⟨?_, hsize⟩
  have key := s.percolation_scan_periodic hper cluster hvalid ∅ ∅ ∅ (Finset.empty_subset _)
    (Finset.empty_subset _) (Finset.empty_subset _)
  simp only [Finset.empty_union] at key
  unfold is_cluster_percolation
  split_ifs with hlt
  · simp only [Bool.false_eq_true, false_iff]
    exact fun h => hsize h hlt
  · rw [key]
    constructor
    · exact fun h => h.2
    · intro h
      refine ⟨?_, h⟩
      rintro rfl
      simp at h
      omega

theorem periodic_percolation_iff_witness :
    small_sc_periodic.is_cluster_percolation [0, 1] = true ∧
      ((([0, 1] : List Nat).map
          fun i => (small_sc_periodic.get_coordinates_via_index i).1).toFinset.card
        = small_sc_periodic.lattice_size_) :=
  have h := periodic_percolation_iff small_sc_periodic rfl (by decide) (by decide) [0, 1]
    (by decide)
  ⟨h.1.2 (Or.inl (by decide)), by decide⟩

/-- Under OPEN boundaries the scan succeeds exactly when a single member lies on both
opposite faces of one axis at once. -/
theorem percolation_scan_open (s : Lattice) (hopen : s.boundary_conditions_ = true)
    (cluster : List Nat) : ∀ ux uy uz : Finset Nat,
    (s.percolation_scan cluster ux uy uz = true ↔
      ∃ i ∈ cluster,
        (((s.get_coordinates_via_index i).1 : Int) = 0 ∧
          ((s.get_coordinates_via_index i).1 : Int) = (s.lattice_size_ : Int) - 1) ∨
        (((s.get_coordinates_via_index i).2.1 : Int) = 0 ∧
          ((s.get_coordinates_via_index i).2.1 : Int) = (s.lattice_size_ : Int) - 1) ∨
        (((s.get_coordinates_via_index i).2.2 : Int) = 0 ∧
          ((s.get_coordinates_via_index i).2.2 : Int) = (s.n_layers_ : Int) - 1)) := by
  induction cluster with
  | nil => intro ux uy uz; simp [percolation_scan]
  | cons index rest ih =>
    intro ux uy uz
    simp only [percolation_scan, hopen, if_true, List.mem_cons, exists_eq_or_imp]
    split_ifs with h1 h2 h3
    · exact iff_of_true rfl (Or.inl (Or.inl h1))
    · exact iff_of_true rfl (Or.inl (Or.inr (Or.inl h2)))
    · exact iff_of_true rfl (Or.inl (Or.inr (Or.inr h3)))
    · rw [ih]
      constructor
      · exact fun h => Or.inr h
      · rintro (h | h)
        · rcases h with h | h | h
          · exact absurd h h1
          · exact absurd h h2
          · exact absurd h h3
        · exact h

/-- Under OPEN boundaries with both extents at least two, `is_cluster_percolation` is false
for every cluster. -/
theorem open_percolation_false (s : Lattice) (hopen : s.boundary_conditions_ = true)
    (hL : 2 ≤ s.lattice_size_) (hn : 2 ≤ s.n_layers_) (cluster : List Nat) :
    s.is_cluster_percolation cluster = false := by
  unfold is_cluster_percolation
  split_ifs
  · rfl
  · rw [Bool.eq_false_iff]
    intro h
    obtain ⟨i, -, hi⟩ := (s.percolation_scan_open hopen cluster ∅ ∅ ∅).1 h
    omega

/-- Claim C4, the failing input. On the 3x3x3 lattice under OPEN boundaries the cluster
`[0, 1, 2]` has at least `min(n_layers, lattice_size)` valid members, its member `0` has
x-coordinate `0` and its member `2` has the maximal x-coordinate `lattice_size - 1`, and
`is_cluster_percolation` returns false for it. -/
theorem open_percolation_misses_opposite_faces :
    (∀ i ∈ [0, 1, 2], i < (sc3_geometry true).lattice_volume_) ∧
    min (sc3_geometry true).n_layers_ (sc3_geometry true).lattice_size_ ≤ [0, 1, 2].length ∧
    ((sc3_geometry true).get_coordinates_via_index 0).1 = 0 ∧
    ((sc3_geometry true).get_coordinates_via_index 2).1 = (sc3_geometry true).lattice_size_ - 1 ∧
    (sc3_geometry true).is_cluster_percolation [0, 1, 2] = false := by
  decide

theorem IsRootOf.unique {p : Nat → Nat} {i r r' : Nat} (h : IsRootOf p i r)
    (h' : IsRootOf p i r') : r = r' := by
  obtain ⟨k, hk, hr⟩ := h
  obtain ⟨k', hk', hr'⟩ := h'
  have key : ∀ (a b x y : Nat), a ≤ b → p^[a] i = x → p x = x → p^[b] i = y → x = y := by
    intro a b x y hab ha hx hb
    obtain ⟨d, rfl⟩ := Nat.exists_eq_add_of_le hab
    rw [Nat.add_comm, Function.iterate_add_apply, ha, Function.iterate_fixed hx] at hb
    exact hb
  rcases Nat.le_total k k' with h1 | h1
  · exact key k k' r r' h1 hk hr hk'
  · exact (key k' k r' r h1 hk' hr' hk).symm

theorem IsRootOf.self {p : Nat → Nat} {r : Nat} (h : p r = r) : IsRootOf p r r := ⟨0, rfl, h⟩

theorem IsRootOf.root {p : Nat → Nat} {i r : Nat} (h : IsRootOf p i r) : p r = r := by
  obtain ⟨_, _, hr⟩ := h; exact hr

theorem IsRootOf.step {p : Nat → Nat} {i r : Nat} (h : IsRootOf p (p i) r) : IsRootOf p i r := by
  obtain ⟨k, hk, hr⟩ := h
  exact ⟨k + 1, by rw [Function.iterate_succ_apply]; exact hk, hr⟩

theorem IsRootOf.eq_of_fixed {p : Nat → Nat} {i r : Nat} (h : IsRootOf p i r) (hi : p i = i) :
    r = i := h.unique (IsRootOf.self hi)

theorem SameSet.symm {p : Nat → Nat} {i j : Nat} (h : SameSet p i j) : SameSet p j i := by
  obtain ⟨r, h1, h2⟩ := h; exact ⟨r, h2, h1⟩

theorem SameSet.trans {p : Nat → Nat} {i j k : Nat} (h : SameSet p i j) (h' : SameSet p j k) :
    SameSet p i k := by
  obtain ⟨r, h1, h2⟩ := h
  obtain ⟨r', h3, h4⟩ := h'
  have := h2.unique h3
  subst this
  exact ⟨r, h1, h4⟩

/-- In a forest every site has a root, and the root lies inside the site set. -/
theorem UFInv.exists_root {M : Nat → Prop} {p rk : Nat → Nat} {B : Nat} (h : UFInv M p rk B) :
    ∀ (n i : Nat), M i → B - rk i ≤ n → ∃ r, IsRootOf p i r ∧ M r := by
  intro n
  induction n with
  | zero =>
    intro i hi hn
    by_cases hp : p i = i
    · exact ⟨i, IsRootOf.self hp, hi⟩
    · have h1 := h.ranked i hi hp
      have h2 := h.bound (p i) (h.closed i hi)
      omega
  | succ n ih =>
    intro i hi hn
    by_cases hp : p i = i
    · exact ⟨i, IsRootOf.self hp, hi⟩
    · have h1 := h.ranked i hi hp
      obtain ⟨r, hr, hM⟩ := ih (p i) (h.closed i hi) (by omega)
      exact ⟨r, hr.step, hM⟩

theorem UFInv.root_of {M : Nat → Prop} {p rk : Nat → Nat} {B : Nat} (h : UFInv M p rk B)
    {i : Nat} (hi : M i) : ∃ r, IsRootOf p i r ∧ M r :=
  h.exists_root (B - rk i) i hi (le_refl _)

theorem UFInv.sameSet_refl {M : Nat → Prop} {p rk : Nat → Nat} {B : Nat} (h : UFInv M p rk B)
    {i : Nat} (hi : M i) : SameSet p i i := by
  obtain ⟨r, hr, _⟩ := h.root_of hi
  exact ⟨r, hr, hr⟩

theorem UFInv.mono {M : Nat → Prop} {p rk : Nat → Nat} {B B' : Nat} (h : UFInv M p rk B)
    (hB : B ≤ B') : UFInv M p rk B' :=
  ⟨h.closed, h.ranked, fun i hi => le_trans (h.bound i hi) hB⟩

/-- Path halving at `i` keeps the root of every site. -/
theorem isRootOf_halve (p : Nat → Nat) (i : Nat) {j r : Nat} (h : IsRootOf p j r) :
    IsRootOf (Function.update p i (p (p i))) j r := by
  obtain ⟨k, hk, hr⟩ := h
  have hr' : Function.update p i (p (p i)) r = r := by
    by_cases hri : r = i
    · subst hri; rw [Function.update_same, hr, hr]
    · rw [Function.update_noteq hri, hr]
  suffices hex : ∃ k', (Function.update p i (p (p i)))^[k'] j = r by
    obtain ⟨k', hk'⟩ := hex
    exact ⟨k', hk', hr'⟩
  clear hr'
  induction k using Nat.strong_induction_on generalizing j with
  | _ k ih =>
    cases k with
    | zero => exact ⟨0, hk⟩
    | succ m =>
      rw [Function.iterate_succ_apply] at hk
      by_cases hji : j = i
      · subst hji
        cases m with
        | zero =>
          refine ⟨1, ?_⟩
          simp only [Function.iterate_zero, id] at hk
          rw [Function.iterate_one, Function.update_same, hk, hr]
        | succ m' =>
          rw [Function.iterate_succ_apply] at hk
          obtain ⟨k', hk'⟩ := ih m' (by omega) hk
          exact ⟨k' + 1, by rw [Function.iterate_succ_apply, Function.update_same]; exact hk'⟩
      · obtain ⟨k', hk'⟩ := ih m (by omega) hk
        exact ⟨k' + 1, by
          rw [Function.iterate_succ_apply, Function.update_noteq hji]; exact hk'⟩

/-- Path halving keeps the forest. -/
theorem UFInv.halve {M : Nat → Prop} {p rk : Nat → Nat} {B : Nat} (h : UFInv M p rk B)
    {i : Nat} (hi : M i) (hp : p i ≠ i) : UFInv M (Function.update p i (p (p i))) rk B := by
  have h1 := h.ranked i hi hp
  have hpi := h.closed i hi
  refine ⟨fun j hj => ?_, fun j hj hne => ?_, h.bound⟩
  · by_cases hji : j = i
    · subst hji; rw [Function.update_same]; exact h.closed _ hpi
    · rw [Function.update_noteq hji]; exact h.closed j hj
  · by_cases hji : j = i
    · subst hji
      rw [Function.update_same]
      by_cases hpp : p (p j) = p j
      · rw [hpp]; exact h1
      · exact lt_trans h1 (h.ranked _ hpi hpp)
    · rw [Function.update_noteq hji] at hne ⊢
      exact h.ranked j hj hne

/-- `find` started inside a forest with enough fuel returns the root of its argument, and
leaves a forest in which every site has kept its root. -/
theorem find_spec {M : Nat → Prop} {rk : Nat → Nat} {B : Nat} :
    ∀ (fuel : Nat) (p : Nat → Nat) (i : Nat), UFInv M p rk B → M i → B - rk i < fuel →
      ∃ p' r, find fuel p i = some (p', r) ∧ IsRootOf p i r ∧ M r ∧ UFInv M p' rk B ∧
        (∀ j r', IsRootOf p j r' → IsRootOf p' j r') ∧ (∀ j, ¬ M j → p' j = p j) := by
  intro fuel
  induction fuel with
  | zero => intro p i _ _ hf; omega
  | succ fuel ih =>
    intro p i h hi hf
    by_cases hp : p i = i
    · refine ⟨p, i, ?_, IsRootOf.self hp, hi, h, fun _ _ hr => hr, fun _ _ => rfl⟩
      simp [find, hp]
    · have hrk := h.ranked i hi hp
      have hpi := h.closed i hi
      have hinv := h.halve hi hp
      have hnext : Function.update p i (p (p i)) i = p (p i) := Function.update_same _ _ _
      have hb := h.bound (p i) hpi
      have hrk2 : rk (p i) ≤ rk (p (p i)) := by
        by_cases hpp : p (p i) = p i
        · rw [hpp]
        · exact le_of_lt (h.ranked _ hpi hpp)
      obtain ⟨p', r, hfind, hroot, hMr, hinv', hpres, hframe⟩ :=
        ih (Function.update p i (p (p i))) (p (p i)) hinv (h.closed _ hpi) (by omega)
      refine ⟨p', r, ?_, ?_, hMr, hinv', fun j r' hr => hpres j r' (isRootOf_halve p i hr), ?_⟩
      · simp only [find, ne_eq, hp, not_false_eq_true, if_true, hnext]
        exact hfind
      · obtain ⟨r0, hr0, _⟩ := h.root_of hi
        have h1 : IsRootOf (Function.update p i (p (p i))) i r0 := isRootOf_halve p i hr0
        have h2 : IsRootOf (Function.update p i (p (p i))) i r := by
          apply IsRootOf.step
          rw [hnext]; exact hroot
        rw [← h1.unique h2]; exact hr0
      · intro j hj
        rw [hframe j hj, Function.update_noteq]
        rintro rfl
        exact hj hi
/-- Attaching the root `x` under the different root `y` sends the sites of `x` to `y` and
keeps the root of every other site. -/
theorem isRootOf_link {p : Nat → Nat} {x y : Nat} (hx : p x = x) (hy : p y = y) (hxy : x ≠ y)
    {j r : Nat} (h : IsRootOf p j r) :
    IsRootOf (Function.update p x y) j (if r = x then y else r) := by
  obtain ⟨k, hk, hr⟩ := h
  have hyx : y ≠ x := fun e => hxy e.symm
  induction k generalizing j with
  | zero =>
    simp only [Function.iterate_zero, id] at hk
    subst hk
    by_cases hjx : j = x
    · subst hjx
      rw [if_pos rfl]
      exact ⟨1, by rw [Function.iterate_one, Function.update_same],
        by rw [Function.update_noteq hyx, hy]⟩
    · rw [if_neg hjx]
      exact ⟨0, rfl, by rw [Function.update_noteq hjx, hr]⟩
  | succ k ih =>
    rw [Function.iterate_succ_apply] at hk
    by_cases hjx : j = x
    · subst hjx
      rw [hx] at hk
      exact ih hk
    · have := ih hk
      apply IsRootOf.step
      rw [Function.update_noteq hjx]
      exact this

/-- Attaching a root under a root of larger new rank keeps the forest. -/
theorem UFInv.link {M : Nat → Prop} {p rk rk' : Nat → Nat} {B B' : Nat} (h : UFInv M p rk B)
    {x y : Nat} (hy : M y) (hyr : p y = y)
    (hrk : ∀ i, i ≠ y → rk' i = rk i) (hle : rk y ≤ rk' y) (hlt : rk' x < rk' y)
    (hB : rk' y ≤ B') (hBB : B ≤ B') : UFInv M (Function.update p x y) rk' B' := by
  have hge : ∀ i, rk i ≤ rk' i := by
    intro i
    by_cases hiy : i = y
    · subst hiy; exact hle
    · rw [hrk i hiy]
  refine ⟨fun i hi => ?_, fun i hi hne => ?_, fun i hi => ?_⟩
  · by_cases hix : i = x
    · subst hix; rw [Function.update_same]; exact hy
    · rw [Function.update_noteq hix]; exact h.closed i hi
  · by_cases hix : i = x
    · subst hix; rw [Function.update_same]; exact hlt
    · rw [Function.update_noteq hix] at hne ⊢
      have hiy : i ≠ y := by
        rintro rfl
        exact hne hyr
      rw [hrk i hiy]
      exact lt_of_lt_of_le (h.ranked i hi hne) (hge _)
  · by_cases hiy : i = y
    · subst hiy; exact hB
    · rw [hrk i hiy]; exact le_trans (h.bound i hi) hBB

/-- What one `union_clusters` does to a forest: it succeeds with enough fuel, leaves a
forest, joins the sets of its two arguments and no others, and separates nothing. -/
theorem union_clusters_spec {M : Nat → Prop} {p rk : Nat → Nat} {B fuel a b : Nat}
    (h : UFInv M p rk B) (ha : M a) (hb : M b) (hfuel : B < fuel) :
    ∃ p' rk', union_clusters fuel p rk a b = some (p', rk') ∧ UFInv M p' rk' (B + 1) ∧
      SameSet p' a b ∧
      (∀ i j, SameSet p i j → SameSet p' i j) ∧
      (∀ i j, M i → M j → SameSet p' i j →
        SameSet p i j ∨ (SameSet p i a ∧ SameSet p j b) ∨ (SameSet p i b ∧ SameSet p j a)) ∧
      (∀ j, ¬ M j → p' j = p j ∧ rk' j = rk j) := by
  obtain ⟨p1, ra, hf1, hra, hMra, hinv1, hpres1, hframe1⟩ :=
    find_spec fuel p a h ha (by omega)
  obtain ⟨p2, rb, hf2, hrb1, hMrb, hinv2, hpres2, hframe2⟩ :=
    find_spec fuel p1 b hinv1 hb (by omega)
  have hpres : ∀ j r, IsRootOf p j r → IsRootOf p2 j r :=
    fun j r hr => hpres2 j r (hpres1 j r hr)
  have hrb : IsRootOf p b rb := by
    obtain ⟨r0, hr0, _⟩ := h.root_of hb
    rw [← (hpres1 b r0 hr0).unique hrb1]; exact hr0
  have hra2 : p2 ra = ra := (hpres a ra hra).root
  have hrb2 : p2 rb = rb := (hpres b rb hrb).root
  have hframe : ∀ j, ¬ M j → p2 j = p j := fun j hj => by rw [hframe2 j hj, hframe1 j hj]
  -- the general shape of the three branches that change or keep `parent_`
  have back : ∀ (p' : Nat → Nat) (f : Nat → Nat),
      (∀ j r, IsRootOf p2 j r → IsRootOf p' j (f r)) →
      (∀ r r', f r = f r' → r = r' ∨ (r = ra ∧ r' = rb) ∨ (r = rb ∧ r' = ra)) →
      f ra = f rb →
      SameSet p' a b ∧ (∀ i j, SameSet p i j → SameSet p' i j) ∧
      (∀ i j, M i → M j → SameSet p' i j →
        SameSet p i j ∨ (SameSet p i a ∧ SameSet p j b) ∨ (SameSet p i b ∧ SameSet p j a)) := by
    intro p' f hf hinj hab
    refine ⟨⟨f ra, hf a ra (hpres a ra hra), hab ▸ hf b rb (hpres b rb hrb)⟩, ?_, ?_⟩
    · rintro i j ⟨r, h1, h2⟩
      exact ⟨f r, hf i r (hpres i r h1), hf j r (hpres j r h2)⟩
    · rintro i j hi hj ⟨r, h1, h2⟩
      obtain ⟨ri, hri, _⟩ := h.root_of hi
      obtain ⟨rj, hrj, _⟩ := h.root_of hj
      have e1 := (hf i ri (hpres i ri hri)).unique h1
      have e2 := (hf j rj (hpres j rj hrj)).unique h2
      rcases hinj ri rj (e1.trans e2.symm) with e | ⟨e, e'⟩ | ⟨e, e'⟩
      · subst e; exact Or.inl ⟨ri, hri, hrj⟩
      · subst e; subst e'
        exact Or.inr (Or.inl ⟨⟨ri, hri, hra⟩, ⟨rj, hrj, hrb⟩⟩)
      · subst e; subst e'
        exact Or.inr (Or.inr ⟨⟨ri, hri, hrb⟩, ⟨rj, hrj, hra⟩⟩)
  by_cases hab : ra = rb
  · refine ⟨p2, rk, ?_, hinv2.mono (by omega), ?_⟩
    · simp [union_clusters, hf1, hf2, hab]
    · obtain ⟨b1, b2, b3⟩ := back p2 id (fun j r hr => hr) (fun r r' e => Or.inl e) hab
      exact ⟨b1, b2, b3, fun j hj => ⟨hframe j hj, rfl⟩⟩
  · by_cases hlt : rk ra < rk rb
    · refine ⟨Function.update p2 ra rb, rk, ?_, ?_, ?_⟩
      · simp [union_clusters, hf1, hf2, hab, hlt]
      · exact hinv2.link hMrb hrb2 (fun _ _ => rfl) (le_refl _) hlt
          (le_trans (h.bound rb hMrb) (by omega)) (by omega)
      · obtain ⟨b1, b2, b3⟩ := back (Function.update p2 ra rb) (fun r => if r = ra then rb else r)
          (fun j r hr => isRootOf_link hra2 hrb2 hab hr)
          (fun r r' e => by
            by_cases h1 : r = ra <;> by_cases h2 : r' = ra <;> simp only [h1, h2, if_true,
              if_false] at e
            · exact Or.inl (h1.trans h2.symm)
            · exact Or.inr (Or.inl ⟨h1, e.symm⟩)
            · exact Or.inr (Or.inr ⟨e, h2⟩)
            · exact Or.inl e)
          (by simp [hab, Ne.symm hab])
        refine ⟨b1, b2, b3, fun j hj => ⟨?_, rfl⟩⟩
        rw [Function.update_noteq, hframe j hj]
        rintro rfl
        exact hj hMra
    · have hba : rb ≠ ra := Ne.symm hab
      have hroots := back (Function.update p2 rb ra) (fun r => if r = rb then ra else r)
          (fun j r hr => isRootOf_link hrb2 hra2 hba hr)
          (fun r r' e => by
            by_cases h1 : r = rb <;> by_cases h2 : r' = rb <;> simp only [h1, h2, if_true,
              if_false] at e
            · exact Or.inl (h1.trans h2.symm)
            · exact Or.inr (Or.inr ⟨h1, e.symm⟩)
            · exact Or.inr (Or.inl ⟨e, h2⟩)
            · exact Or.inl e)
          (by simp [hab, Ne.symm hab])
      obtain ⟨b1, b2, b3⟩ := hroots
      have hfr : ∀ j, ¬ M j → Function.update p2 rb ra j = p j := by
        intro j hj
        rw [Function.update_noteq, hframe j hj]
        rintro rfl
        exact hj hMrb
      by_cases heq : rk ra = rk rb
      · refine ⟨Function.update p2 rb ra, Function.update rk ra (rk ra + 1), ?_, ?_,
          b1, b2, b3, fun j hj => ⟨hfr j hj, ?_⟩⟩
        · simp [union_clusters, hf1, hf2, hab, hlt, heq]
        · refine hinv2.link hMra hra2 (fun i hi => Function.update_noteq hi _ _) ?_ ?_ ?_
            (by omega)
          · rw [Function.update_same]; omega
          · rw [Function.update_same, Function.update_noteq hba]; omega
          · rw [Function.update_same]
            have := h.bound ra hMra
            omega
        · rw [Function.update_noteq]
          rintro rfl
          exact hj hMra
      · refine ⟨Function.update p2 rb ra, rk, ?_, ?_, b1, b2, b3, fun j hj => ⟨hfr j hj, rfl⟩⟩
        · simp [union_clusters, hf1, hf2, hab, hlt, heq]
        · exact hinv2.link hMra hra2 (fun _ _ => rfl) (le_refl _) (by omega)
            (le_trans (h.bound ra hMra) (by omega)) (by omega)
theorem init_union_find_spec (l : List Nat) : ∀ (p0 rk0 : Nat → Nat),
    (∀ i ∈ l, (init_union_find l (p0, rk0)).1 i = i ∧ (init_union_find l (p0, rk0)).2 i = 1) ∧
    (∀ i, i ∉ l → (init_union_find l (p0, rk0)).1 i = p0 i ∧
      (init_union_find l (p0, rk0)).2 i = rk0 i) := by
  induction l with
  | nil => intro p0 rk0; exact ⟨fun i hi => absurd hi (List.not_mem_nil _), fun i _ => ⟨rfl, rfl⟩⟩
  | cons a l ih =>
    intro p0 rk0
    obtain ⟨h1, h2⟩ := ih (Function.update p0 a a) (Function.update rk0 a 1)
    simp only [init_union_find]
    refine ⟨fun i hi => ?_, fun i hi => ?_⟩
    · by_cases hil : i ∈ l
      · exact h1 i hil
      · have hia : i = a := by
          rcases List.mem_cons.1 hi with h | h
          · exact h
          · exact absurd h hil
        subst hia
        obtain ⟨e1, e2⟩ := h2 i hil
        rw [e1, e2, Function.update_same, Function.update_same]
        exact ⟨rfl, rfl⟩
    · have hia : i ≠ a := fun e => hi (e ▸ List.mem_cons_self _ _)
      have hil : i ∉ l := fun e => hi (List.mem_cons_of_mem _ e)
      obtain ⟨e1, e2⟩ := h2 i hil
      rw [e1, e2, Function.update_noteq hia, Function.update_noteq hia]
      exact ⟨rfl, rfl⟩

/-- After the first loop every magnetic site is a root of rank one. -/
theorem init_union_find_inv (l : List Nat) (p0 rk0 : Nat → Nat) :
    UFInv (fun i => i ∈ l) (init_union_find l (p0, rk0)).1 (init_union_find l (p0, rk0)).2 1 ∧
    (∀ i j, i ∈ l → j ∈ l →
      SameSet (init_union_find l (p0, rk0)).1 i j → i = j) := by
  obtain ⟨h1, _⟩ := init_union_find_spec l p0 rk0
  refine ⟨⟨fun i hi => ?_, fun i hi hne => ?_, fun i hi => ?_⟩, ?_⟩
  · rw [(h1 i hi).1]; exact hi
  · exact absurd (h1 i hi).1 hne
  · rw [(h1 i hi).2]
  · rintro i j hi hj ⟨r, hri, hrj⟩
    rw [← hri.eq_of_fixed (h1 i hi).1, ← hrj.eq_of_fixed (h1 j hj).1]

/-- The inner loop of the second loop of `find_clusters`. -/
theorem union_neighbors_spec (s : Lattice) {M : Nat → Prop} {C : Nat → Nat → Prop}
    (hCsymm : ∀ a b, C a b → C b a) (hCtrans : ∀ a b c, C a b → C b c → C a c)
    (fuel : Nat) {index : Nat} (hidx : M index) :
    ∀ (nbrs : List Nat) (p rk : Nat → Nat) (B : Nat), UFInv M p rk B →
      (∀ b ∈ nbrs, (s.spin_values_vec_.getD b 0 ≠ 0 ∧
        s.spin_values_vec_.getD index 0 = s.spin_values_vec_.getD b 0) → M b ∧ C index b) →
      (∀ i j, M i → M j → SameSet p i j → C i j) →
      B + nbrs.length < fuel →
      ∃ p' rk', union_neighbors fuel s index nbrs (p, rk) = some (p', rk') ∧
        UFInv M p' rk' (B + nbrs.length) ∧
        (∀ i j, M i → M j → SameSet p' i j → C i j) ∧
        (∀ i j, SameSet p i j → SameSet p' i j) ∧
        (∀ b ∈ nbrs, (s.spin_values_vec_.getD b 0 ≠ 0 ∧
          s.spin_values_vec_.getD index 0 = s.spin_values_vec_.getD b 0) →
          SameSet p' index b) ∧
        (∀ j, ¬ M j → p' j = p j ∧ rk' j = rk j) := by
  intro nbrs
  induction nbrs with
  | nil =>
    intro p rk B h _ hsound _
    exact ⟨p, rk, rfl, h, hsound, fun _ _ h => h, fun b hb => absurd hb (List.not_mem_nil _),
      fun _ _ => ⟨rfl, rfl⟩⟩
  | cons b rest ih =>
    intro p rk B h hedge hsound hfuel
    simp only [List.length_cons] at hfuel
    have hrest : ∀ c ∈ rest, (s.spin_values_vec_.getD c 0 ≠ 0 ∧
        s.spin_values_vec_.getD index 0 = s.spin_values_vec_.getD c 0) → M c ∧ C index c :=
      fun c hc => hedge c (List.mem_cons_of_mem _ hc)
    by_cases hcond : s.spin_values_vec_.getD b 0 ≠ 0 ∧
        s.spin_values_vec_.getD index 0 = s.spin_values_vec_.getD b 0
    · obtain ⟨hMb, hCb⟩ := hedge b (List.mem_cons_self _ _) hcond
      obtain ⟨p1, rk1, hu, hinv1, hsame1, hmono1, hback1, hframe1⟩ :=
        union_clusters_spec h hidx hMb (show B < fuel by omega)
      have hsound1 : ∀ i j, M i → M j → SameSet p1 i j → C i j := by
        intro i j hi hj hij
        rcases hback1 i j hi hj hij with h0 | ⟨h1, h2⟩ | ⟨h1, h2⟩
        · exact hsound i j hi hj h0
        · exact hCtrans _ _ _ (hsound i index hi hidx h1)
            (hCtrans _ _ _ hCb (hCsymm _ _ (hsound j b hj hMb h2)))
        · exact hCtrans _ _ _ (hsound i b hi hMb h1)
            (hCtrans _ _ _ (hCsymm _ _ hCb) (hCsymm _ _ (hsound j index hj hidx h2)))
      obtain ⟨p', rk', hrun, hinv', hsound', hmono', hdone', hframe'⟩ :=
        ih p1 rk1 (B + 1) hinv1 hrest hsound1 (by omega)
      refine ⟨p', rk', ?_, hinv'.mono (by simp only [List.length_cons]; omega), hsound',
        fun i j hij => hmono' i j (hmono1 i j hij), ?_, ?_⟩
      · rw [union_neighbors, if_pos hcond, hu]
        exact hrun
      · intro c hc hccond
        rcases List.mem_cons.1 hc with rfl | hc'
        · exact hmono' _ _ hsame1
        · exact hdone' c hc' hccond
      · intro j hj
        obtain ⟨e1, e2⟩ := hframe' j hj
        obtain ⟨e3, e4⟩ := hframe1 j hj
        exact ⟨e1.trans e3, e2.trans e4⟩
    · obtain ⟨p', rk', hrun, hinv', hsound', hmono', hdone', hframe'⟩ :=
        ih p rk B h hrest hsound (by omega)
      refine ⟨p', rk', ?_, hinv'.mono (by simp only [List.length_cons]; omega), hsound',
        hmono', ?_, hframe'⟩
      · rw [union_neighbors, if_neg hcond]
        exact hrun
      · intro c hc hccond
        rcases List.mem_cons.1 hc with rfl | hc'
        · exact absurd hccond hcond
        · exact hdone' c hc' hccond

/-- The second loop of `find_clusters`. -/
theorem union_sites_spec (s : Lattice) {M : Nat → Prop} {C : Nat → Nat → Prop}
    (hCsymm : ∀ a b, C a b → C b a) (hCtrans : ∀ a b c, C a b → C b c → C a c) (fuel : Nat) :
    ∀ (l : List Nat) (p rk : Nat → Nat) (B : Nat), UFInv M p rk B →
      (∀ i ∈ l, M i ∧ ∀ b ∈ s.neighbors_vec_.getD i [], (s.spin_values_vec_.getD b 0 ≠ 0 ∧
        s.spin_values_vec_.getD i 0 = s.spin_values_vec_.getD b 0) → M b ∧ C i b) →
      (∀ i j, M i → M j → SameSet p i j → C i j) →
      B + (l.map fun i => (s.neighbors_vec_.getD i []).length).sum < fuel →
      ∃ p' rk', union_sites fuel s l (p, rk) = some (p', rk') ∧
        UFInv M p' rk' (B + (l.map fun i => (s.neighbors_vec_.getD i []).length).sum) ∧
        (∀ i j, M i → M j → SameSet p' i j → C i j) ∧
        (∀ i j, SameSet p i j → SameSet p' i j) ∧
        (∀ i ∈ l, ∀ b ∈ s.neighbors_vec_.getD i [], (s.spin_values_vec_.getD b 0 ≠ 0 ∧
          s.spin_values_vec_.getD i 0 = s.spin_values_vec_.getD b 0) → SameSet p' i b) ∧
        (∀ j, ¬ M j → p' j = p j ∧ rk' j = rk j) := by
  intro l
  induction l with
  | nil =>
    intro p rk B h _ hsound _
    exact ⟨p, rk, rfl, by simpa using h, hsound, fun _ _ h => h,
      fun i hi => absurd hi (List.not_mem_nil _), fun _ _ => ⟨rfl, rfl⟩⟩
  | cons a rest ih =>
    intro p rk B h hedge hsound hfuel
    simp only [List.map_cons, List.sum_cons] at hfuel ⊢
    obtain ⟨hMa, hea⟩ := hedge a (List.mem_cons_self _ _)
    obtain ⟨p1, rk1, hrun1, hinv1, hsound1, hmono1, hdone1, hframe1⟩ :=
      union_neighbors_spec s hCsymm hCtrans fuel hMa (s.neighbors_vec_.getD a []) p rk B h hea hsound
        (by omega)
    obtain ⟨p', rk', hrun, hinv', hsound', hmono', hdone', hframe'⟩ :=
      ih p1 rk1 (B + (s.neighbors_vec_.getD a []).length) hinv1
        (fun i hi => hedge i (List.mem_cons_of_mem _ hi)) hsound1 (by omega)
    refine ⟨p', rk', ?_, hinv'.mono (by omega), hsound',
      fun i j hij => hmono' i j (hmono1 i j hij), ?_, ?_⟩
    · rw [union_sites, hrun1]
      exact hrun
    · intro i hi c hc hccond
      rcases List.mem_cons.1 hi with rfl | hi'
      · exact hmono' _ _ (hdone1 c hc hccond)
      · exact hdone' i hi' c hc hccond
    · intro j hj
      obtain ⟨e1, e2⟩ := hframe' j hj
      obtain ⟨e3, e4⟩ := hframe1 j hj
      exact ⟨e1.trans e3, e2.trans e4⟩

/-- The third loop of `find_clusters` groups every index under the root it had when the
loop started. -/
theorem group_by_root_spec {M : Nat → Prop} {rk : Nat → Nat} {B fuel : Nat} (f : Nat → Nat)
    (hfuel : B < fuel) :
    ∀ (l : List Nat) (p : Nat → Nat) (m : List (Nat × List Nat)), UFInv M p rk B →
      (∀ i ∈ l, M i) → (∀ i, M i → IsRootOf p i (f i)) →
      ∃ p', group_by_root fuel l p m = some (p', group_fold f l m) ∧ UFInv M p' rk B ∧
        (∀ i, M i → IsRootOf p' i (f i)) ∧ (∀ j, ¬ M j → p' j = p j) := by
  intro l
  induction l with
  | nil => intro p m h _ hf; exact ⟨p, rfl, h, hf, fun _ _ => rfl⟩
  | cons a rest ih =>
    intro p m h hl hf
    have hMa := hl a (List.mem_cons_self _ _)
    obtain ⟨p1, r, hfind, hr, _, hinv1, hpres, hframe1⟩ := find_spec fuel p a h hMa (by omega)
    have hra : r = f a := hr.unique (hf a hMa)
    subst hra
    obtain ⟨p', hrun, hinv', hf', hframe'⟩ :=
      ih p1 (cluster_map_push (f a) a m) hinv1 (fun i hi => hl i (List.mem_cons_of_mem _ hi))
        (fun i hi => hpres i _ (hf i hi))
    refine ⟨p', ?_, hinv', hf', fun j hj => (hframe' j hj).trans (hframe1 j hj)⟩
    rw [group_by_root, hfind]
    simp only [group_fold, List.foldl_cons]
    exact hrun
theorem cluster_map_push_of_not_mem (k i : Nat) (m : List (Nat × List Nat))
    (h : k ∉ m.map Prod.fst) : cluster_map_push k i m = m ++ [(k, [i])] := by
  induction m with
  | nil => rfl
  | cons e rest ih =>
    obtain ⟨k', c⟩ := e
    simp only [List.map_cons, List.mem_cons, not_or] at h
    rw [cluster_map_push, if_neg (fun e => h.1 e.symm), ih h.2]
    rfl

theorem cluster_map_push_of_mem (k i : Nat) (m : List (Nat × List Nat))
    (hnd : (m.map Prod.fst).Nodup) (h : k ∈ m.map Prod.fst) :
    cluster_map_push k i m = m.map fun e => if e.1 = k then (e.1, e.2 ++ [i]) else e := by
  induction m with
  | nil => cases h
  | cons e rest ih =>
    obtain ⟨k', c⟩ := e
    simp only [List.map_cons, List.nodup_cons] at hnd
    by_cases hk : k' = k
    · subst hk
      rw [cluster_map_push, if_pos rfl]
      simp only [List.map_cons, if_true]
      congr 1
      symm
      calc rest.map (fun e => if e.1 = k' then (e.1, e.2 ++ [i]) else e)
          = rest.map id := by
            apply List.map_congr_left
            intro e he
            have : e.1 ≠ k' := fun h' => hnd.1 (h' ▸ List.mem_map_of_mem Prod.fst he)
            simp [this]
        _ = rest := List.map_id _
    · rw [cluster_map_push, if_neg hk]
      simp only [List.map_cons, hk, if_false]
      congr 1
      apply ih hnd.2
      simp only [List.map_cons, List.mem_cons] at h
      rcases h with h | h
      · exact absurd h.symm hk
      · exact h

theorem filter_append_singleton (f : Nat → Nat) (done : List Nat) (i r : Nat) :
    (done ++ [i]).filter (fun j => decide (f j = r))
      = done.filter (fun j => decide (f j = r)) ++ if f i = r then [i] else [] := by
  rw [List.filter_append]
  by_cases h : f i = r <;> simp [List.filter_cons, h]

theorem GroupInv.push {f : Nat → Nat} {done : List Nat} {m : List (Nat × List Nat)}
    (h : GroupInv f done m) (i : Nat) :
    GroupInv f (done ++ [i]) (cluster_map_push (f i) i m) := by
  by_cases hk : f i ∈ m.map Prod.fst
  · rw [cluster_map_push_of_mem _ _ _ h.nodup hk]
    have hkeys : (m.map fun e => if e.1 = f i then (e.1, e.2 ++ [i]) else e).map Prod.fst
        = m.map Prod.fst := by
      rw [List.map_map]
      apply List.map_congr_left
      intro e _
      simp only [Function.comp]
      split_ifs <;> rfl
    refine ⟨by rw [hkeys]; exact h.nodup, ?_, ?_⟩
    · intro e' he'
      obtain ⟨e, he, rfl⟩ := List.mem_map.1 he'
      obtain ⟨h1, h2⟩ := h.entry e he
      by_cases hei : e.1 = f i
      · simp only [hei, if_true]
        rw [filter_append_singleton, if_pos rfl, ← hei, ← h1]
        exact ⟨rfl, by simp⟩
      · simp only [hei, if_false]
        rw [filter_append_singleton, if_neg (fun h' => hei h'.symm), List.append_nil]
        exact ⟨h1, h2⟩
    · intro j hj
      rw [hkeys]
      rcases List.mem_append.1 hj with hj | hj
      · exact h.cover j hj
      · rw [List.mem_singleton.1 hj]; exact hk
  · rw [cluster_map_push_of_not_mem _ _ _ hk]
    refine ⟨?_, ?_, ?_⟩
    · rw [List.map_append, List.map_singleton]
      exact List.Nodup.append h.nodup (List.nodup_singleton _)
        (by
          intro a ha hb
          rw [List.mem_singleton.1 hb] at ha
          exact hk ha)
    · intro e he
      rcases List.mem_append.1 he with he | he
      · obtain ⟨h1, h2⟩ := h.entry e he
        have hne : f i ≠ e.1 := fun h' => hk (h' ▸ List.mem_map_of_mem Prod.fst he)
        rw [filter_append_singleton, if_neg hne, List.append_nil]
        exact ⟨h1, h2⟩
      · rw [List.mem_singleton.1 he]
        simp only
        rw [filter_append_singleton, if_pos rfl]
        have hempty : done.filter (fun j => decide (f j = f i)) = [] := by
          rw [List.filter_eq_nil_iff]
          intro j hj
          simp only [decide_eq_true_eq]
          intro h'
          exact hk (h' ▸ h.cover j hj)
        rw [hempty]
        exact ⟨rfl, by simp⟩
    · intro j hj
      rw [List.map_append, List.map_singleton]
      rcases List.mem_append.1 hj with hj | hj
      · exact List.mem_append_left _ (h.cover j hj)
      · rw [List.mem_singleton.1 hj]; exact List.mem_append_right _ (List.mem_singleton_self _)

theorem GroupInv.fold {f : Nat → Nat} : ∀ (l done : List Nat) (m : List (Nat × List Nat)),
    GroupInv f done m → GroupInv f (done ++ l) (group_fold f l m) := by
  intro l
  induction l with
  | nil => intro done m h; simpa [group_fold] using h
  | cons a l ih =>
    intro done m h
    have := ih (done ++ [a]) _ (h.push a)
    simpa [group_fold, List.append_assoc] using this

/-- The cluster map built from the empty map. -/
theorem groupInv_group_fold (f : Nat → Nat) (l : List Nat) : GroupInv f l (group_fold f l []) := by
  have h0 : GroupInv f [] [] :=
    ⟨List.nodup_nil, fun e he => absurd he (List.not_mem_nil _),
      fun i hi => absurd hi (List.not_mem_nil _)⟩
  simpa using GroupInv.fold l [] [] h0

theorem cluster_map_push_flatten (k i : Nat) (m : List (Nat × List Nat)) :
    ((cluster_map_push k i m).map Prod.snd).flatten.Perm ((m.map Prod.snd).flatten ++ [i]) := by
  induction m with
  | nil => simp [cluster_map_push]
  | cons e rest ih =>
    obtain ⟨k', c⟩ := e
    rw [cluster_map_push]
    split_ifs with h
    · simp only [List.map_cons, List.flatten_cons, List.append_assoc]
      exact List.Perm.append_left c List.perm_append_comm
    · simp only [List.map_cons, List.flatten_cons, List.append_assoc]
      exact List.Perm.append_left c ih

/-- The members of all entries of the cluster map, taken together, are the grouped indices. -/
theorem group_fold_flatten (f : Nat → Nat) : ∀ (l : List Nat) (m : List (Nat × List Nat)),
    ((group_fold f l m).map Prod.snd).flatten.Perm ((m.map Prod.snd).flatten ++ l) := by
  intro l
  induction l with
  | nil => intro m; simp [group_fold]
  | cons a l ih =>
    intro m
    have h1 := ih (cluster_map_push (f a) a m)
    have h2 := cluster_map_push_flatten (f a) a m
    have h3 : (((cluster_map_push (f a) a m).map Prod.snd).flatten ++ l).Perm
        (((m.map Prod.snd).flatten ++ [a]) ++ l) := List.Perm.append_right l h2
    simpa [group_fold, List.append_assoc] using h1.trans h3
theorem same_sign_link_symm (s : Lattice) {a b : Nat} (h : s.same_sign_link a b) :
    s.same_sign_link b a := by
  obtain ⟨h1, h2, h3⟩ := h
  exact ⟨h1.symm, h3 ▸ h2, h3.symm⟩

theorem same_sign_connected_symm (s : Lattice) {a b : Nat} (h : s.same_sign_connected a b) :
    s.same_sign_connected b a :=
  Relation.ReflTransGen.symmetric (fun _ _ h => s.same_sign_link_symm h) h

theorem same_sign_connected_trans (s : Lattice) {a b c : Nat} (h : s.same_sign_connected a b)
    (h' : s.same_sign_connected b c) : s.same_sign_connected a c :=
  Relation.ReflTransGen.trans h h'

/-- Sites joined by a path of same-sign links carry the same spin. -/
theorem same_sign_connected_spin (s : Lattice) {a b : Nat} (h : s.same_sign_connected a b) :
    s.spin_values_vec_.getD a 0 = s.spin_values_vec_.getD b 0 := by
  induction h with
  | refl => rfl
  | tail _ hbc ih => exact ih.trans hbc.2.2

/-- The whole of `find_clusters`: with enough fuel it returns, the collections are the
classification of the cluster map built by grouping the magnetic indices under a root
function `f`, two magnetic sites have the same root exactly when a path of same-sign links
joins them, and `parent_` and `rank_` change at magnetic indices only. -/
theorem find_clusters_master (s : Lattice)
    (map_order : List (Nat × List Nat) → List (Nat × List Nat))
    (hM : ∀ i, i ∈ s.ferro_indices_vec_ ↔ s.spin_values_vec_.getD i 0 ≠ 0)
    (fuel : Nat) (hfuel : s.find_clusters_fuel ≤ fuel) :
    ∃ (p' rk' f : Nat → Nat),
      find_clusters fuel map_order s
        = some ({ s with parent_ := p', rank_ := rk' },
            s.classify_clusters
              ((map_order (group_fold f s.ferro_indices_vec_ [])).map fun entry => entry.2)) ∧
      (∀ i j, i ∈ s.ferro_indices_vec_ → j ∈ s.ferro_indices_vec_ →
        (f i = f j ↔ s.same_sign_connected i j)) ∧
      (∀ j, j ∉ s.ferro_indices_vec_ → p' j = s.parent_ j ∧ rk' j = s.rank_ j) := by
  obtain ⟨hinv0, hsingle⟩ := init_union_find_inv s.ferro_indices_vec_ s.parent_ s.rank_
  obtain ⟨-, hframe0⟩ := init_union_find_spec s.ferro_indices_vec_ s.parent_ s.rank_
  have hsound0 : ∀ i j, i ∈ s.ferro_indices_vec_ → j ∈ s.ferro_indices_vec_ →
      SameSet (init_union_find s.ferro_indices_vec_ (s.parent_, s.rank_)).1 i j →
      s.same_sign_connected i j := by
    intro i j hi hj hij
    rw [hsingle i j hi hj hij]
    exact Relation.ReflTransGen.refl
  have hedge : ∀ i ∈ s.ferro_indices_vec_, i ∈ s.ferro_indices_vec_ ∧
      ∀ b ∈ s.neighbors_vec_.getD i [], (s.spin_values_vec_.getD b 0 ≠ 0 ∧
        s.spin_values_vec_.getD i 0 = s.spin_values_vec_.getD b 0) →
        b ∈ s.ferro_indices_vec_ ∧ s.same_sign_connected i b := by
    intro i hi
    refine ⟨hi, fun b hb hcond => ⟨(hM b).2 hcond.1, ?_⟩⟩
    exact Relation.ReflTransGen.single ⟨Or.inl hb, hcond.2 ▸ hcond.1, hcond.2⟩
  unfold find_clusters_fuel at hfuel
  obtain ⟨p1, rk1, hrun1, hinv1, hsound1, -, hdone1, hframe1⟩ :=
    @union_sites_spec s (fun i => i ∈ s.ferro_indices_vec_) (fun a b => s.same_sign_connected a b)
      (fun _ _ h => s.same_sign_connected_symm h)
      (fun _ _ _ h h' => s.same_sign_connected_trans h h') fuel s.ferro_indices_vec_
      (init_union_find s.ferro_indices_vec_ (s.parent_, s.rank_)).1
      (init_union_find s.ferro_indices_vec_ (s.parent_, s.rank_)).2 1 hinv0 hedge hsound0
      (by omega)
  have hroots : ∀ i, ∃ r, i ∈ s.ferro_indices_vec_ → IsRootOf p1 i r := by
    intro i
    by_cases hi : i ∈ s.ferro_indices_vec_
    · obtain ⟨r, hr, _⟩ := hinv1.root_of hi
      exact ⟨r, fun _ => hr⟩
    · exact ⟨0, fun h => absurd h hi⟩
  choose f hf using hroots
  obtain ⟨p2, hrun2, -, -, hframe2⟩ :=
    group_by_root_spec f (show 1 + (s.ferro_indices_vec_.map
        fun i => (s.neighbors_vec_.getD i []).length).sum < fuel by omega)
      s.ferro_indices_vec_ p1 [] hinv1 (fun i hi => hi) hf
  refine ⟨p2, rk1, f, ?_, ?_, ?_⟩
  · have hrun1' : union_sites fuel s s.ferro_indices_vec_
        (init_union_find s.ferro_indices_vec_ (s.parent_, s.rank_)) = some (p1, rk1) := hrun1
    simp only [find_clusters, hrun1', hrun2]
  · intro i j hi hj
    constructor
    · intro hij
      exact hsound1 i j hi hj ⟨f i, hf i hi, hij ▸ hf j hj⟩
    · intro hC
      have key : ∀ b, s.same_sign_connected i b → SameSet p1 i b := by
        intro b hb
        induction hb with
        | refl => exact hinv1.sameSet_refl hi
        | @tail a b _ hab ih =>
          obtain ⟨hnb, hsa, hsab⟩ := hab
          have hMa : a ∈ s.ferro_indices_vec_ := (hM a).2 hsa
          have hMb : b ∈ s.ferro_indices_vec_ := (hM b).2 (hsab ▸ hsa)
          rcases hnb with hnb | hnb
          · exact ih.trans (hdone1 a hMa b hnb ⟨hsab ▸ hsa, hsab⟩)
          · exact ih.trans (hdone1 b hMb a hnb ⟨hsa, hsab.symm⟩).symm
      obtain ⟨r, h1, h2⟩ := key j hC
      exact ((hf i hi).unique h1).trans (h2.unique (hf j hj))
  · intro j hj
    obtain ⟨e1, e2⟩ := hframe1 j hj
    obtain ⟨e3, e4⟩ := hframe0 j hj
    exact ⟨(hframe2 j hj).trans (e1.trans e3), e2.trans e4⟩
/-- The clusters of `all` are the member lists of the entries of the cluster map. -/
theorem mem_clusters_all_iff (map_order : List (Nat × List Nat) → List (Nat × List Nat))
    (horder : ∀ m, (map_order m).Perm m) (m : List (Nat × List Nat)) (c : List Nat) :
    c ∈ (map_order m).map (fun entry => entry.2) ↔ ∃ e ∈ m, e.2 = c := by
  rw [List.mem_map]
  constructor
  · rintro ⟨e, he, rfl⟩; exact ⟨e, (horder m).mem_iff.1 he, rfl⟩
  · rintro ⟨e, he, rfl⟩; exact ⟨e, (horder m).mem_iff.2 he, rfl⟩

/-- Two grouped indices lie in one cluster exactly when `f` gives them one value. -/
theorem same_cluster_iff (map_order : List (Nat × List Nat) → List (Nat × List Nat))
    (horder : ∀ m, (map_order m).Perm m) (f : Nat → Nat) (l : List Nat) {i j : Nat}
    (hi : i ∈ l) (hj : j ∈ l) :
    (∃ c ∈ (map_order (group_fold f l [])).map (fun entry => entry.2), i ∈ c ∧ j ∈ c)
      ↔ f i = f j := by
  have G := groupInv_group_fold f l
  constructor
  · rintro ⟨c, hc, hic, hjc⟩
    obtain ⟨e, he, rfl⟩ := (mem_clusters_all_iff map_order horder _ c).1 hc
    rw [(G.entry e he).1] at hic hjc
    have h1 := (List.mem_filter.1 hic).2
    have h2 := (List.mem_filter.1 hjc).2
    simp only [decide_eq_true_eq] at h1 h2
    rw [h1, h2]
  · intro hij
    obtain ⟨e, he, hek⟩ := List.mem_map.1 (G.cover i hi)
    refine ⟨e.2, (mem_clusters_all_iff map_order horder _ _).2 ⟨e, he, rfl⟩, ?_, ?_⟩
    · rw [(G.entry e he).1]
      exact List.mem_filter.2 ⟨hi, by simp only [decide_eq_true_eq]; exact hek.symm⟩
    · rw [(G.entry e he).1]
      exact List.mem_filter.2 ⟨hj, by simp only [decide_eq_true_eq]; rw [← hij]; exact hek.symm⟩

/-- Claim C1. When `ferro_indices_vec_` lists exactly the sites with non-zero spin and every
neighbour index is below `lattice_volume_`, `find_clusters` returns (for every iteration
order of the cluster map and enough fuel), and two magnetic sites are members of one
cluster of `all` if and only if a path of neighbour links, each taken in either direction
and all between sites of the same non-zero spin, joins them; so every cluster is the whole
set of sites joined to any one of its members, a maximal same-sign connected set. -/
theorem find_clusters_connected_components (s : Lattice)
    (map_order : List (Nat × List Nat) → List (Nat × List Nat))
    (horder : ∀ m, (map_order m).Perm m)
    (hM : ∀ i, i ∈ s.ferro_indices_vec_ ↔ s.spin_values_vec_.getD i 0 ≠ 0)
    (_hnb : ∀ l ∈ s.neighbors_vec_, ∀ j ∈ l, j < s.lattice_volume_)
    (fuel : Nat) (hfuel : s.find_clusters_fuel ≤ fuel) :
    ∃ s' r, find_clusters fuel map_order s = some (s', r) ∧
      (∀ i j, s.spin_values_vec_.getD i 0 ≠ 0 → s.spin_values_vec_.getD j 0 ≠ 0 →
        ((∃ c ∈ r.clusters_all, i ∈ c ∧ j ∈ c) ↔ s.same_sign_connected i j)) ∧
      (∀ c ∈ r.clusters_all, ∀ i ∈ c, ∀ j, j ∈ c ↔ s.same_sign_connected i j) := by
  obtain ⟨p', rk', f, hrun, hconn, -⟩ := s.find_clusters_master map_order hM fuel hfuel
  refine ⟨_, _, hrun, fun i j hi hj => ?_, fun c hc i hic j => ?_⟩
  · have hi' := (hM i).2 hi
    have hj' := (hM j).2 hj
    exact (same_cluster_iff map_order horder f _ hi' hj').trans (hconn i j hi' hj')
  · have G := groupInv_group_fold f s.ferro_indices_vec_
    obtain ⟨e, he, rfl⟩ := (mem_clusters_all_iff map_order horder _ c).1 hc
    rw [(G.entry e he).1] at hic ⊢
    obtain ⟨hi', hfi⟩ := List.mem_filter.1 hic
    simp only [decide_eq_true_eq] at hfi
    constructor
    · intro hjc
      obtain ⟨hj', hfj⟩ := List.mem_filter.1 hjc
      simp only [decide_eq_true_eq] at hfj
      exact (hconn i j hi' hj').1 (hfi.trans hfj.symm)
    · intro hC
      have hj' : j ∈ s.ferro_indices_vec_ :=
        (hM j).2 (s.same_sign_connected_spin hC ▸ (hM i).1 hi')
      refine List.mem_filter.2 ⟨hj', ?_⟩
      simp only [decide_eq_true_eq]
      exact ((hconn i j hi' hj').2 hC).symm.trans hfi

/-- Claim C2. When `ferro_indices_vec_` is duplicate-free and lists exactly the sites with
non-zero spin, `find_clusters` returns a partition: the members of the clusters of `all`,
taken together, are a rearrangement of `ferro_indices_vec_`, no cluster repeats an index, no
two clusters share one, no cluster is empty, and `all` has as many clusters as `up` and
`down` together. -/
theorem find_clusters_partition (s : Lattice)
    (map_order : List (Nat × List Nat) → List (Nat × List Nat))
    (horder : ∀ m, (map_order m).Perm m)
    (hnd : s.ferro_indices_vec_.Nodup)
    (hM : ∀ i, i ∈ s.ferro_indices_vec_ ↔ s.spin_values_vec_.getD i 0 ≠ 0)
    (fuel : Nat) (hfuel : s.find_clusters_fuel ≤ fuel) :
    ∃ s' r, find_clusters fuel map_order s = some (s', r) ∧
      r.clusters_all.flatten.Perm s.ferro_indices_vec_ ∧
      (∀ c ∈ r.clusters_all, c.Nodup) ∧
      r.clusters_all.Pairwise List.Disjoint ∧
      (∀ c ∈ r.clusters_all, c ≠ []) ∧
      r.clusters_all.length = r.clusters_up.length + r.clusters_down.length := by
  obtain ⟨p', rk', f, hrun, -, -⟩ := s.find_clusters_master map_order hM fuel hfuel
  have G := groupInv_group_fold f s.ferro_indices_vec_
  have hperm : ((map_order (group_fold f s.ferro_indices_vec_ [])).map
      fun entry => entry.2).flatten.Perm s.ferro_indices_vec_ := by
    have h1 := ((horder (group_fold f s.ferro_indices_vec_ [])).map Prod.snd).flatten
    have h2 := group_fold_flatten f s.ferro_indices_vec_ []
    simpa using h1.trans h2
  have hnodup := (List.nodup_flatten.1 (hperm.nodup_iff.2 hnd))
  refine ⟨_, _, hrun, hperm, hnodup.1, hnodup.2, ?_, ?_⟩
  · intro c hc
    obtain ⟨e, he, rfl⟩ := (mem_clusters_all_iff map_order horder _ c).1 hc
    exact (G.entry e he).2
  · simp only [classify_clusters]
    exact List.length_eq_length_filter_add _
theorem getD_zero_mem {c : List Nat} (h : c ≠ []) : c.getD 0 0 ∈ c := by
  cases c with
  | nil => exact absurd rfl h
  | cons a t => simp

/-- Claim C3. When `ferro_indices_vec_` lists exactly the sites with non-zero spin and every
spin is `-1`, `0` or `1`, every cluster returned by `find_clusters` is sign-homogeneous (so
its first member carries the spin of every member), `up` is the clusters of `all` whose
members all have spin `+1`, `down` those whose members all have spin `-1`, and `perc` those
on which `is_cluster_percolation` is true. -/
theorem find_clusters_classification (s : Lattice)
    (map_order : List (Nat × List Nat) → List (Nat × List Nat))
    (horder : ∀ m, (map_order m).Perm m)
    (hM : ∀ i, i ∈ s.ferro_indices_vec_ ↔ s.spin_values_vec_.getD i 0 ≠ 0)
    (hvals : ∀ i, s.spin_values_vec_.getD i 0 = -1 ∨ s.spin_values_vec_.getD i 0 = 0 ∨
      s.spin_values_vec_.getD i 0 = 1)
    (fuel : Nat) (hfuel : s.find_clusters_fuel ≤ fuel) :
    ∃ s' r, find_clusters fuel map_order s = some (s', r) ∧
      (∀ c ∈ r.clusters_all, ∀ a ∈ c, ∀ b ∈ c,
        s.spin_values_vec_.getD a 0 = s.spin_values_vec_.getD b 0) ∧
      (∀ c ∈ r.clusters_all, ∀ a ∈ c,
        s.spin_values_vec_.getD (c.getD 0 0) 0 = s.spin_values_vec_.getD a 0) ∧
      r.clusters_up = r.clusters_all.filter
        (fun c => decide (∀ a ∈ c, s.spin_values_vec_.getD a 0 = 1)) ∧
      r.clusters_down = r.clusters_all.filter
        (fun c => decide (∀ a ∈ c, s.spin_values_vec_.getD a 0 = -1)) ∧
      r.clusters_perc = r.clusters_all.filter (fun c => s.is_cluster_percolation c) := by
  obtain ⟨p', rk', f, hrun, hconn, -⟩ := s.find_clusters_master map_order hM fuel hfuel
  have G := groupInv_group_fold f s.ferro_indices_vec_
  have hmem : ∀ c ∈ (map_order (group_fold f s.ferro_indices_vec_ [])).map
      (fun entry => entry.2), c ≠ [] ∧ ∀ a ∈ c, a ∈ s.ferro_indices_vec_ ∧ ∀ b ∈ c,
        s.spin_values_vec_.getD a 0 = s.spin_values_vec_.getD b 0 := by
    intro c hc
    obtain ⟨e, he, rfl⟩ := (mem_clusters_all_iff map_order horder _ c).1 hc
    refine ⟨(G.entry e he).2, ?_⟩
    rw [(G.entry e he).1]
    intro a ha
    obtain ⟨ha', hfa⟩ := List.mem_filter.1 ha
    refine ⟨ha', fun b hb => ?_⟩
    obtain ⟨hb', hfb⟩ := List.mem_filter.1 hb
    simp only [decide_eq_true_eq] at hfa hfb
    exact s.same_sign_connected_spin ((hconn a b ha' hb').1 (hfa.trans hfb.symm))
  have hhead : ∀ c ∈ (map_order (group_fold f s.ferro_indices_vec_ [])).map
      (fun entry => entry.2), ∀ a ∈ c,
      s.spin_values_vec_.getD (c.getD 0 0) 0 = s.spin_values_vec_.getD a 0 := by
    intro c hc a ha
    obtain ⟨hne, hall⟩ := hmem c hc
    exact (hall _ (getD_zero_mem hne)).2 a ha
  refine ⟨_, _, hrun, fun c hc a ha b hb => ((hmem c hc).2 a ha).2 b hb, hhead, ?_, ?_, rfl⟩
  · simp only [classify_clusters]
    apply List.filter_congr
    intro c hc
    obtain ⟨hne, hall⟩ := hmem c hc
    rw [decide_eq_decide]
    constructor
    · intro h a ha
      rw [← hhead c hc a ha]; exact h
    · intro h
      exact h _ (getD_zero_mem hne)
  · simp only [classify_clusters]
    apply List.filter_congr
    intro c hc
    obtain ⟨hne, hall⟩ := hmem c hc
    have hmag := (hM _).1 (hall _ (getD_zero_mem hne)).1
    have hv := hvals (c.getD 0 0)
    have key : (¬ s.spin_values_vec_.getD (c.getD 0 0) 0 = 1) ↔
        ∀ a ∈ c, s.spin_values_vec_.getD a 0 = -1 := by
      constructor
      · intro h a ha
        rw [← hhead c hc a ha]
        rcases hv with h1 | h1 | h1
        · exact h1
        · exact absurd h1 hmag
        · exact absurd h1 h
      · intro h h1
        have := h _ (getD_zero_mem hne)
        omega
    by_cases hone : s.spin_values_vec_.getD (c.getD 0 0) 0 = 1
    · have : ¬ ∀ a ∈ c, s.spin_values_vec_.getD a 0 = -1 := fun h => key.2 h hone
      show (!decide (s.spin_values_vec_.getD (c.getD 0 0) 0 = 1))
        = decide (∀ a ∈ c, s.spin_values_vec_.getD a 0 = -1)
      rw [decide_eq_true hone, decide_eq_false this]
      rfl
    · have := key.1 hone
      show (!decide (s.spin_values_vec_.getD (c.getD 0 0) 0 = 1))
        = decide (∀ a ∈ c, s.spin_values_vec_.getD a 0 = -1)
      rw [decide_eq_false hone, decide_eq_true this]
      rfl
/-- When all grouped indices have one root the cluster map has a single entry, holding all
of them in order. -/
theorem group_fold_single (f : Nat → Nat) (l : List Nat) (hl : l ≠ []) (r0 : Nat)
    (hconst : ∀ i ∈ l, f i = r0) : group_fold f l [] = [(r0, l)] := by
  have G := groupInv_group_fold f l
  have hall : ∀ e ∈ group_fold f l [], e = (r0, l) := by
    intro e he
    obtain ⟨h1, h2⟩ := G.entry e he
    obtain ⟨a, ha⟩ := List.exists_mem_of_ne_nil _ h2
    rw [h1] at ha
    obtain ⟨hal, hfa⟩ := List.mem_filter.1 ha
    simp only [decide_eq_true_eq] at hfa
    have hk : e.1 = r0 := hfa.symm.trans (hconst a hal)
    have hm : e.2 = l := by
      rw [h1, List.filter_eq_self]
      intro b hb
      simp only [decide_eq_true_eq]
      rw [hk]; exact hconst b hb
    exact Prod.ext hk hm
  obtain ⟨a, ha⟩ := List.exists_mem_of_ne_nil _ hl
  have hcov := G.cover a ha
  cases hm : group_fold f l [] with
  | nil => rw [hm] at hcov; cases hcov
  | cons e1 rest =>
    rw [hm] at hall
    have he1 := hall e1 (List.mem_cons_self _ _)
    cases rest with
    | nil => rw [he1]
    | cons e2 rest' =>
      have he2 := hall e2 (List.mem_cons_of_mem _ (List.mem_cons_self _ _))
      have hnd := G.nodup
      rw [hm, he1, he2] at hnd
      simp at hnd

theorem get_coordinates_congr (s s' : Lattice) (hL : s.lattice_size_ = s'.lattice_size_)
    (index : Nat) : s.get_coordinates_via_index index = s'.get_coordinates_via_index index := by
  simp only [get_coordinates_via_index, lattice_area_, hL]

theorem percolation_scan_congr (s s' : Lattice) (hL : s.lattice_size_ = s'.lattice_size_)
    (hn : s.n_layers_ = s'.n_layers_) (hb : s.boundary_conditions_ = s'.boundary_conditions_)
    (cluster : List Nat) : ∀ ux uy uz : Finset Nat,
    s.percolation_scan cluster ux uy uz = s'.percolation_scan cluster ux uy uz := by
  induction cluster with
  | nil => intro ux uy uz; rfl
  | cons index rest ih =>
    intro ux uy uz
    simp only [percolation_scan, get_coordinates_congr s s' hL, hL, hn, hb, ih]

/-- The percolation test reads only the two extents and the boundary mode. -/
theorem is_cluster_percolation_congr (s s' : Lattice) (hL : s.lattice_size_ = s'.lattice_size_)
    (hn : s.n_layers_ = s'.n_layers_) (hb : s.boundary_conditions_ = s'.boundary_conditions_)
    (cluster : List Nat) : s.is_cluster_percolation cluster = s'.is_cluster_percolation cluster := by
  simp only [is_cluster_percolation, percolation_scan_congr s s' hL hn hb, hL, hn]

/-- The neighbour table of the 3x3x3 examples is the one `generate_neighbors` returns. -/
theorem sc3_neighbors_generated (boundary : Bool) :
    (sc3_geometry boundary).generate_neighbors = .ok (sc3_neighbors boundary) := by
  have h := generate_neighbors_eq_ok (sc3_geometry boundary)
    (show neighbor_offsets_vec (sc3_geometry boundary).crystal_type_string_ = .ok _ from rfl)
  rw [h]
  simp only [sc3_neighbors, h]

theorem sc3_neighbors_chain (boundary : Bool) :
    ∀ i < 27, i = 0 ∨ ∃ j < i, j ∈ (sc3_neighbors boundary).getD i [] := by
  cases boundary <;> decide

theorem sc3_spin (boundary : Bool) (p0 rk0 : Nat → Nat) :
    ∀ i < 27, (sc3_all_up boundary p0 rk0).spin_values_vec_.getD i 0 = 1 := by
  show ∀ i < 27, (List.replicate 27 (1 : Int)).getD i 0 = 1
  decide

theorem sc3_magnetic (boundary : Bool) (p0 rk0 : Nat → Nat) (i : Nat) :
    i ∈ (sc3_all_up boundary p0 rk0).ferro_indices_vec_
      ↔ (sc3_all_up boundary p0 rk0).spin_values_vec_.getD i 0 ≠ 0 := by
  show i ∈ List.range 27 ↔ _
  rw [List.mem_range]
  constructor
  · intro hi
    rw [sc3_spin boundary p0 rk0 i hi]
    decide
  · intro h
    by_contra hlt
    apply h
    show (List.replicate 27 (1 : Int)).getD i 0 = 0
    exact List.getD_eq_default _ _ (by simp; omega)

/-- In the fully occupied all-up 3x3x3 lattice every site is joined to site `0`. -/
theorem sc3_connected (boundary : Bool) (p0 rk0 : Nat → Nat) :
    ∀ i < 27, (sc3_all_up boundary p0 rk0).same_sign_connected 0 i := by
  intro i
  induction i using Nat.strong_induction_on with
  | _ i ih =>
    intro hi
    rcases sc3_neighbors_chain boundary i hi with h0 | ⟨j, hj, hmem⟩
    · subst h0; exact Relation.ReflTransGen.refl
    · have hj27 : j < 27 := by omega
      refine Relation.ReflTransGen.tail (ih j hj hj27) ⟨Or.inr hmem, ?_, ?_⟩
      · rw [sc3_spin boundary p0 rk0 j hj27]; decide
      · rw [sc3_spin boundary p0 rk0 j hj27, sc3_spin boundary p0 rk0 i hi]

/-- For the fully occupied all-up 3x3x3 lattice `find_clusters` classifies the single
cluster that holds all 27 sites in index order. -/
theorem sc3_find_clusters (boundary : Bool) (p0 rk0 : Nat → Nat)
    (map_order : List (Nat × List Nat) → List (Nat × List Nat))
    (horder : ∀ m, (map_order m).Perm m) (fuel : Nat)
    (hfuel : (sc3_all_up boundary p0 rk0).find_clusters_fuel ≤ fuel) :
    ∃ s', find_clusters fuel map_order (sc3_all_up boundary p0 rk0)
      = some (s', (sc3_all_up boundary p0 rk0).classify_clusters [List.range 27]) := by
  obtain ⟨p', rk', f, hrun, hconn, -⟩ := (sc3_all_up boundary p0 rk0).find_clusters_master
    map_order (sc3_magnetic boundary p0 rk0) fuel hfuel
  have hferro : (sc3_all_up boundary p0 rk0).ferro_indices_vec_ = List.range 27 := rfl
  have hconst : ∀ i ∈ List.range 27, f i = f 0 := by
    intro i hi
    have h0 : 0 ∈ (sc3_all_up boundary p0 rk0).ferro_indices_vec_ := by
      rw [hferro]; exact List.mem_range.2 (by omega)
    exact ((hconn 0 i h0 (hferro ▸ hi)).2
      (sc3_connected boundary p0 rk0 i (List.mem_range.1 hi))).symm
  have hsingle := group_fold_single f (List.range 27) (by decide) (f 0) hconst
  rw [hferro, hsingle] at hrun
  have hord : map_order [(f 0, List.range 27)] = [(f 0, List.range 27)] :=
    List.perm_singleton.1 (horder _)
  rw [hord] at hrun
  exact ⟨_, hrun⟩
theorem sc3_percolation (boundary : Bool) :
    (sc3_geometry boundary).is_cluster_percolation (List.range 27) = !boundary := by
  cases boundary <;> decide

theorem sc3_classify (boundary : Bool) (p0 rk0 : Nat → Nat) :
    (sc3_all_up boundary p0 rk0).classify_clusters [List.range 27]
      = { clusters_all := [List.range 27], clusters_up := [List.range 27], clusters_down := [],
          clusters_perc := if boundary then [] else [List.range 27] } := by
  have hperc : (sc3_all_up boundary p0 rk0).is_cluster_percolation (List.range 27) = !boundary :=
    (is_cluster_percolation_congr (sc3_all_up boundary p0 rk0) (sc3_geometry boundary) rfl rfl rfl
      (List.range 27)).trans (sc3_percolation boundary)
  have hspin : (sc3_all_up boundary p0 rk0).spin_values_vec_.getD ((List.range 27).getD 0 0) 0
      = 1 := sc3_spin boundary p0 rk0 0 (by omega)
  simp only [classify_clusters, List.filter, hspin, hperc, decide_True, Bool.not_true]
  cases boundary <;> rfl

/-- Claim C6, the failing input. For the fully occupied all-up 3x3x3 simple-cubic lattice under
OPEN boundaries, with the neighbour table that `generate_neighbors` builds, `find_clusters`
returns exactly one cluster, holding all 27 sites, and its `perc` collection is empty:
`is_cluster_percolation` is false for that cluster. -/
theorem sc3_open_cluster_not_percolating (p0 rk0 : Nat → Nat)
    (map_order : List (Nat × List Nat) → List (Nat × List Nat))
    (horder : ∀ m, (map_order m).Perm m) (fuel : Nat)
    (hfuel : (sc3_all_up true p0 rk0).find_clusters_fuel ≤ fuel) :
    (sc3_geometry true).generate_neighbors = .ok (sc3_all_up true p0 rk0).neighbors_vec_ ∧
    (sc3_all_up true p0 rk0).is_cluster_percolation (List.range 27) = false ∧
    ∃ s', find_clusters fuel map_order (sc3_all_up true p0 rk0)
      = some (s', { clusters_all := [List.range 27], clusters_up := [List.range 27],
                    clusters_down := [], clusters_perc := [] }) := by
  refine ⟨sc3_neighbors_generated true, ?_, ?_⟩
  · exact (is_cluster_percolation_congr (sc3_all_up true p0 rk0) (sc3_geometry true) rfl rfl rfl
      (List.range 27)).trans (sc3_percolation true)
  · obtain ⟨s', hrun⟩ := sc3_find_clusters true p0 rk0 map_order horder fuel hfuel
    rw [sc3_classify] at hrun
    exact ⟨s', hrun⟩

theorem sc3_open_cluster_not_percolating_witness :
    (sc3_geometry true).generate_neighbors
      = .ok (sc3_all_up true (fun _ => 0) (fun _ => 0)).neighbors_vec_ ∧
    (sc3_all_up true (fun _ => 0) (fun _ => 0)).is_cluster_percolation (List.range 27) = false ∧
    ∃ s', find_clusters 110 id (sc3_all_up true (fun _ => 0) (fun _ => 0))
      = some (s', { clusters_all := [List.range 27], clusters_up := [List.range 27],
                    clusters_down := [], clusters_perc := [] }) :=
  sc3_open_cluster_not_percolating (fun _ => 0) (fun _ => 0) id (fun m => List.Perm.refl m) 110
    (by decide)

/-- Claim C7. For the fully occupied all-up 3x3x3 simple-cubic lattice under PERIODIC
boundaries, with the neighbour table that `generate_neighbors` builds, `find_clusters`
returns exactly one cluster in `all`, of size 27, which is the only cluster of `up` and of
`perc`, and `down` is empty. -/
theorem sc3_periodic_single_cluster (p0 rk0 : Nat → Nat)
    (map_order : List (Nat × List Nat) → List (Nat × List Nat))
    (horder : ∀ m, (map_order m).Perm m) (fuel : Nat)
    (hfuel : (sc3_all_up false p0 rk0).find_clusters_fuel ≤ fuel) :
    (sc3_geometry false).generate_neighbors = .ok (sc3_all_up false p0 rk0).neighbors_vec_ ∧
    (List.range 27).length = 27 ∧
    ∃ s', find_clusters fuel map_order (sc3_all_up false p0 rk0)
      = some (s', { clusters_all := [List.range 27], clusters_up := [List.range 27],
                    clusters_down := [], clusters_perc := [List.range 27] }) := by
  refine ⟨sc3_neighbors_generated false, List.length_range 27, ?_⟩
  obtain ⟨s', hrun⟩ := sc3_find_clusters false p0 rk0 map_order horder fuel hfuel
  rw [sc3_classify] at hrun
  exact ⟨s', hrun⟩

theorem sc3_periodic_single_cluster_witness :
    (sc3_geometry false).generate_neighbors
      = .ok (sc3_all_up false (fun _ => 0) (fun _ => 0)).neighbors_vec_ ∧
    (List.range 27).length = 27 ∧
    ∃ s', find_clusters 164 id (sc3_all_up false (fun _ => 0) (fun _ => 0))
      = some (s', { clusters_all := [List.range 27], clusters_up := [List.range 27],
                    clusters_down := [], clusters_perc := [List.range 27] }) :=
  sc3_periodic_single_cluster (fun _ => 0) (fun _ => 0) id (fun m => List.Perm.refl m) 164
    (by decide)

theorem small_diluted_magnetic (i : Nat) :
    i ∈ small_diluted.ferro_indices_vec_ ↔ small_diluted.spin_values_vec_.getD i 0 ≠ 0 := by
  show i ∈ [0, 1, 3] ↔ ([1, -1, 0, -1] : List Int).getD i 0 ≠ 0
  by_cases hi : i < 4
  · interval_cases i <;> decide
  · have h1 : ([1, -1, 0, -1] : List Int).getD i 0 = 0 :=
      List.getD_eq_default _ _ (by simp; omega)
    rw [h1]
    simp only [List.mem_cons, List.mem_singleton, List.not_mem_nil, or_false, ne_eq,
      not_true_eq_false, iff_false]
    omega

theorem small_diluted_spins (i : Nat) :
    small_diluted.spin_values_vec_.getD i 0 = -1 ∨ small_diluted.spin_values_vec_.getD i 0 = 0 ∨
      small_diluted.spin_values_vec_.getD i 0 = 1 := by
  show ([1, -1, 0, -1] : List Int).getD i 0 = -1 ∨ ([1, -1, 0, -1] : List Int).getD i 0 = 0 ∨
    ([1, -1, 0, -1] : List Int).getD i 0 = 1
  by_cases hi : i < 4
  · interval_cases i <;> decide
  · have h1 : ([1, -1, 0, -1] : List Int).getD i 0 = 0 :=
      List.getD_eq_default _ _ (by simp; omega)
    rw [h1]; decide

theorem find_clusters_connected_components_witness :
    ∃ s' r, find_clusters 8 id small_diluted = some (s', r) ∧
      (∀ i j, small_diluted.spin_values_vec_.getD i 0 ≠ 0 →
        small_diluted.spin_values_vec_.getD j 0 ≠ 0 →
        ((∃ c ∈ r.clusters_all, i ∈ c ∧ j ∈ c) ↔ small_diluted.same_sign_connected i j)) ∧
      (∀ c ∈ r.clusters_all, ∀ i ∈ c, ∀ j, j ∈ c ↔ small_diluted.same_sign_connected i j) :=
  find_clusters_connected_components small_diluted id (fun m => List.Perm.refl m)
    small_diluted_magnetic (by decide) 8 (by decide)

theorem find_clusters_partition_witness :
    ∃ s' r, find_clusters 8 id small_diluted = some (s', r) ∧
      r.clusters_all.flatten.Perm small_diluted.ferro_indices_vec_ ∧
      (∀ c ∈ r.clusters_all, c.Nodup) ∧
      r.clusters_all.Pairwise List.Disjoint ∧
      (∀ c ∈ r.clusters_all, c ≠ []) ∧
      r.clusters_all.length = r.clusters_up.length + r.clusters_down.length :=
  find_clusters_partition small_diluted id (fun m => List.Perm.refl m) (by decide)
    small_diluted_magnetic 8 (by decide)

theorem find_clusters_classification_witness :
    ∃ s' r, find_clusters 8 id small_diluted = some (s', r) ∧
      (∀ c ∈ r.clusters_all, ∀ a ∈ c, ∀ b ∈ c,
        small_diluted.spin_values_vec_.getD a 0 = small_diluted.spin_values_vec_.getD b 0) ∧
      (∀ c ∈ r.clusters_all, ∀ a ∈ c,
        small_diluted.spin_values_vec_.getD (c.getD 0 0) 0
          = small_diluted.spin_values_vec_.getD a 0) ∧
      r.clusters_up = r.clusters_all.filter
        (fun c => decide (∀ a ∈ c, small_diluted.spin_values_vec_.getD a 0 = 1)) ∧
      r.clusters_down = r.clusters_all.filter
        (fun c => decide (∀ a ∈ c, small_diluted.spin_values_vec_.getD a 0 = -1)) ∧
      r.clusters_perc = r.clusters_all.filter (fun c => small_diluted.is_cluster_percolation c) :=
  find_clusters_classification small_diluted id (fun m => List.Perm.refl m)
    small_diluted_magnetic small_diluted_spins 8 (by decide)

/-- Claim C11. When both extents are at most 65536, so that every coordinate fits
`uint16_t`, decoding an index below `lattice_volume_` gives coordinates inside the lattice
that recompose to the index, decoding the flat index of in-range coordinates gives the
coordinates back, and so decoding is a bijection between the indices below the volume and
the in-range coordinate triples. -/
theorem get_coordinates_bijection (s : Lattice) (hL : s.lattice_size_ ≤ 65536)
    (hn : s.n_layers_ ≤ 65536) :
    (∀ index, index < s.lattice_volume_ →
      (s.get_coordinates_via_index index).1 < s.lattice_size_ ∧
      (s.get_coordinates_via_index index).2.1 < s.lattice_size_ ∧
      (s.get_coordinates_via_index index).2.2 < s.n_layers_ ∧
      (s.get_coordinates_via_index index).1
        + (s.get_coordinates_via_index index).2.1 * s.lattice_size_
        + (s.get_coordinates_via_index index).2.2 * s.lattice_area_ = index) ∧
    (∀ x y z, x < s.lattice_size_ → y < s.lattice_size_ → z < s.n_layers_ →
      s.get_coordinates_via_index (x + y * s.lattice_size_ + z * (s.lattice_size_ * s.lattice_size_))
        = (x, y, z)) ∧
    Set.BijOn s.get_coordinates_via_index {index | index < s.lattice_volume_}
      {c | c.1 < s.lattice_size_ ∧ c.2.1 < s.lattice_size_ ∧ c.2.2 < s.n_layers_} := by
  have h1 : ∀ index, index < s.lattice_volume_ →
      (s.get_coordinates_via_index index).1 < s.lattice_size_ ∧
      (s.get_coordinates_via_index index).2.1 < s.lattice_size_ ∧
      (s.get_coordinates_via_index index).2.2 < s.n_layers_ ∧
      (s.get_coordinates_via_index index).1
        + (s.get_coordinates_via_index index).2.1 * s.lattice_size_
        + (s.get_coordinates_via_index index).2.2 * s.lattice_area_ = index := by
    intro index hi
    obtain ⟨x, y, z, hx, hy, hz, rfl⟩ := s.exists_coordinates_of_lt_volume hi
    rw [s.get_coordinates_flat_index hL hn hx hy hz]
    exact ⟨hx, hy, hz, rfl⟩
  have h2 : ∀ x y z, x < s.lattice_size_ → y < s.lattice_size_ → z < s.n_layers_ →
      s.get_coordinates_via_index (x + y * s.lattice_size_ + z * (s.lattice_size_ * s.lattice_size_))
        = (x, y, z) :=
    fun x y z hx hy hz => s.get_coordinates_flat_index hL hn hx hy hz
  refine ⟨h1, h2, ?_, ?_, ?_⟩
  · intro index hi
    obtain ⟨a, b, c, _⟩ := h1 index hi
    exact ⟨a, b, c⟩
  · intro i hi j hj hij
    have e1 := (h1 i hi).2.2.2
    have e2 := (h1 j hj).2.2.2
    rw [hij] at e1
    exact e1.symm.trans e2
  · rintro ⟨x, y, z⟩ ⟨hx, hy, hz⟩
    exact ⟨s.flat_index x y z, s.flat_index_lt_volume hx hy hz, h2 x y z hx hy hz⟩

theorem get_coordinates_bijection_witness :
    (∀ index, index < small_bcc_open.lattice_volume_ →
      (small_bcc_open.get_coordinates_via_index index).1 < small_bcc_open.lattice_size_ ∧
      (small_bcc_open.get_coordinates_via_index index).2.1 < small_bcc_open.lattice_size_ ∧
      (small_bcc_open.get_coordinates_via_index index).2.2 < small_bcc_open.n_layers_ ∧
      (small_bcc_open.get_coordinates_via_index index).1
        + (small_bcc_open.get_coordinates_via_index index).2.1 * small_bcc_open.lattice_size_
        + (small_bcc_open.get_coordinates_via_index index).2.2 * small_bcc_open.lattice_area_
          = index) ∧
    (∀ x y z, x < small_bcc_open.lattice_size_ → y < small_bcc_open.lattice_size_ →
      z < small_bcc_open.n_layers_ →
      small_bcc_open.get_coordinates_via_index (x + y * small_bcc_open.lattice_size_
        + z * (small_bcc_open.lattice_size_ * small_bcc_open.lattice_size_)) = (x, y, z)) ∧
    Set.BijOn small_bcc_open.get_coordinates_via_index
      {index | index < small_bcc_open.lattice_volume_}
      {c | c.1 < small_bcc_open.lattice_size_ ∧ c.2.1 < small_bcc_open.lattice_size_ ∧
        c.2.2 < small_bcc_open.n_layers_} :=
  get_coordinates_bijection small_bcc_open (by decide) (by decide)

/-- Claim C12, as amended. `generate_neighbors` succeeds exactly when the crystal-type
string is one of the six spellings `SC`, `sc`, `BCC`, `bcc`, `FCC`, `fcc`, and then walks
the offset table of that crystal; for every other string it fails with the error
`unknown type of crystal` and produces no neighbour lists. -/
theorem generate_neighbors_accepts_six_spellings (s : Lattice) :
    ((s.crystal_type_string_ = "SC" ∨ s.crystal_type_string_ = "sc") →
      s.generate_neighbors = .ok ((List.range s.lattice_volume_).map (s.neighbors_of_site
        [(1, 0, 0), (-1, 0, 0), (0, 1, 0), (0, -1, 0), (0, 0, 1), (0, 0, -1)]))) ∧
    ((s.crystal_type_string_ = "BCC" ∨ s.crystal_type_string_ = "bcc") →
      s.generate_neighbors = .ok ((List.range s.lattice_volume_).map (s.neighbors_of_site
        [(1, 0, 0), (-1, 0, 0), (0, 1, 0), (0, -1, 0), (0, 0, 1), (0, 0, -1),
          (1, 1, 1), (-1, -1, -1)]))) ∧
    ((s.crystal_type_string_ = "FCC" ∨ s.crystal_type_string_ = "fcc") →
      s.generate_neighbors = .ok ((List.range s.lattice_volume_).map (s.neighbors_of_site
        [(1, 0, 0), (-1, 0, 0), (0, 1, 0), (0, -1, 0), (1, 1, 0), (-1, -1, 0),
          (1, 0, 1), (-1, 0, -1), (0, 1, 1), (0, -1, -1), (0, 0, 1), (0, 0, -1)]))) ∧
    (s.crystal_type_string_ ∉ ["SC", "sc", "BCC", "bcc", "FCC", "fcc"] →
      s.generate_neighbors = .error ("unknown type of crystal")) ∧
    ((∃ table, s.generate_neighbors = .ok table) ↔
      s.crystal_type_string_ ∈ ["SC", "sc", "BCC", "bcc", "FCC", "fcc"]) := by
  have hsc : (s.crystal_type_string_ = "SC" ∨ s.crystal_type_string_ = "sc") →
      neighbor_offsets_vec s.crystal_type_string_
        = .ok [(1, 0, 0), (-1, 0, 0), (0, 1, 0), (0, -1, 0), (0, 0, 1), (0, 0, -1)] := by
    intro h; simp only [neighbor_offsets_vec, h, if_true]
  have hbcc : (s.crystal_type_string_ = "BCC" ∨ s.crystal_type_string_ = "bcc") →
      neighbor_offsets_vec s.crystal_type_string_
        = .ok [(1, 0, 0), (-1, 0, 0), (0, 1, 0), (0, -1, 0), (0, 0, 1), (0, 0, -1),
          (1, 1, 1), (-1, -1, -1)] := by
    intro h
    have h1 : ¬ (s.crystal_type_string_ = "SC" ∨ s.crystal_type_string_ = "sc") := by
      rcases h with h | h <;> rw [h] <;> decide
    simp only [neighbor_offsets_vec, h1, h, if_true, if_false]
  have hfcc : (s.crystal_type_string_ = "FCC" ∨ s.crystal_type_string_ = "fcc") →
      neighbor_offsets_vec s.crystal_type_string_
        = .ok [(1, 0, 0), (-1, 0, 0), (0, 1, 0), (0, -1, 0), (1, 1, 0), (-1, -1, 0),
          (1, 0, 1), (-1, 0, -1), (0, 1, 1), (0, -1, -1), (0, 0, 1), (0, 0, -1)] := by
    intro h
    have h1 : ¬ (s.crystal_type_string_ = "SC" ∨ s.crystal_type_string_ = "sc") := by
      rcases h with h | h <;> rw [h] <;> decide
    have h2 : ¬ (s.crystal_type_string_ = "BCC" ∨ s.crystal_type_string_ = "bcc") := by
      rcases h with h | h <;> rw [h] <;> decide
    simp only [neighbor_offsets_vec, h1, h2, h, if_true, if_false]
  have herr : s.crystal_type_string_ ∉ ["SC", "sc", "BCC", "bcc", "FCC", "fcc"] →
      s.generate_neighbors = .error ("unknown type of crystal") := by
    intro h
    simp only [List.mem_cons, List.mem_singleton, List.not_mem_nil, or_false, not_or] at h
    obtain ⟨a1, a2, a3, a4, a5, a6⟩ := h
    simp only [generate_neighbors, neighbor_offsets_vec, a1, a2, a3, a4, a5, a6, or_self,
      if_false]
  refine ⟨fun h => s.generate_neighbors_eq_ok (hsc h), fun h => s.generate_neighbors_eq_ok (hbcc h),
    fun h => s.generate_neighbors_eq_ok (hfcc h), herr, ?_⟩
  constructor
  · rintro ⟨table, ht⟩
    by_contra hmem
    rw [herr hmem] at ht
    cases ht
  · intro hmem
    simp only [List.mem_cons, List.mem_singleton, List.not_mem_nil, or_false] at hmem
    rcases hmem with h | h | h | h | h | h
    · exact ⟨_, s.generate_neighbors_eq_ok (hsc (Or.inl h))⟩
    · exact ⟨_, s.generate_neighbors_eq_ok (hsc (Or.inr h))⟩
    · exact ⟨_, s.generate_neighbors_eq_ok (hbcc (Or.inl h))⟩
    · exact ⟨_, s.generate_neighbors_eq_ok (hbcc (Or.inr h))⟩
    · exact ⟨_, s.generate_neighbors_eq_ok (hfcc (Or.inl h))⟩
    · exact ⟨_, s.generate_neighbors_eq_ok (hfcc (Or.inr h))⟩

/-- Claim C12, the counterexample. The spelling `Sc` equals `SC` under case-insensitive
comparison, and `generate_neighbors` fails for it with the unknown-crystal-type error. -/
theorem generate_neighbors_rejects_mixed_case :
    mixed_case_sc.crystal_type_string_.data.map Char.toUpper = ['S', 'C'] ∧
    mixed_case_sc.generate_neighbors = .error ("unknown type of crystal") := by
  constructor
  · decide
  · rfl
/-- With fewer than one hundred configurations `progres_step` is zero, and the first pass of
the configuration loop takes a modulo by zero. -/
theorem progress_report_small (num_configuration : Int) (h1 : 1 ≤ num_configuration)
    (h2 : num_configuration < 100) : progress_report num_configuration 0 = none := by
  have h : Int.tdiv num_configuration 100 = 0 := Int.tdiv_eq_zero_of_lt (by omega) h2
  simp only [progress_report, h, if_true]

/-- With at least one hundred configurations no pass of the loop divides by zero. -/
theorem progress_report_large (num_configuration configuration : Int)
    (h : 100 ≤ num_configuration) : progress_report num_configuration configuration ≠ none := by
  have h0 : Int.tdiv num_configuration 100 ≠ 0 := by
    rw [Int.tdiv_eq_ediv (by omega) (by omega)]
    omega
  have h1 : num_configuration - 1 ≠ 0 := by omega
  simp only [progress_report, h0, h1, if_false]
  split_ifs <;> simp

/-- Claim C20, the failing input. With `num_configurations = 50` the step
`progres_step = 50 / 100` is zero and the pass for `configuration = 0` evaluates
`configuration % progres_step`, a modulo by zero; with `num_configurations = 1` the same
happens, and the quotient `(configuration * 100) / (num_configurations - 1)` would divide by
zero as well. -/
theorem progress_report_divides_by_zero :
    Int.tdiv 50 100 = 0 ∧ progress_report 50 0 = none ∧
    Int.tdiv 1 100 = 0 ∧ (1 : Int) - 1 = 0 ∧ progress_report 1 0 = none := by
  decide

/-- Path halving at `i` does not lengthen the way to a root. -/
theorem iterate_halve_le (p : Nat → Nat) (i : Nat) {r : Nat} :
    ∀ (k j : Nat), p^[k] j = r → p r = r →
      ∃ k', k' ≤ k ∧ (Function.update p i (p (p i)))^[k'] j = r := by
  intro k
  induction k using Nat.strong_induction_on with
  | _ k ih =>
    intro j hk hr
    cases k with
    | zero => exact ⟨0, le_refl _, hk⟩
    | succ m =>
      rw [Function.iterate_succ_apply] at hk
      by_cases hji : j = i
      · subst hji
        cases m with
        | zero =>
          refine ⟨1, le_refl _, ?_⟩
          simp only [Function.iterate_zero, id] at hk
          rw [Function.iterate_one, Function.update_same, hk, hr]
        | succ m' =>
          rw [Function.iterate_succ_apply] at hk
          obtain ⟨k', hle, hk'⟩ := ih m' (by omega) _ hk hr
          exact ⟨k' + 1, by omega,
            by rw [Function.iterate_succ_apply, Function.update_same]; exact hk'⟩
      · obtain ⟨k', hle, hk'⟩ := ih m (by omega) _ hk hr
        exact ⟨k' + 1, by omega, by
          rw [Function.iterate_succ_apply, Function.update_noteq hji]; exact hk'⟩

/-- A site that is not a root and reaches one never comes back to itself. -/
theorem iterate_ne_self {p : Nat → Nat} {i r k : Nat} (hi : p i ≠ i) (hk : p^[k] i = r)
    (hr : p r = r) : ∀ a, 1 ≤ a → p^[a] i ≠ i := by
  intro a ha hcyc
  have hrep : ∀ t, p^[a * t] i = i := by
    intro t
    induction t with
    | zero => rfl
    | succ t ih => rw [Nat.mul_succ, Function.iterate_add_apply, hcyc, ih]
  have hge : k ≤ a * k := Nat.le_mul_of_pos_left k (by omega)
  obtain ⟨d, hd⟩ := Nat.exists_eq_add_of_le hge
  have h1 := hrep k
  rw [hd, Nat.add_comm, Function.iterate_add_apply, hk, Function.iterate_fixed hr] at h1
  exact hi (h1 ▸ hr)

/-- `find` from a site that reaches the root `r` in `k` steps returns `r` within `k + 1`
loop tests, keeps the root of every site, and changes `parent_` only at sites on the way
from its argument, each to its grandparent. -/
theorem find_of_iterate : ∀ (k : Nat) (p : Nat → Nat) (i r : Nat), p^[k] i = r → p r = r →
    ∀ fuel, k < fuel → ∃ p', find fuel p i = some (p', r) ∧
      (∀ j r', IsRootOf p j r' → IsRootOf p' j r') ∧
      (∀ j, p' j ≠ p j → (∃ m, p^[m] i = j) ∧ p j ≠ j ∧ p' j = p (p j)) := by
  intro k
  induction k using Nat.strong_induction_on with
  | _ k ih =>
    intro p i r hk hr fuel hfuel
    obtain ⟨fuel, rfl⟩ : ∃ f, fuel = f + 1 := ⟨fuel - 1, by omega⟩
    by_cases hp : p i = i
    · have hir : r = i := by rw [← hk, Function.iterate_fixed hp]
      subst hir
      exact ⟨p, by simp [find, hp], fun _ _ h => h, fun j hj => absurd rfl hj⟩
    · have hk1 : 1 ≤ k := by
        rcases Nat.eq_zero_or_pos k with h0 | h0
        · subst h0
          simp only [Function.iterate_zero, id] at hk
          exact absurd (hk ▸ hr) hp
        · exact h0
      have hnext : Function.update p i (p (p i)) i = p (p i) := Function.update_same _ _ _
      have hri : r ≠ i := fun e => hp (e ▸ hr)
      have hr1 : Function.update p i (p (p i)) r = r := by
        rw [Function.update_noteq hri, hr]
      -- the next index reaches the root in fewer steps
      have hdist : ∃ k1, k1 < k ∧ (Function.update p i (p (p i)))^[k1] (p (p i)) = r := by
        obtain ⟨m, rfl⟩ : ∃ m, k = m + 1 := ⟨k - 1, by omega⟩
        rw [Function.iterate_succ_apply] at hk
        cases m with
        | zero =>
          simp only [Function.iterate_zero, id] at hk
          exact ⟨0, by omega, by rw [Function.iterate_zero, id, hk, hr]⟩
        | succ m' =>
          rw [Function.iterate_succ_apply] at hk
          obtain ⟨k', hle, hk'⟩ := iterate_halve_le p i m' _ hk hr
          exact ⟨k', by omega, hk'⟩
      obtain ⟨k1, hk1lt, hk1eq⟩ := hdist
      obtain ⟨p', hfind, hpres, hchg⟩ :=
        ih k1 hk1lt (Function.update p i (p (p i))) (p (p i)) r hk1eq hr1 fuel (by omega)
      have hpath : ∀ m, (Function.update p i (p (p i)))^[m] (p (p i)) = p^[m + 2] i := by
        intro m
        induction m with
        | zero => rfl
        | succ m ihm =>
          rw [Function.iterate_succ_apply', ihm, Function.update_noteq
            (iterate_ne_self hp hk hr (m + 2) (by omega)), ← Function.iterate_succ_apply' p]
      refine ⟨p', ?_, fun j r' h => hpres j r' (isRootOf_halve p i h), ?_⟩
      · simp only [find, ne_eq, hp, not_false_eq_true, if_true, hnext]
        exact hfind
      · intro j hj
        by_cases h1 : p' j = Function.update p i (p (p i)) j
        · have hji : j = i := by
            by_contra hne
            rw [Function.update_noteq hne] at h1
            exact hj h1
          subst hji
          rw [h1, hnext]
          exact ⟨⟨0, rfl⟩, hp, rfl⟩
        · obtain ⟨⟨m, hm⟩, hne, heq⟩ := hchg j h1
          rw [hpath m] at hm
          have hji : j ≠ i := hm ▸ iterate_ne_self hp hk hr (m + 2) (by omega)
          have hpj : p j ≠ i := by
            rw [← hm, ← Function.iterate_succ_apply' p]
            exact iterate_ne_self hp hk hr (m + 3) (by omega)
          rw [Function.update_noteq hji] at heq hne
          rw [Function.update_noteq hpj] at heq
          exact ⟨⟨m + 2, hm⟩, hne, heq⟩

/-- Claim C18. In a parent array in which following the parent links from every magnetic
index reaches a self-parented root, `find` of a magnetic index `i` terminates (every fuel
from some bound on gives the result) and returns the root of `i`; it changes `parent_` only
at sites on the way from `i` to the root, each from its parent to its grandparent; and
afterwards every magnetic index still reaches the root it had before. -/
theorem find_path_halving (M : Nat → Prop) (p : Nat → Nat) (i : Nat)
    (hforest : ∀ j, M j → ∃ r, IsRootOf p j r) (hi : M i) :
    ∃ r fuel0, IsRootOf p i r ∧ ∀ fuel, fuel0 ≤ fuel →
      ∃ p', find fuel p i = some (p', r) ∧
        (∀ j, p' j ≠ p j → (∃ m, p^[m] i = j) ∧ p j ≠ j ∧ p' j = p (p j)) ∧
        (∀ j, M j → ∃ r', IsRootOf p j r' ∧ IsRootOf p' j r') := by
  obtain ⟨r, k, hk, hr⟩ := hforest i hi
  refine ⟨r, k + 1, ⟨k, hk, hr⟩, fun fuel hfuel => ?_⟩
  obtain ⟨p', hfind, hpres, hchg⟩ := find_of_iterate k p i r hk hr fuel (by omega)
  refine ⟨p', hfind, hchg, fun j hj => ?_⟩
  obtain ⟨r', hr'⟩ := hforest j hj
  exact ⟨r', hr', hpres j r' hr'⟩

theorem find_path_halving_witness :
    ∃ r fuel0, IsRootOf (fun j => j - 1) 3 r ∧ ∀ fuel, fuel0 ≤ fuel →
      ∃ p', find fuel (fun j => j - 1) 3 = some (p', r) ∧
        (∀ j, p' j ≠ (fun j => j - 1) j →
          (∃ m, (fun j => j - 1)^[m] 3 = j) ∧ (fun j => j - 1) j ≠ j ∧
            p' j = (fun j => j - 1) ((fun j => j - 1) j)) ∧
        (∀ j, j ≤ 3 → ∃ r', IsRootOf (fun j => j - 1) j r' ∧ IsRootOf p' j r') :=
  find_path_halving (fun j => j ≤ 3) (fun j => j - 1) 3
    (fun j hj => ⟨0, j, by interval_cases j <;> rfl, rfl⟩) (le_refl 3)
theorem AgreeOn.update {M : Nat → Prop} {p q : Nat → Nat} (h : AgreeOn M p q) (i v : Nat) :
    AgreeOn M (Function.update p i v) (Function.update q i v) := by
  intro j hj
  by_cases hji : j = i
  · subst hji; rw [Function.update_same, Function.update_same]
  · rw [Function.update_noteq hji, Function.update_noteq hji]; exact h j hj

theorem closed_update {M : Nat → Prop} {p : Nat → Nat} (h : ∀ j, M j → M (p j)) {i v : Nat}
    (hv : M v) : ∀ j, M j → M (Function.update p i v j) := by
  intro j hj
  by_cases hji : j = i
  · subst hji; rw [Function.update_same]; exact hv
  · rw [Function.update_noteq hji]; exact h j hj

/-- `find` reads `parent_` only at sites of the forest: on two contents that agree there it
returns the same root and leaves contents that agree there. -/
theorem find_congr {M : Nat → Prop} : ∀ (fuel : Nat) (p q : Nat → Nat) (i : Nat)
    (p' : Nat → Nat) (r : Nat), (∀ j, M j → M (p j)) → M i → AgreeOn M p q →
    find fuel p i = some (p', r) →
    ∃ q', find fuel q i = some (q', r) ∧ AgreeOn M p' q' ∧ (∀ j, M j → M (p' j)) ∧ M r := by
  intro fuel
  induction fuel with
  | zero => intro p q i p' r _ _ _ h; simp [find] at h
  | succ fuel ih =>
    intro p q i p' r hcl hi hag h
    have hqi : q i = p i := (hag i hi).symm
    by_cases hp : p i = i
    · simp only [find, ne_eq, hp, not_true_eq_false, if_false, Option.some.injEq,
        Prod.mk.injEq] at h
      obtain ⟨rfl, rfl⟩ := h
      exact ⟨q, by simp [find, hqi, hp], hag, hcl, hi⟩
    · have hpi := hcl i hi
      have hqq : q (q i) = p (p i) := by rw [hqi]; exact (hag _ hpi).symm
      simp only [find, ne_eq, hp, not_false_eq_true, if_true, Function.update_same] at h
      obtain ⟨q', hq', hag', hcl', hr⟩ :=
        ih (Function.update p i (p (p i))) (Function.update q i (p (p i))) (p (p i)) p' r
          (closed_update hcl (hcl _ hpi)) (hcl _ hpi) (hag.update i _) h
      refine ⟨q', ?_, hag', hcl', hr⟩
      have e : q (p i) = p (p i) := (hag _ hpi).symm
      simp only [find, ne_eq, hqi, hp, not_false_eq_true, if_true, Function.update_same]
      rw [e]
      exact hq'

/-- `union_clusters` reads `parent_` and `rank_` only at sites of the forest. -/
theorem union_clusters_congr {M : Nat → Prop} {fuel : Nat} {p q rk rk2 : Nat → Nat} {a b : Nat}
    {p' rk' : Nat → Nat} (hcl : ∀ j, M j → M (p j)) (ha : M a) (hb : M b)
    (hag : AgreeOn M p q) (hrk : AgreeOn M rk rk2)
    (h : union_clusters fuel p rk a b = some (p', rk')) :
    ∃ q' rk2', union_clusters fuel q rk2 a b = some (q', rk2') ∧ AgreeOn M p' q' ∧
      AgreeOn M rk' rk2' ∧ (∀ j, M j → M (p' j)) := by
  unfold union_clusters at h
  cases h1 : find fuel p a with
  | none => simp only [h1] at h; cases h
  | some res1 =>
    obtain ⟨p1, ra⟩ := res1
    simp only [h1] at h
    obtain ⟨q1, hq1, hag1, hcl1, hMra⟩ := find_congr fuel p q a p1 ra hcl ha hag h1
    cases h2 : find fuel p1 b with
    | none => simp only [h2] at h; cases h
    | some res2 =>
      obtain ⟨p2, rb⟩ := res2
      simp only [h2] at h
      obtain ⟨q2, hq2, hag2, hcl2, hMrb⟩ := find_congr fuel p1 q1 b p2 rb hcl1 hb hag1 h2
      have era := hrk ra hMra
      have erb := hrk rb hMrb
      unfold union_clusters
      simp only [hq1, hq2]
      by_cases hab : ra = rb
      · rw [if_pos hab] at h ⊢
        simp only [Option.some.injEq, Prod.mk.injEq] at h
        obtain ⟨rfl, rfl⟩ := h
        exact ⟨q2, rk2, rfl, hag2, hrk, hcl2⟩
      · rw [if_neg hab] at h ⊢
        by_cases hlt : rk ra < rk rb
        · have hlt2 : rk2 ra < rk2 rb := by rw [← era, ← erb]; exact hlt
          rw [if_pos hlt] at h
          rw [if_pos hlt2]
          simp only [Option.some.injEq, Prod.mk.injEq] at h
          obtain ⟨rfl, rfl⟩ := h
          exact ⟨_, _, rfl, hag2.update _ _, hrk, closed_update hcl2 hMrb⟩
        · have hlt2 : ¬ rk2 ra < rk2 rb := by rw [← era, ← erb]; exact hlt
          rw [if_neg hlt] at h
          rw [if_neg hlt2]
          by_cases heq : rk ra = rk rb
          · have heq2 : rk2 ra = rk2 rb := by rw [← era, ← erb]; exact heq
            rw [if_pos heq] at h
            rw [if_pos heq2]
            simp only [Option.some.injEq, Prod.mk.injEq] at h
            obtain ⟨rfl, rfl⟩ := h
            refine ⟨_, _, rfl, hag2.update _ _, ?_, closed_update hcl2 hMra⟩
            rw [← era]
            exact hrk.update _ _
          · have heq2 : ¬ rk2 ra = rk2 rb := by rw [← era, ← erb]; exact heq
            rw [if_neg heq] at h
            rw [if_neg heq2]
            simp only [Option.some.injEq, Prod.mk.injEq] at h
            obtain ⟨rfl, rfl⟩ := h
            exact ⟨_, _, rfl, hag2.update _ _, hrk, closed_update hcl2 hMra⟩
/-- The inner union loop reads `parent_` and `rank_` only at magnetic sites. -/
theorem union_neighbors_congr {M : Nat → Prop} (s s2 : Lattice)
    (hspin : s2.spin_values_vec_ = s.spin_values_vec_)
    (hmag : ∀ b, s.spin_values_vec_.getD b 0 ≠ 0 → M b) (fuel : Nat) {index : Nat}
    (hidx : M index) : ∀ (nbrs : List Nat) (p q rk rk2 p' rk' : Nat → Nat),
    (∀ j, M j → M (p j)) → AgreeOn M p q → AgreeOn M rk rk2 →
    union_neighbors fuel s index nbrs (p, rk) = some (p', rk') →
    ∃ q' rk2', union_neighbors fuel s2 index nbrs (q, rk2) = some (q', rk2') ∧
      AgreeOn M p' q' ∧ AgreeOn M rk' rk2' ∧ (∀ j, M j → M (p' j)) := by
  intro nbrs
  induction nbrs with
  | nil =>
    intro p q rk rk2 p' rk' hcl hag hrk h
    simp only [union_neighbors, Option.some.injEq, Prod.mk.injEq] at h
    obtain ⟨rfl, rfl⟩ := h
    exact ⟨q, rk2, rfl, hag, hrk, hcl⟩
  | cons b rest ih =>
    intro p q rk rk2 p' rk' hcl hag hrk h
    by_cases hcond : s.spin_values_vec_.getD b 0 ≠ 0 ∧
        s.spin_values_vec_.getD index 0 = s.spin_values_vec_.getD b 0
    · rw [union_neighbors, if_pos hcond] at h
      rw [union_neighbors, hspin, if_pos hcond]
      cases hu : union_clusters fuel p rk index b with
      | none => simp only [hu] at h; cases h
      | some st =>
        obtain ⟨p1, rk1⟩ := st
        simp only [hu] at h
        obtain ⟨q1, rk21, hu2, hag1, hrk1, hcl1⟩ :=
          union_clusters_congr hcl hidx (hmag b hcond.1) hag hrk hu
        obtain ⟨q', rk2', hrun, hag', hrk', hcl'⟩ := ih p1 q1 rk1 rk21 p' rk' hcl1 hag1 hrk1 h
        refine ⟨q', rk2', ?_, hag', hrk', hcl'⟩
        simp only [hu2]
        exact hrun
    · rw [union_neighbors, if_neg hcond] at h
      rw [union_neighbors, hspin, if_neg hcond]
      obtain ⟨q', rk2', hrun, hag', hrk', hcl'⟩ := ih p q rk rk2 p' rk' hcl hag hrk h
      exact ⟨q', rk2', hrun, hag', hrk', hcl'⟩

/-- The second loop of `find_clusters` reads `parent_` and `rank_` only at magnetic sites. -/
theorem union_sites_congr {M : Nat → Prop} (s s2 : Lattice)
    (hspin : s2.spin_values_vec_ = s.spin_values_vec_)
    (hnbrs : s2.neighbors_vec_ = s.neighbors_vec_)
    (hmag : ∀ b, s.spin_values_vec_.getD b 0 ≠ 0 → M b) (fuel : Nat) :
    ∀ (l : List Nat) (p q rk rk2 p' rk' : Nat → Nat), (∀ i ∈ l, M i) →
    (∀ j, M j → M (p j)) → AgreeOn M p q → AgreeOn M rk rk2 →
    union_sites fuel s l (p, rk) = some (p', rk') →
    ∃ q' rk2', union_sites fuel s2 l (q, rk2) = some (q', rk2') ∧
      AgreeOn M p' q' ∧ AgreeOn M rk' rk2' ∧ (∀ j, M j → M (p' j)) := by
  intro l
  induction l with
  | nil =>
    intro p q rk rk2 p' rk' _ hcl hag hrk h
    simp only [union_sites, Option.some.injEq, Prod.mk.injEq] at h
    obtain ⟨rfl, rfl⟩ := h
    exact ⟨q, rk2, rfl, hag, hrk, hcl⟩
  | cons a rest ih =>
    intro p q rk rk2 p' rk' hl hcl hag hrk h
    rw [union_sites] at h
    cases hu : union_neighbors fuel s a (s.neighbors_vec_.getD a []) (p, rk) with
    | none => simp only [hu] at h; cases h
    | some st =>
      obtain ⟨p1, rk1⟩ := st
      simp only [hu] at h
      obtain ⟨q1, rk21, hu2, hag1, hrk1, hcl1⟩ :=
        union_neighbors_congr s s2 hspin hmag fuel (hl a (List.mem_cons_self _ _)) _ p q rk rk2
          p1 rk1 hcl hag hrk hu
      obtain ⟨q', rk2', hrun, hag', hrk', hcl'⟩ :=
        ih p1 q1 rk1 rk21 p' rk' (fun i hi => hl i (List.mem_cons_of_mem _ hi)) hcl1 hag1 hrk1 h
      refine ⟨q', rk2', ?_, hag', hrk', hcl'⟩
      rw [union_sites, hnbrs, hu2]
      exact hrun

/-- The third loop of `find_clusters` reads `parent_` only at magnetic sites, so it builds
the same cluster map from contents that agree there. -/
theorem group_by_root_congr {M : Nat → Prop} (fuel : Nat) :
    ∀ (l : List Nat) (p q : Nat → Nat) (m : List (Nat × List Nat)) (p' : Nat → Nat)
      (m' : List (Nat × List Nat)), (∀ i ∈ l, M i) → (∀ j, M j → M (p j)) → AgreeOn M p q →
    group_by_root fuel l p m = some (p', m') →
    ∃ q', group_by_root fuel l q m = some (q', m') ∧ AgreeOn M p' q' := by
  intro l
  induction l with
  | nil =>
    intro p q m p' m' _ _ hag h
    simp only [group_by_root, Option.some.injEq, Prod.mk.injEq] at h
    obtain ⟨rfl, rfl⟩ := h
    exact ⟨q, rfl, hag⟩
  | cons a rest ih =>
    intro p q m p' m' hl hcl hag h
    rw [group_by_root] at h
    cases hf : find fuel p a with
    | none => simp only [hf] at h; cases h
    | some res =>
      obtain ⟨p1, r⟩ := res
      simp only [hf] at h
      obtain ⟨q1, hq1, hag1, hcl1, _⟩ :=
        find_congr fuel p q a p1 r hcl (hl a (List.mem_cons_self _ _)) hag hf
      obtain ⟨q', hrun, hag'⟩ := ih p1 q1 _ p' m'
        (fun i hi => hl i (List.mem_cons_of_mem _ hi)) hcl1 hag1 h
      refine ⟨q', ?_, hag'⟩
      rw [group_by_root, hq1]
      exact hrun

theorem classify_clusters_congr (s s2 : Lattice)
    (hspin : s2.spin_values_vec_ = s.spin_values_vec_)
    (hL : s2.lattice_size_ = s.lattice_size_) (hn : s2.n_layers_ = s.n_layers_)
    (hb : s2.boundary_conditions_ = s.boundary_conditions_) (clusters : List (List Nat)) :
    s2.classify_clusters clusters = s.classify_clusters clusters := by
  have hperc : ∀ c, s2.is_cluster_percolation c = s.is_cluster_percolation c :=
    fun c => is_cluster_percolation_congr s2 s hL hn hb c
  simp only [classify_clusters, hspin, hperc]

/-- Claim C19. When `ferro_indices_vec_` lists exactly the sites with non-zero spin and the
neighbour lists are in range, `find_clusters` returns the same four collections whatever
`parent_` and `rank_` hold on entry; it leaves `spin_values_vec_` and
`ferro_indices_vec_` as they are; the contents of `parent_` and `rank_` it leaves behind
agree at every magnetic index, and at every other index they are what they were on entry. -/
theorem find_clusters_ignores_stale_contents (s : Lattice)
    (map_order : List (Nat × List Nat) → List (Nat × List Nat))
    (hM : ∀ i, i ∈ s.ferro_indices_vec_ ↔ s.spin_values_vec_.getD i 0 ≠ 0)
    (_hnb : ∀ l ∈ s.neighbors_vec_, ∀ j ∈ l, j < s.lattice_volume_)
    (fuel : Nat) (hfuel : s.find_clusters_fuel ≤ fuel) (p0 rk0 : Nat → Nat) :
    ∃ sa sb r, find_clusters fuel map_order s = some (sa, r) ∧
      find_clusters fuel map_order { s with parent_ := p0, rank_ := rk0 } = some (sb, r) ∧
      sa.spin_values_vec_ = s.spin_values_vec_ ∧
      sa.ferro_indices_vec_ = s.ferro_indices_vec_ ∧
      sb.spin_values_vec_ = s.spin_values_vec_ ∧
      sb.ferro_indices_vec_ = s.ferro_indices_vec_ ∧
      (∀ i, i ∈ s.ferro_indices_vec_ → sa.parent_ i = sb.parent_ i ∧ sa.rank_ i = sb.rank_ i) ∧
      (∀ i, i ∉ s.ferro_indices_vec_ →
        (sa.parent_ i = s.parent_ i ∧ sa.rank_ i = s.rank_ i) ∧
        (sb.parent_ i = p0 i ∧ sb.rank_ i = rk0 i)) := by
  obtain ⟨hinv0, hsingle⟩ := init_union_find_inv s.ferro_indices_vec_ s.parent_ s.rank_
  obtain ⟨hin0, hframe0⟩ := init_union_find_spec s.ferro_indices_vec_ s.parent_ s.rank_
  obtain ⟨hin0', hframe0'⟩ := init_union_find_spec s.ferro_indices_vec_ p0 rk0
  have hsound0 : ∀ i j, i ∈ s.ferro_indices_vec_ → j ∈ s.ferro_indices_vec_ →
      SameSet (init_union_find s.ferro_indices_vec_ (s.parent_, s.rank_)).1 i j →
      s.same_sign_connected i j := by
    intro i j hi hj hij
    rw [hsingle i j hi hj hij]
    exact Relation.ReflTransGen.refl
  have hedge : ∀ i ∈ s.ferro_indices_vec_, i ∈ s.ferro_indices_vec_ ∧
      ∀ b ∈ s.neighbors_vec_.getD i [], (s.spin_values_vec_.getD b 0 ≠ 0 ∧
        s.spin_values_vec_.getD i 0 = s.spin_values_vec_.getD b 0) →
        b ∈ s.ferro_indices_vec_ ∧ s.same_sign_connected i b := by
    intro i hi
    refine ⟨hi, fun b hb hcond => ⟨(hM b).2 hcond.1, ?_⟩⟩
    exact Relation.ReflTransGen.single ⟨Or.inl hb, hcond.2 ▸ hcond.1, hcond.2⟩
  unfold find_clusters_fuel at hfuel
  obtain ⟨p1, rk1, hrun1, hinv1, -, -, -, hframe1⟩ :=
    @union_sites_spec s (fun i => i ∈ s.ferro_indices_vec_) (fun a b => s.same_sign_connected a b)
      (fun _ _ h => s.same_sign_connected_symm h)
      (fun _ _ _ h h' => s.same_sign_connected_trans h h') fuel s.ferro_indices_vec_
      (init_union_find s.ferro_indices_vec_ (s.parent_, s.rank_)).1
      (init_union_find s.ferro_indices_vec_ (s.parent_, s.rank_)).2 1 hinv0 hedge hsound0
      (by omega)
  have hroots : ∀ i, ∃ r, i ∈ s.ferro_indices_vec_ → IsRootOf p1 i r := by
    intro i
    by_cases hi : i ∈ s.ferro_indices_vec_
    · obtain ⟨r, hr, _⟩ := hinv1.root_of hi
      exact ⟨r, fun _ => hr⟩
    · exact ⟨0, fun h => absurd h hi⟩
  choose f hf using hroots
  obtain ⟨p2, hrun2, -, -, hframe2⟩ :=
    group_by_root_spec f (show 1 + (s.ferro_indices_vec_.map
        fun i => (s.neighbors_vec_.getD i []).length).sum < fuel by omega)
      s.ferro_indices_vec_ p1 [] hinv1 (fun i hi => hi) hf
  -- the second run, in step with the first
  have hag0 : AgreeOn (fun i => i ∈ s.ferro_indices_vec_)
      (init_union_find s.ferro_indices_vec_ (s.parent_, s.rank_)).1
      (init_union_find s.ferro_indices_vec_ (p0, rk0)).1 :=
    fun i hi => (hin0 i hi).1.trans (hin0' i hi).1.symm
  have hrk0 : AgreeOn (fun i => i ∈ s.ferro_indices_vec_)
      (init_union_find s.ferro_indices_vec_ (s.parent_, s.rank_)).2
      (init_union_find s.ferro_indices_vec_ (p0, rk0)).2 :=
    fun i hi => (hin0 i hi).2.trans (hin0' i hi).2.symm
  obtain ⟨q1, rk1', hrun1', hag1, hrkag1, -⟩ :=
    union_sites_congr s { s with parent_ := p0, rank_ := rk0 } rfl rfl
      (fun b hb => (hM b).2 hb) fuel s.ferro_indices_vec_ _ _ _ _ p1 rk1 (fun i hi => hi)
      hinv0.closed hag0 hrk0 hrun1
  obtain ⟨q2, hrun2', hag2⟩ :=
    group_by_root_congr fuel s.ferro_indices_vec_ p1 q1 [] p2 _ (fun i hi => hi)
      hinv1.closed hag1 hrun2
  have hrunA : union_sites fuel s s.ferro_indices_vec_
      (init_union_find s.ferro_indices_vec_ (s.parent_, s.rank_)) = some (p1, rk1) := hrun1
  have hrunB : union_sites fuel { s with parent_ := p0, rank_ := rk0 } s.ferro_indices_vec_
      (init_union_find s.ferro_indices_vec_ (p0, rk0)) = some (q1, rk1') := hrun1'
  have hA : find_clusters fuel map_order s
      = some ({ s with parent_ := p2, rank_ := rk1 }, s.classify_clusters
          ((map_order (group_fold f s.ferro_indices_vec_ [])).map fun entry => entry.2)) := by
    simp only [find_clusters, hrunA, hrun2]
  have hB : find_clusters fuel map_order { s with parent_ := p0, rank_ := rk0 }
      = some ({ s with parent_ := q2, rank_ := rk1' }, s.classify_clusters
          ((map_order (group_fold f s.ferro_indices_vec_ [])).map fun entry => entry.2)) := by
    simp only [find_clusters, hrunB, hrun2']
    rw [classify_clusters_congr s { s with parent_ := p0, rank_ := rk0 } rfl rfl rfl rfl]
  obtain ⟨pm, rkm, fm, hmaster, -, hframeB⟩ :=
    find_clusters_master { s with parent_ := p0, rank_ := rk0 } map_order hM fuel hfuel
  rw [hB] at hmaster
  simp only [Option.some.injEq, Prod.mk.injEq, Lattice.mk.injEq, true_and] at hmaster
  obtain ⟨⟨hq2, hrk1', -⟩, -⟩ := hmaster
  refine ⟨_, _, _, hA, hB, rfl, rfl, rfl, rfl, fun i hi => ⟨hag2 i hi, hrkag1 i hi⟩,
    fun i hi => ⟨⟨?_, ?_⟩, ?_⟩⟩
  · exact (hframe2 i hi).trans ((hframe1 i hi).1.trans (hframe0 i hi).1)
  · exact (hframe1 i hi).2.trans (hframe0 i hi).2
  · have := hframeB i hi
    rw [← hq2, ← hrk1'] at this
    exact this

theorem find_clusters_ignores_stale_contents_witness :
    ∃ sa sb r, find_clusters 8 id small_diluted = some (sa, r) ∧
      find_clusters 8 id { small_diluted with parent_ := fun i => i + 7, rank_ := fun _ => 9 }
        = some (sb, r) ∧
      sa.spin_values_vec_ = small_diluted.spin_values_vec_ ∧
      sa.ferro_indices_vec_ = small_diluted.ferro_indices_vec_ ∧
      sb.spin_values_vec_ = small_diluted.spin_values_vec_ ∧
      sb.ferro_indices_vec_ = small_diluted.ferro_indices_vec_ ∧
      (∀ i, i ∈ small_diluted.ferro_indices_vec_ →
        sa.parent_ i = sb.parent_ i ∧ sa.rank_ i = sb.rank_ i) ∧
      (∀ i, i ∉ small_diluted.ferro_indices_vec_ →
        (sa.parent_ i = small_diluted.parent_ i ∧ sa.rank_ i = small_diluted.rank_ i) ∧
        (sb.parent_ i = (fun i => i + 7) i ∧ sb.rank_ i = (fun _ => 9) i)) :=
  find_clusters_ignores_stale_contents small_diluted id small_diluted_magnetic (by decide) 8
    (by decide) (fun i => i + 7) (fun _ => 9)
theorem getD_set_int (sp : List Int) (j : Nat) (v : Int) (i : Nat) :
    (sp.set j v).getD i 0 = if i = j ∧ j < sp.length then v else sp.getD i 0 := by
  simp only [List.getD_eq_getElem?_getD, List.getElem?_set]
  by_cases h : j = i
  · subst h
    by_cases hl : j < sp.length
    · simp [hl]
    · simp [hl, List.getElem?_eq_none (Nat.le_of_not_lt hl)]
  · have h' : ¬ i = j := fun e => h e.symm
    simp [h, h']

theorem mem_magnetic_sites (sp : List Int) (i : Nat) :
    i ∈ magnetic_sites sp ↔ i < sp.length ∧ sp.getD i 0 ≠ 0 := by
  simp [magnetic_sites]

theorem magnetic_sites_nodup (sp : List Int) : (magnetic_sites sp).Nodup :=
  (List.nodup_range _).filter _

theorem magnetic_sites_set (sp : List Int) (z : Nat) :
    magnetic_sites (sp.set z 0) = (magnetic_sites sp).filter (fun i => decide (i ≠ z)) := by
  unfold magnetic_sites
  rw [List.length_set, List.filter_filter]
  apply List.filter_congr
  intro i hi
  rw [getD_set_int]
  by_cases h : i = z
  · subst h
    have : i < sp.length := List.mem_range.mp hi
    simp [this]
  · simp [h]

theorem eraseIdx_eq_filter (l : List Nat) (hl : l.Nodup) (r : Nat) (hr : r < l.length) :
    l.eraseIdx r = l.filter (fun i => decide (i ≠ l.getD r 0)) := by
  induction l generalizing r with
  | nil => simp at hr
  | cons a t ih =>
    have hat : a ∉ t := (List.nodup_cons.mp hl).1
    have htn : t.Nodup := (List.nodup_cons.mp hl).2
    cases r with
    | zero =>
      simp only [List.eraseIdx_cons_zero, List.getD_cons_zero]
      rw [List.filter_cons_of_neg (by simp)]
      symm
      rw [List.filter_eq_self]
      intro x hx
      have : x ≠ a := fun e => hat (e ▸ hx)
      simpa using this
    | succ r =>
      have hr' : r < t.length := by simpa using hr
      simp only [List.eraseIdx_cons_succ, List.getD_cons_succ]
      have hmem : t.getD r 0 ∈ t := by
        rw [List.getD_eq_getElem _ _ hr']
        exact List.getElem_mem _
      have hne : a ≠ t.getD r 0 := fun e => hat (e ▸ hmem)
      rw [List.filter_cons_of_pos (by simpa using hne), ih htn r hr']
theorem dilute_loop_spec (draws : Nat → Nat) (n : Nat) :
    ∀ (i : Nat) (sp : List Int),
      (∀ t, t < min n (magnetic_sites sp).length →
        draws (i + t) < (magnetic_sites sp).length - t) →
      ∃ zeroed : List Nat,
        zeroed.Nodup ∧
        zeroed.length = min n (magnetic_sites sp).length ∧
        (∀ z ∈ zeroed, z ∈ magnetic_sites sp ∧
          (dilute_loop draws n i (sp, magnetic_sites sp)).1.getD z 0 = 0) ∧
        (∀ j, j ∉ zeroed →
          (dilute_loop draws n i (sp, magnetic_sites sp)).1.getD j 0 = sp.getD j 0) ∧
        (dilute_loop draws n i (sp, magnetic_sites sp)).1.length = sp.length ∧
        (dilute_loop draws n i (sp, magnetic_sites sp)).2 =
          magnetic_sites (dilute_loop draws n i (sp, magnetic_sites sp)).1 ∧
        (magnetic_sites (dilute_loop draws n i (sp, magnetic_sites sp)).1).length =
          (magnetic_sites sp).length - min n (magnetic_sites sp).length := by
  induction n with
  | zero =>
    intro i sp _
    exact ⟨[], List.nodup_nil, by simp, by simp, by simp [dilute_loop], by simp [dilute_loop],
      by simp [dilute_loop], by simp [dilute_loop]⟩
  | succ n ih =>
    intro i sp hd
    by_cases hfe : magnetic_sites sp = []
    · refine ⟨[], List.nodup_nil, by simp [hfe], by simp, ?_, ?_, ?_, ?_⟩ <;>
        simp [dilute_loop, hfe]
    · have hpos : 0 < (magnetic_sites sp).length := List.length_pos.mpr hfe
      have hr : draws i < (magnetic_sites sp).length := by
        have := hd 0 (by omega)
        simpa using this
      have hnd := magnetic_sites_nodup sp
      have hstep : dilute_loop draws (n + 1) i (sp, magnetic_sites sp) =
          dilute_loop draws n (i + 1)
            (sp.set ((magnetic_sites sp).getD (draws i) 0) 0,
              magnetic_sites (sp.set ((magnetic_sites sp).getD (draws i) 0) 0)) := by
        rw [magnetic_sites_set, ← eraseIdx_eq_filter _ hnd _ hr]
        simp [dilute_loop, hfe]
      have hz : (magnetic_sites sp).getD (draws i) 0 ∈ magnetic_sites sp := by
        rw [List.getD_eq_getElem _ _ hr]
        exact List.getElem_mem _
      have hlen1 : (magnetic_sites (sp.set ((magnetic_sites sp).getD (draws i) 0) 0)).length =
          (magnetic_sites sp).length - 1 := by
        rw [magnetic_sites_set, ← eraseIdx_eq_filter _ hnd _ hr, List.length_eraseIdx]
        simp [hr]
      have hzlt : (magnetic_sites sp).getD (draws i) 0 < sp.length :=
        ((mem_magnetic_sites _ _).mp hz).1
      rw [hstep]
      generalize hzdef : (magnetic_sites sp).getD (draws i) 0 = z at *
      obtain ⟨Z, hZnd, hZlen, hZ, hout, hlen, hfe', hocc⟩ := ih (i + 1) (sp.set z 0) (by
        intro t ht
        rw [hlen1] at ht ⊢
        have := hd (t + 1) (by omega)
        have e : i + (t + 1) = i + 1 + t := by omega
        rw [e] at this
        omega)
      have hzZ : z ∉ Z := by
        intro hm
        have := (hZ z hm).1
        rw [magnetic_sites_set] at this
        simpa using (List.mem_filter.mp this).2
      refine ⟨z :: Z, List.nodup_cons.mpr ⟨hzZ, hZnd⟩, ?_, ?_, ?_, ?_, hfe', ?_⟩
      · rw [List.length_cons, hZlen, hlen1]; omega
      · intro y hy
        rcases List.mem_cons.mp hy with rfl | hy
        · refine ⟨hz, ?_⟩
          rw [hout _ hzZ, getD_set_int]
          simp [hzlt]
        · refine ⟨?_, (hZ y hy).2⟩
          have := (hZ y hy).1
          rw [magnetic_sites_set] at this
          exact (List.mem_filter.mp this).1
      · intro j hj
        have hjz : j ≠ z := fun e => hj (e ▸ List.mem_cons_self _ _)
        have hjZ : j ∉ Z := fun h => hj (List.mem_cons_of_mem _ h)
        rw [hout j hjZ, getD_set_int]
        simp [hjz]
      · rw [hlen, List.length_set]
      · rw [hocc, hlen1]; omega
theorem replace_random_spins_spec (s : Lattice) (non_magnetic_count : Nat) (draws : Nat → Nat)
    (hdraws : ∀ t, t < min non_magnetic_count s.occupancy → draws t < s.occupancy - t) :
    ∃ zeroed : List Nat,
      zeroed.Nodup ∧
      zeroed.length = min non_magnetic_count s.occupancy ∧
      (∀ z ∈ zeroed, z < s.spin_values_vec_.length ∧ s.spin_values_vec_.getD z 0 ≠ 0 ∧
        (replace_random_spins non_magnetic_count draws s).spin_values_vec_.getD z 0 = 0) ∧
      (∀ j, j ∉ zeroed →
        (replace_random_spins non_magnetic_count draws s).spin_values_vec_.getD j 0 =
          s.spin_values_vec_.getD j 0) ∧
      (replace_random_spins non_magnetic_count draws s).spin_values_vec_.length =
        s.spin_values_vec_.length ∧
      (replace_random_spins non_magnetic_count draws s).occupancy =
        s.occupancy - min non_magnetic_count s.occupancy ∧
      (non_magnetic_count = 0 → replace_random_spins non_magnetic_count draws s = s) ∧
      (0 < non_magnetic_count →
        (replace_random_spins non_magnetic_count draws s).ferro_indices_vec_ =
          magnetic_sites (replace_random_spins non_magnetic_count draws s).spin_values_vec_) ∧
      (replace_random_spins non_magnetic_count draws s).lattice_volume_ = s.lattice_volume_ := by
  by_cases hk : non_magnetic_count = 0
  · subst hk
    exact ⟨[], List.nodup_nil, by simp, by simp, by simp [replace_random_spins],
      by simp [replace_random_spins], by simp [replace_random_spins],
      fun _ => by simp [replace_random_spins], fun h => absurd h (by omega),
      by simp [replace_random_spins]⟩
  · by_cases hfe : magnetic_sites s.spin_values_vec_ = []
    · have hocc : s.occupancy = 0 := by simp [occupancy, hfe]
      have hrun : replace_random_spins non_magnetic_count draws s =
          { s with ferro_indices_vec_ := [] } := by
        simp [replace_random_spins, hk, hfe]
      rw [hrun]
      refine ⟨[], List.nodup_nil, by simp [hocc], by simp, by simp, rfl, ?_,
        fun h => absurd h hk, fun _ => hfe.symm, rfl⟩
      simp [occupancy, hfe]
    · have hrun : replace_random_spins non_magnetic_count draws s =
          { s with
            spin_values_vec_ := (dilute_loop draws non_magnetic_count 0
              (s.spin_values_vec_, magnetic_sites s.spin_values_vec_)).1,
            ferro_indices_vec_ := (dilute_loop draws non_magnetic_count 0
              (s.spin_values_vec_, magnetic_sites s.spin_values_vec_)).2 } := by
        simp [replace_random_spins, hk, hfe]
      obtain ⟨Z, hZnd, hZlen, hZ, hout, hlen, hfe', hocc⟩ :=
        dilute_loop_spec draws non_magnetic_count 0 s.spin_values_vec_ (by
          intro t ht
          have := hdraws t ht
          simpa [occupancy] using this)
      rw [hrun]
      refine ⟨Z, hZnd, hZlen, ?_, hout, hlen, hocc, fun h => absurd h hk, fun _ => hfe', rfl⟩
      intro z hz
      exact ⟨((mem_magnetic_sites _ _).mp (hZ z hz).1).1,
        ((mem_magnetic_sites _ _).mp (hZ z hz).1).2, (hZ z hz).2⟩

/-- Claim C13. For every spin field and every count `non_magnetic_count`, when the drawn
positions are inside the current list, `replace_random_spins` sets to zero exactly
`min non_magnetic_count occupancy` distinct sites that had a non-zero spin: there is a list
of such sites without repetition and of that length, every other site keeps its spin, and the
occupancy drops by that number.  With the count `0` the lattice, spin array and
`ferro_indices_vec_` included, is returned as it was. -/
theorem replace_random_spins_zeroes_min (s : Lattice) (non_magnetic_count : Nat)
    (draws : Nat → Nat)
    (hdraws : ∀ t, t < min non_magnetic_count s.occupancy → draws t < s.occupancy - t) :
    (∃ zeroed : List Nat,
      zeroed.Nodup ∧
      zeroed.length = min non_magnetic_count s.occupancy ∧
      (∀ z ∈ zeroed, z < s.spin_values_vec_.length ∧ s.spin_values_vec_.getD z 0 ≠ 0 ∧
        (replace_random_spins non_magnetic_count draws s).spin_values_vec_.getD z 0 = 0) ∧
      (∀ j, j ∉ zeroed →
        (replace_random_spins non_magnetic_count draws s).spin_values_vec_.getD j 0 =
          s.spin_values_vec_.getD j 0)) ∧
    (replace_random_spins non_magnetic_count draws s).spin_values_vec_.length =
      s.spin_values_vec_.length ∧
    (replace_random_spins non_magnetic_count draws s).occupancy =
      s.occupancy - min non_magnetic_count s.occupancy ∧
    (non_magnetic_count = 0 → replace_random_spins non_magnetic_count draws s = s) := by
  obtain ⟨Z, h1, h2, h3, h4, h5, h6, h7, -, -⟩ :=
    replace_random_spins_spec s non_magnetic_count draws hdraws
  exact ⟨⟨Z, h1, h2, h3, h4⟩, h5, h6, h7⟩

theorem small_diluted_occupancy : small_diluted.occupancy = 3 := by decide

theorem replace_random_spins_zeroes_min_witness :
    (∀ t, t < min 2 small_diluted.occupancy →
      (fun _ : Nat => 0) t < small_diluted.occupancy - t) ∧
    (replace_random_spins 2 (fun _ => 0) small_diluted).occupancy =
      small_diluted.occupancy - min 2 small_diluted.occupancy ∧
    (replace_random_spins 2 (fun _ => 0) small_diluted).spin_values_vec_ = [0, 0, 0, -1] :=
  ⟨by rw [small_diluted_occupancy]; intro t ht; simp at ht ⊢; omega,
    (replace_random_spins_zeroes_min small_diluted 2 (fun _ => 0)
      (by rw [small_diluted_occupancy]; intro t ht; simp at ht ⊢; omega)).2.2.1,
    by decide⟩
theorem flip_cluster_length (cluster : List Nat) :
    ∀ sp : List Int, (flip_cluster sp cluster).length = sp.length := by
  induction cluster with
  | nil => intro sp; rfl
  | cons a t ih =>
    intro sp
    show (flip_cluster (sp.set a (sp.getD a 0 * -1)) t).length = sp.length
    rw [ih, List.length_set]

theorem flip_cluster_natAbs (cluster : List Nat) :
    ∀ (sp : List Int) (i : Nat),
      ((flip_cluster sp cluster).getD i 0).natAbs = (sp.getD i 0).natAbs := by
  induction cluster with
  | nil => intro sp i; rfl
  | cons a t ih =>
    intro sp i
    show ((flip_cluster (sp.set a (sp.getD a 0 * -1)) t).getD i 0).natAbs = _
    rw [ih, getD_set_int]
    by_cases h : i = a ∧ a < sp.length
    · rw [if_pos h, h.1]
      simp
    · rw [if_neg h]

theorem flip_cluster_getD (cluster : List Nat) :
    ∀ (sp : List Int) (i : Nat), cluster.Nodup →
      (flip_cluster sp cluster).getD i 0 =
        if i ∈ cluster then - sp.getD i 0 else sp.getD i 0 := by
  induction cluster with
  | nil => intro sp i _; simp [flip_cluster]
  | cons a t ih =>
    intro sp i hnd
    have hat : a ∉ t := (List.nodup_cons.mp hnd).1
    show (flip_cluster (sp.set a (sp.getD a 0 * -1)) t).getD i 0 = _
    rw [ih _ _ (List.nodup_cons.mp hnd).2, getD_set_int]
    by_cases hia : i = a
    · subst hia
      rw [if_neg hat, if_pos (List.mem_cons_self _ _)]
      by_cases hl : i < sp.length
      · simp [hl]
      · have : sp.getD i 0 = 0 := List.getD_eq_default _ _ (Nat.le_of_not_lt hl)
        rw [if_neg (fun h => hl h.2), this]
        rfl
    · have h1 : ¬ (i = a ∧ a < sp.length) := fun h => hia h.1
      rw [if_neg h1]
      by_cases hit : i ∈ t
      · rw [if_pos hit, if_pos (List.mem_cons_of_mem _ hit)]
      · have : i ∉ a :: t := fun h => (List.mem_cons.mp h).elim hia hit
        rw [if_neg hit, if_neg this]

theorem getD_mem_flatten (table : List (List Nat)) (a x : Nat) (h : x ∈ table.getD a []) :
    x ∈ table.flatten := by
  by_cases ha : a < table.length
  · rw [List.getD_eq_getElem _ _ ha] at h
    exact List.mem_flatten.mpr ⟨_, List.getElem_mem _, h⟩
  · rw [List.getD_eq_default _ _ (Nat.le_of_not_lt ha)] at h
    exact absurd h (List.not_mem_nil _)

theorem WolfInv.start (s : Lattice) (start_index : Nat) (initial_spin : Int) :
    WolfInv s start_index initial_spin [start_index]
      (Function.update (fun _ => 0) start_index 1) where
  nodup := List.nodup_singleton _
  marked := by
    intro x
    by_cases h : x = start_index
    · subst h; simp
    · simp [Function.update, h]
  start_mem := List.mem_singleton_self _
  spin_eq := fun x hx => Or.inl (List.mem_singleton.mp hx)
  from_table := fun x hx => Or.inl (List.mem_singleton.mp hx)
  reach := by
    intro x hx
    rw [List.mem_singleton.mp hx]

theorem WolfInv.append_neighbor {s : Lattice} {start_index : Nat} {initial_spin : Int}
    {cluster : List Nat} {is_cluster : Nat → Nat}
    (h : WolfInv s start_index initial_spin cluster is_cluster) (current nb : Nat)
    (hcur : current ∈ cluster) (hnb : nb ∈ s.neighbors_vec_.getD current [])
    (hfree : is_cluster nb = 0) (hspin : initial_spin = s.spin_values_vec_.getD nb 0) :
    WolfInv s start_index initial_spin (cluster ++ [nb]) (Function.update is_cluster nb 1) where
  nodup := by
    have hnot : nb ∉ cluster := fun hm => (h.marked nb).mpr hm hfree
    exact List.Nodup.append h.nodup (List.nodup_singleton _)
      (by intro x hx hx1; rw [List.mem_singleton.mp hx1] at hx; exact hnot hx)
  marked := by
    intro x
    by_cases hx : x = nb
    · subst hx; simp
    · rw [Function.update_noteq hx, h.marked x]
      simp [hx]
  start_mem := List.mem_append_left _ h.start_mem
  spin_eq := by
    intro x hx
    rcases List.mem_append.mp hx with hx | hx
    · exact h.spin_eq x hx
    · rw [List.mem_singleton.mp hx]; exact Or.inr hspin.symm
  from_table := by
    intro x hx
    rcases List.mem_append.mp hx with hx | hx
    · exact h.from_table x hx
    · rw [List.mem_singleton.mp hx]; exact Or.inr (getD_mem_flatten _ _ _ hnb)
  reach := by
    intro x hx
    have hmono : ∀ y, Relation.ReflTransGen
        (fun a b => a ∈ cluster ∧ b ∈ cluster ∧ b ∈ s.neighbors_vec_.getD a []) start_index y →
        Relation.ReflTransGen (fun a b => a ∈ cluster ++ [nb] ∧ b ∈ cluster ++ [nb] ∧
          b ∈ s.neighbors_vec_.getD a []) start_index y := fun y hy =>
      Relation.ReflTransGen.mono (fun a b hab =>
        ⟨List.mem_append_left _ hab.1, List.mem_append_left _ hab.2.1, hab.2.2⟩) hy
    rcases List.mem_append.mp hx with hx | hx
    · exact hmono x (h.reach x hx)
    · rw [List.mem_singleton.mp hx]
      exact Relation.ReflTransGen.tail (hmono current (h.reach current hcur))
        ⟨List.mem_append_left _ hcur, List.mem_append_right _ (List.mem_singleton_self _), hnb⟩
theorem wolf_scan_spec (s : Lattice) (start_index : Nat) (initial_spin : Int)
    (coins : Nat → Bool) (current : Nat) (rest : List Nat) :
    ∀ (cluster : List Nat) (is_cluster : Nat → Nat) (used : Nat),
      WolfInv s start_index initial_spin cluster is_cluster →
      current ∈ cluster →
      (∀ nb ∈ rest, nb ∈ s.neighbors_vec_.getD current []) →
      WolfInv s start_index initial_spin
        (wolf_scan s.spin_values_vec_ initial_spin coins rest (cluster, is_cluster, used)).1
        (wolf_scan s.spin_values_vec_ initial_spin coins rest (cluster, is_cluster, used)).2.1 ∧
      ∃ ext, (wolf_scan s.spin_values_vec_ initial_spin coins rest
        (cluster, is_cluster, used)).1 = cluster ++ ext := by
  induction rest with
  | nil =>
    intro cluster is_cluster used h _ _
    exact ⟨h, [], by simp [wolf_scan]⟩
  | cons nb rest ih =>
    intro cluster is_cluster used h hcur hnbs
    have hrest : ∀ x ∈ rest, x ∈ s.neighbors_vec_.getD current [] :=
      fun x hx => hnbs x (List.mem_cons_of_mem _ hx)
    by_cases hc : is_cluster nb = 0 ∧ initial_spin = s.spin_values_vec_.getD nb 0
    · by_cases hcoin : coins used = true
      · have hstep : wolf_scan s.spin_values_vec_ initial_spin coins (nb :: rest)
            (cluster, is_cluster, used) =
            wolf_scan s.spin_values_vec_ initial_spin coins rest
              (cluster ++ [nb], Function.update is_cluster nb 1, used + 1) := by
          simp only [wolf_scan, hc, hcoin, and_self, if_true]
        rw [hstep]
        obtain ⟨h1, ext, h2⟩ := ih (cluster ++ [nb]) (Function.update is_cluster nb 1) (used + 1)
          (h.append_neighbor current nb hcur (hnbs nb (List.mem_cons_self _ _)) hc.1 hc.2)
          (List.mem_append_left _ hcur) hrest
        exact ⟨h1, [nb] ++ ext, by rw [h2, List.append_assoc]⟩
      · have hstep : wolf_scan s.spin_values_vec_ initial_spin coins (nb :: rest)
            (cluster, is_cluster, used) =
            wolf_scan s.spin_values_vec_ initial_spin coins rest
              (cluster, is_cluster, used + 1) := by
          simp only [wolf_scan, hc, hcoin, and_self, if_true]
          simp
        rw [hstep]
        exact ih cluster is_cluster (used + 1) h hcur hrest
    · have hstep : wolf_scan s.spin_values_vec_ initial_spin coins (nb :: rest)
          (cluster, is_cluster, used) =
          wolf_scan s.spin_values_vec_ initial_spin coins rest (cluster, is_cluster, used) := by
        simp only [wolf_scan, hc, if_false]
      rw [hstep]
      exact ih cluster is_cluster used h hcur hrest

theorem wolf_grow_spec (s : Lattice) (start_index : Nat) (initial_spin : Int)
    (coins : Nat → Bool) (bound : Nat)
    (hbound : ∀ cluster is_cluster,
      WolfInv s start_index initial_spin cluster is_cluster → cluster.length ≤ bound) :
    ∀ (fuel index : Nat) (st : List Nat × (Nat → Nat) × Nat),
      WolfInv s start_index initial_spin st.1 st.2.1 →
      index ≤ st.1.length →
      bound < fuel + index →
      ∃ st', wolf_grow s initial_spin coins fuel index st = some st' ∧
        WolfInv s start_index initial_spin st'.1 st'.2.1 := by
  intro fuel
  induction fuel with
  | zero =>
    intro index st h hle hlt
    have := hbound _ _ h
    omega
  | succ fuel ih =>
    intro index st h _ hlt
    obtain ⟨cluster, is_cluster, used⟩ := st
    by_cases hi : index < cluster.length
    · have hcur : cluster.getD index 0 ∈ cluster := by
        rw [List.getD_eq_getElem _ _ hi]
        exact List.getElem_mem _
      obtain ⟨h1, ext, h2⟩ := wolf_scan_spec s start_index initial_spin coins
        (cluster.getD index 0) (s.neighbors_vec_.getD (cluster.getD index 0) [])
        cluster is_cluster used h hcur (fun _ hx => hx)
      obtain ⟨st', hrun, hinv⟩ := ih (index + 1) _ h1
        (by rw [h2, List.length_append]; omega) (by omega)
      refine ⟨st', ?_, hinv⟩
      simp only [wolf_grow, hi, if_true]
      exact hrun
    · exact ⟨_, by simp only [wolf_grow, hi, if_false], h⟩

theorem WolfInv.length_le_table {s : Lattice} {start_index : Nat} {initial_spin : Int}
    {cluster : List Nat} {is_cluster : Nat → Nat}
    (h : WolfInv s start_index initial_spin cluster is_cluster) :
    cluster.length ≤ 1 + s.neighbors_vec_.flatten.length := by
  have hsub : cluster ⊆ start_index :: s.neighbors_vec_.flatten := by
    intro x hx
    rcases h.from_table x hx with e | e
    · rw [e]; exact List.mem_cons_self _ _
    · exact List.mem_cons_of_mem _ e
  have := (h.nodup.subperm hsub).length_le
  simpa [Nat.add_comm] using this

theorem WolfInv.length_le_spins {s : Lattice} {start_index : Nat} {initial_spin : Int}
    {cluster : List Nat} {is_cluster : Nat → Nat}
    (h : WolfInv s start_index initial_spin cluster is_cluster)
    (hstart : s.spin_values_vec_.getD start_index 0 = initial_spin) (hne : initial_spin ≠ 0) :
    cluster.length ≤ s.spin_values_vec_.length := by
  have hsub : cluster ⊆ List.range s.spin_values_vec_.length := by
    intro x hx
    have hsp : s.spin_values_vec_.getD x 0 = initial_spin := by
      rcases h.spin_eq x hx with e | e
      · rw [e]; exact hstart
      · exact e
    rw [List.mem_range]
    by_contra hge
    rw [List.getD_eq_default _ _ (Nat.le_of_not_lt hge)] at hsp
    exact hne hsp.symm
  have := (h.nodup.subperm hsub).length_le
  simpa using this

theorem wolf_cluster_spec (s : Lattice) (seed_draw : Nat) (coins : Nat → Bool) (bound : Nat)
    (hbound : ∀ cluster is_cluster,
      WolfInv s (s.ferro_indices_vec_.getD seed_draw 0)
        (s.spin_values_vec_.getD (s.ferro_indices_vec_.getD seed_draw 0) 0)
        cluster is_cluster → cluster.length ≤ bound)
    (fuel : Nat) (hfuel : bound < fuel) :
    ∃ cluster is_cluster, wolf_cluster fuel seed_draw coins s = some cluster ∧
      WolfInv s (s.ferro_indices_vec_.getD seed_draw 0)
        (s.spin_values_vec_.getD (s.ferro_indices_vec_.getD seed_draw 0) 0)
        cluster is_cluster := by
  obtain ⟨st', hrun, hinv⟩ := wolf_grow_spec s _ _ coins bound hbound fuel 0
    ([s.ferro_indices_vec_.getD seed_draw 0],
      Function.update (fun _ => 0) (s.ferro_indices_vec_.getD seed_draw 0) 1, 0)
    (WolfInv.start s _ _) (Nat.zero_le _) (by omega)
  refine ⟨st'.1, st'.2.1, ?_, hinv⟩
  simp only [wolf_cluster, hrun]
theorem wolf_returns (s : Lattice) (seed_draw : Nat) (coins : Nat → Bool) (fuel : Nat)
    (hfuel : s.wolf_fuel ≤ fuel) :
    ∃ cluster, wolf fuel seed_draw coins s =
        some { s with spin_values_vec_ := flip_cluster s.spin_values_vec_ cluster } ∧
      (s.ferro_indices_vec_ = [] → cluster = []) := by
  by_cases hfe : s.ferro_indices_vec_ = []
  · exact ⟨[], by unfold wolf; rw [if_pos hfe]; rfl, fun _ => rfl⟩
  · obtain ⟨cluster, is_cluster, hrun, -⟩ := wolf_cluster_spec s seed_draw coins
      (1 + s.neighbors_vec_.flatten.length) (fun _ _ h => h.length_le_table) fuel
      (by unfold wolf_fuel at hfuel; omega)
    exact ⟨cluster, by simp only [wolf, hfe, if_false, hrun], fun h => absurd h hfe⟩

theorem magnetic_sites_congr (sp sp' : List Int) (hlen : sp'.length = sp.length)
    (habs : ∀ i, (sp'.getD i 0).natAbs = (sp.getD i 0).natAbs) :
    magnetic_sites sp' = magnetic_sites sp := by
  unfold magnetic_sites
  rw [hlen]
  apply List.filter_congr
  intro i _
  have h := habs i
  have e : sp'.getD i 0 ≠ 0 ↔ sp.getD i 0 ≠ 0 := by
    rw [← Int.natAbs_ne_zero, ← Int.natAbs_ne_zero (a := sp.getD i 0), h]
  exact decide_eq_decide.mpr e

/-- Claim C15. For every lattice state, every seed draw and every sequence of Bernoulli
outcomes, `wolf` returns once the growth loop is given `wolf_fuel` tests, and the lattice it
returns has the same `ferro_indices_vec_` (same entries in the same order), a spin array of
the same length, and at every site a spin of the same magnitude: a zero spin stays zero and a
spin `1` or `-1` stays `1` or `-1`, so that the occupancy is the same.  When
`ferro_indices_vec_` is empty the spin array is unchanged. -/
theorem wolf_keeps_occupancy (s : Lattice) (seed_draw : Nat) (coins : Nat → Bool) (fuel : Nat)
    (hfuel : s.wolf_fuel ≤ fuel) :
    ∃ s', wolf fuel seed_draw coins s = some s' ∧
      s'.ferro_indices_vec_ = s.ferro_indices_vec_ ∧
      s'.spin_values_vec_.length = s.spin_values_vec_.length ∧
      (∀ i, (s'.spin_values_vec_.getD i 0).natAbs = (s.spin_values_vec_.getD i 0).natAbs) ∧
      (∀ i, s.spin_values_vec_.getD i 0 = 0 → s'.spin_values_vec_.getD i 0 = 0) ∧
      (∀ i, s.spin_values_vec_.getD i 0 = 1 ∨ s.spin_values_vec_.getD i 0 = -1 →
        s'.spin_values_vec_.getD i 0 = 1 ∨ s'.spin_values_vec_.getD i 0 = -1) ∧
      s'.occupancy = s.occupancy ∧
      (s.ferro_indices_vec_ = [] → s'.spin_values_vec_ = s.spin_values_vec_) := by
  obtain ⟨cluster, hrun, hempty⟩ := wolf_returns s seed_draw coins fuel hfuel
  have habs := fun i => flip_cluster_natAbs cluster s.spin_values_vec_ i
  refine ⟨_, hrun, rfl, flip_cluster_length _ _, habs, ?_, ?_, ?_, ?_⟩
  · intro i h0
    have := habs i
    rw [h0] at this
    exact Int.natAbs_eq_zero.mp this
  · intro i h1
    have := habs i
    show (flip_cluster s.spin_values_vec_ cluster).getD i 0 = 1 ∨
      (flip_cluster s.spin_values_vec_ cluster).getD i 0 = -1
    rcases h1 with h1 | h1 <;> rw [h1] at this <;> omega
  · show (magnetic_sites (flip_cluster s.spin_values_vec_ cluster)).length =
      (magnetic_sites s.spin_values_vec_).length
    rw [magnetic_sites_congr _ _ (flip_cluster_length _ _) habs]
  · intro h
    rw [hempty h]
    rfl

theorem wolf_keeps_occupancy_witness :
    small_diluted.wolf_fuel ≤ 10 ∧
    ∃ s', wolf 10 1 (fun _ => true) small_diluted = some s' ∧
      s'.ferro_indices_vec_ = small_diluted.ferro_indices_vec_ ∧
      s'.spin_values_vec_.length = small_diluted.spin_values_vec_.length ∧
      (∀ i, (s'.spin_values_vec_.getD i 0).natAbs =
        (small_diluted.spin_values_vec_.getD i 0).natAbs) ∧
      (∀ i, small_diluted.spin_values_vec_.getD i 0 = 0 → s'.spin_values_vec_.getD i 0 = 0) ∧
      (∀ i, small_diluted.spin_values_vec_.getD i 0 = 1 ∨
          small_diluted.spin_values_vec_.getD i 0 = -1 →
        s'.spin_values_vec_.getD i 0 = 1 ∨ s'.spin_values_vec_.getD i 0 = -1) ∧
      s'.occupancy = small_diluted.occupancy ∧
      (small_diluted.ferro_indices_vec_ = [] →
        s'.spin_values_vec_ = small_diluted.spin_values_vec_) :=
  ⟨by decide, wolf_keeps_occupancy small_diluted 1 (fun _ => true) 10 (by decide)⟩
/-- Claim C16. For every lattice state whose `ferro_indices_vec_` holds exactly the sites with
a non-zero spin, with a seed drawn inside that list, and for every sequence of Bernoulli
outcomes, `wolf` returns once the growth loop is given more than `lattice_volume_` tests, and
the sites whose spin differs afterwards are exactly the members of the grown cluster.  The
cluster contains the seed and no site twice, every member had the seed's non-zero spin and
has its negation afterwards, every member is reached from the seed by neighbour links between
members, and the cluster has at most `lattice_volume_` members. -/
theorem wolf_flips_exactly_the_cluster (s : Lattice) (seed_draw : Nat) (coins : Nat → Bool)
    (hlen : s.spin_values_vec_.length = s.lattice_volume_)
    (hM : ∀ i, i ∈ s.ferro_indices_vec_ ↔ s.spin_values_vec_.getD i 0 ≠ 0)
    (hseed : seed_draw < s.ferro_indices_vec_.length)
    (fuel : Nat) (hfuel : s.lattice_volume_ < fuel) :
    ∃ cluster s', wolf_cluster fuel seed_draw coins s = some cluster ∧
      wolf fuel seed_draw coins s = some s' ∧
      (∀ i, s'.spin_values_vec_.getD i 0 ≠ s.spin_values_vec_.getD i 0 ↔ i ∈ cluster) ∧
      s.ferro_indices_vec_.getD seed_draw 0 ∈ cluster ∧
      cluster.Nodup ∧
      (∀ m ∈ cluster,
        s.spin_values_vec_.getD m 0 =
          s.spin_values_vec_.getD (s.ferro_indices_vec_.getD seed_draw 0) 0 ∧
        s.spin_values_vec_.getD m 0 ≠ 0 ∧
        s'.spin_values_vec_.getD m 0 = - s.spin_values_vec_.getD m 0) ∧
      (∀ m ∈ cluster, Relation.ReflTransGen
        (fun a b => a ∈ cluster ∧ b ∈ cluster ∧ b ∈ s.neighbors_vec_.getD a [])
        (s.ferro_indices_vec_.getD seed_draw 0) m) ∧
      cluster.length ≤ s.lattice_volume_ := by
  have hfe : s.ferro_indices_vec_ ≠ [] := by
    intro h
    rw [h] at hseed
    exact absurd hseed (by simp)
  have hstart : s.ferro_indices_vec_.getD seed_draw 0 ∈ s.ferro_indices_vec_ := by
    rw [List.getD_eq_getElem _ _ hseed]
    exact List.getElem_mem _
  have hne : s.spin_values_vec_.getD (s.ferro_indices_vec_.getD seed_draw 0) 0 ≠ 0 :=
    (hM _).mp hstart
  obtain ⟨cluster, is_cluster, hrun, hinv⟩ := wolf_cluster_spec s seed_draw coins
    s.lattice_volume_ (fun _ _ h => hlen ▸ h.length_le_spins rfl hne) fuel hfuel
  have hsp : ∀ m ∈ cluster, s.spin_values_vec_.getD m 0 =
      s.spin_values_vec_.getD (s.ferro_indices_vec_.getD seed_draw 0) 0 := by
    intro m hm
    rcases hinv.spin_eq m hm with e | e
    · rw [e]
    · exact e
  have hflip := fun i => flip_cluster_getD cluster s.spin_values_vec_ i hinv.nodup
  refine ⟨cluster, { s with spin_values_vec_ := flip_cluster s.spin_values_vec_ cluster },
    hrun, by simp only [wolf, hfe, if_false, hrun], ?_, hinv.start_mem, hinv.nodup, ?_,
    hinv.reach, hlen ▸ hinv.length_le_spins rfl hne⟩
  · intro i
    show (flip_cluster s.spin_values_vec_ cluster).getD i 0 ≠ s.spin_values_vec_.getD i 0 ↔ _
    rw [hflip i]
    by_cases hi : i ∈ cluster
    · have h0 : s.spin_values_vec_.getD i 0 ≠ 0 := by rw [hsp i hi]; exact hne
      rw [if_pos hi]
      exact ⟨fun _ => hi, fun _ => by omega⟩
    · rw [if_neg hi]
      exact ⟨fun h => absurd rfl h, fun h => absurd h hi⟩
  · intro m hm
    refine ⟨hsp m hm, by rw [hsp m hm]; exact hne, ?_⟩
    show (flip_cluster s.spin_values_vec_ cluster).getD m 0 = _
    rw [hflip m, if_pos hm]

theorem wolf_flips_exactly_the_cluster_witness :
    small_diluted.spin_values_vec_.length = small_diluted.lattice_volume_ ∧
    1 < small_diluted.ferro_indices_vec_.length ∧
    small_diluted.lattice_volume_ < 5 ∧
    ∃ cluster s', wolf_cluster 5 1 (fun _ => true) small_diluted = some cluster ∧
      wolf 5 1 (fun _ => true) small_diluted = some s' ∧
      (∀ i, s'.spin_values_vec_.getD i 0 ≠ small_diluted.spin_values_vec_.getD i 0 ↔
        i ∈ cluster) ∧
      small_diluted.ferro_indices_vec_.getD 1 0 ∈ cluster ∧
      cluster.Nodup ∧
      (∀ m ∈ cluster,
        small_diluted.spin_values_vec_.getD m 0 =
          small_diluted.spin_values_vec_.getD (small_diluted.ferro_indices_vec_.getD 1 0) 0 ∧
        small_diluted.spin_values_vec_.getD m 0 ≠ 0 ∧
        s'.spin_values_vec_.getD m 0 = - small_diluted.spin_values_vec_.getD m 0) ∧
      (∀ m ∈ cluster, Relation.ReflTransGen
        (fun a b => a ∈ cluster ∧ b ∈ cluster ∧ b ∈ small_diluted.neighbors_vec_.getD a [])
        (small_diluted.ferro_indices_vec_.getD 1 0) m) ∧
      cluster.length ≤ small_diluted.lattice_volume_ :=
  ⟨by decide, by decide, by decide,
    wolf_flips_exactly_the_cluster small_diluted 1 (fun _ => true) (by decide)
      small_diluted_magnetic (by decide) 5 (by decide)⟩
theorem initialize_fill (coins : Nat → Bool) (n : Nat) :
    (List.range n).foldl
      (fun (st : List Int × List Nat) i => (st.1 ++ [if coins i then 1 else -1], st.2 ++ [i]))
      ([], []) =
    ((List.range n).map (fun i => if coins i then (1 : Int) else -1), List.range n) := by
  induction n with
  | zero => rfl
  | succ n ih => rw [List.range_succ, List.foldl_append, ih]; simp

theorem initialize_lattice_eq (coins : Nat → Bool) (s : Lattice) :
    initialize_lattice coins s =
      { s with
        spin_values_vec_ := (List.range s.lattice_volume_).map
          (fun i => if coins i then (1 : Int) else -1),
        ferro_indices_vec_ := List.range s.lattice_volume_,
        parent_ := fun _ => 0, rank_ := fun _ => 0 } := by
  simp only [initialize_lattice, initialize_fill]

theorem spin_field_invariant_initialize (coins : Nat → Bool) (s : Lattice) :
    (initialize_lattice coins s).spin_field_invariant ∧
    (initialize_lattice coins s).ferro_indices_vec_ = List.range s.lattice_volume_ ∧
    (initialize_lattice coins s).lattice_volume_ = s.lattice_volume_ ∧
    ∀ i, i < s.lattice_volume_ →
      (initialize_lattice coins s).spin_values_vec_.getD i 0 = (if coins i then 1 else -1) := by
  rw [initialize_lattice_eq]
  have hget : ∀ i, i < s.lattice_volume_ →
      ((List.range s.lattice_volume_).map (fun i => if coins i then (1 : Int) else -1)).getD i 0
        = (if coins i then 1 else -1) := by
    intro i hi
    rw [List.getD_eq_getElem _ _ (by simpa using hi)]
    simp
  refine ⟨⟨?_, List.nodup_range _, ?_, ?_⟩, rfl, rfl, hget⟩
  · show ((List.range s.lattice_volume_).map _).length = s.lattice_volume_
    simp
  · intro v hv
    obtain ⟨i, -, rfl⟩ := List.mem_map.mp hv
    by_cases h : coins i = true <;> simp [h]
  · intro i
    show i ∈ List.range s.lattice_volume_ ↔ i < s.lattice_volume_ ∧ _ ≠ 0
    rw [List.mem_range]
    refine ⟨fun hi => ⟨hi, ?_⟩, fun h => h.1⟩
    show ((List.range s.lattice_volume_).map _).getD i 0 ≠ 0
    rw [hget i hi]
    by_cases h : coins i = true <;> simp [h]

theorem mem_of_getD_ne_zero (sp : List Int) (i : Nat) (h : sp.getD i 0 ≠ 0) :
    i < sp.length ∧ sp.getD i 0 ∈ sp := by
  by_cases hi : i < sp.length
  · refine ⟨hi, ?_⟩
    rw [List.getD_eq_getElem _ _ hi]
    exact List.getElem_mem _
  · exact absurd (List.getD_eq_default _ _ (Nat.le_of_not_lt hi)) h

theorem spin_field_invariant_replace (s : Lattice) (non_magnetic_count : Nat)
    (draws : Nat → Nat)
    (hdraws : ∀ t, t < min non_magnetic_count s.occupancy → draws t < s.occupancy - t)
    (hinv : s.spin_field_invariant) :
    (replace_random_spins non_magnetic_count draws s).spin_field_invariant := by
  obtain ⟨Z, -, -, hZ, hout, hlen, -, hzero, hpos, hvol⟩ :=
    replace_random_spins_spec s non_magnetic_count draws hdraws
  by_cases hk : non_magnetic_count = 0
  · rw [hzero hk]; exact hinv
  · have hk' : 0 < non_magnetic_count := Nat.pos_of_ne_zero hk
    obtain ⟨h1, -, h3, -⟩ := hinv
    refine ⟨by rw [hlen, hvol, h1], ?_, ?_, ?_⟩
    · rw [hpos hk']; exact magnetic_sites_nodup _
    · intro v hv
      obtain ⟨i, hi, rfl⟩ := List.getElem_of_mem hv
      by_cases hz : i ∈ Z
      · have := (hZ i hz).2.2
        rw [List.getD_eq_getElem _ _ hi] at this
        exact Or.inr (Or.inl this)
      · have := hout i hz
        rw [List.getD_eq_getElem _ _ hi] at this
        rw [this]
        by_cases h0 : s.spin_values_vec_.getD i 0 = 0
        · exact Or.inr (Or.inl h0)
        · exact h3 _ (mem_of_getD_ne_zero _ _ h0).2
    · intro i
      rw [hpos hk', mem_magnetic_sites, hlen, hvol, h1]
theorem spin_field_invariant_wolf (s : Lattice) (seed_draw : Nat) (coins : Nat → Bool)
    (fuel : Nat) (hfuel : s.wolf_fuel ≤ fuel) (hinv : s.spin_field_invariant) :
    ∃ s', wolf fuel seed_draw coins s = some s' ∧ s'.spin_field_invariant := by
  obtain ⟨cluster, hrun, -⟩ := wolf_returns s seed_draw coins fuel hfuel
  have habs := fun i => flip_cluster_natAbs cluster s.spin_values_vec_ i
  have hlen := flip_cluster_length cluster s.spin_values_vec_
  obtain ⟨h1, h2, h3, h4⟩ := hinv
  refine ⟨_, hrun, ?_, h2, ?_, ?_⟩
  · show (flip_cluster s.spin_values_vec_ cluster).length = s.lattice_volume_
    rw [hlen, h1]
  · intro v hv
    obtain ⟨i, hi, rfl⟩ := List.getElem_of_mem
      (show v ∈ flip_cluster s.spin_values_vec_ cluster from hv)
    have ha := habs i
    rw [List.getD_eq_getElem _ _ hi, List.getD_eq_getElem _ _ (hlen ▸ hi)] at ha
    have := h3 _ (List.getElem_mem (hlen ▸ hi))
    omega
  · intro i
    show i ∈ s.ferro_indices_vec_ ↔
      i < s.lattice_volume_ ∧ (flip_cluster s.spin_values_vec_ cluster).getD i 0 ≠ 0
    rw [h4 i]
    have ha := habs i
    have e : (flip_cluster s.spin_values_vec_ cluster).getD i 0 ≠ 0 ↔
        s.spin_values_vec_.getD i 0 ≠ 0 := by omega
    rw [e]

theorem spin_field_invariant_find_clusters (s : Lattice)
    (map_order : List (Nat × List Nat) → List (Nat × List Nat))
    (fuel : Nat) (hfuel : s.find_clusters_fuel ≤ fuel) (hinv : s.spin_field_invariant) :
    ∃ s' r, find_clusters fuel map_order s = some (s', r) ∧ s'.spin_field_invariant := by
  have hM : ∀ i, i ∈ s.ferro_indices_vec_ ↔ s.spin_values_vec_.getD i 0 ≠ 0 := by
    intro i
    rw [hinv.2.2.2 i]
    refine ⟨fun h => h.2, fun h => ⟨?_, h⟩⟩
    rw [← hinv.1]
    exact (mem_of_getD_ne_zero _ _ h).1
  obtain ⟨p', rk', f, hrun, -, -⟩ := find_clusters_master s map_order hM fuel hfuel
  exact ⟨_, _, hrun, hinv⟩

/-- Claim C14. The invariant of the spin field, that the spin array has one entry per site,
each `-1`, `0` or `1`, and that `ferro_indices_vec_` is free of duplicates and holds exactly
the sites below `lattice_volume_` with a non-zero spin, holds after `initialize` of any
lattice `s0` for every sequence of coins, with every site magnetic.  From a lattice `s` that
satisfies it, it holds again after `replace_random_spins` for every count and all draws
inside the current list, after `wolf` for every seed draw and all Bernoulli outcomes, and
after `find_clusters`; `wolf` and `find_clusters` return once given `wolf_fuel` and
`find_clusters_fuel`. -/
theorem spin_field_invariant_maintained (s0 s : Lattice) (init_coins : Nat → Bool)
    (non_magnetic_count : Nat) (draws : Nat → Nat)
    (hdraws : ∀ t, t < min non_magnetic_count s.occupancy → draws t < s.occupancy - t)
    (seed_draw : Nat) (coins : Nat → Bool) (wolf_tests : Nat) (hwolf : s.wolf_fuel ≤ wolf_tests)
    (map_order : List (Nat × List Nat) → List (Nat × List Nat))
    (fuel : Nat) (hfuel : s.find_clusters_fuel ≤ fuel)
    (hinv : s.spin_field_invariant) :
    ((initialize_lattice init_coins s0).spin_field_invariant ∧
      (initialize_lattice init_coins s0).ferro_indices_vec_ = List.range s0.lattice_volume_ ∧
      (∀ i, i < s0.lattice_volume_ →
        (initialize_lattice init_coins s0).spin_values_vec_.getD i 0 ≠ 0)) ∧
    (replace_random_spins non_magnetic_count draws s).spin_field_invariant ∧
    (∃ s', wolf wolf_tests seed_draw coins s = some s' ∧ s'.spin_field_invariant) ∧
    (∃ s' r, find_clusters fuel map_order s = some (s', r) ∧ s'.spin_field_invariant) := by
  obtain ⟨hi1, hi2, -, hi4⟩ := spin_field_invariant_initialize init_coins s0
  refine ⟨⟨hi1, hi2, ?_⟩, spin_field_invariant_replace s non_magnetic_count draws hdraws hinv,
    spin_field_invariant_wolf s seed_draw coins wolf_tests hwolf hinv,
    spin_field_invariant_find_clusters s map_order fuel hfuel hinv⟩
  intro i hi
  rw [hi4 i hi]
  by_cases h : init_coins i = true <;> simp [h]

theorem small_diluted_invariant : small_diluted.spin_field_invariant := by
  refine ⟨by decide, by decide, by decide, fun i => ?_⟩
  rw [small_diluted_magnetic i]
  refine ⟨fun h => ⟨?_, h⟩, fun h => h.2⟩
  have := (mem_of_getD_ne_zero _ _ h).1
  exact this

theorem spin_field_invariant_maintained_witness :
    (∀ t, t < min 2 small_diluted.occupancy →
      (fun _ : Nat => 0) t < small_diluted.occupancy - t) ∧
    small_diluted.wolf_fuel ≤ 10 ∧
    small_diluted.find_clusters_fuel ≤ 8 ∧
    small_diluted.spin_field_invariant ∧
    ((initialize_lattice (fun _ => true) small_diluted).spin_field_invariant ∧
      (initialize_lattice (fun _ => true) small_diluted).ferro_indices_vec_ =
        List.range small_diluted.lattice_volume_ ∧
      (∀ i, i < small_diluted.lattice_volume_ →
        (initialize_lattice (fun _ => true) small_diluted).spin_values_vec_.getD i 0 ≠ 0)) ∧
    (replace_random_spins 2 (fun _ => 0) small_diluted).spin_field_invariant ∧
    (∃ s', wolf 10 1 (fun _ => true) small_diluted = some s' ∧ s'.spin_field_invariant) ∧
    (∃ s' r, find_clusters 8 id small_diluted = some (s', r) ∧ s'.spin_field_invariant) :=
  ⟨by rw [small_diluted_occupancy]; intro t ht; simp at ht ⊢; omega, by decide, by decide,
    small_diluted_invariant,
    spin_field_invariant_maintained small_diluted small_diluted (fun _ => true) 2 (fun _ => 0)
      (by rw [small_diluted_occupancy]; intro t ht; simp at ht ⊢; omega)
      1 (fun _ => true) 10 (by decide) id 8 (by decide) small_diluted_invariant⟩
end Lattice

end DiluteMagnets
